import Mathlib

/-!
Verification of the sliding-puzzle search engine and tree layout.

The definitions below are a shallow embedding of the Rust sources:
  * `src/logic/mod.rs`   : `Puzzle`, `Direction`, `OpenSet`, `solve_from_initial`
  * `src/logic/bfs.rs`   : `BfsHeuristic`
  * `src/draw_tree.rs`   : `build_depth`, `build_width_phase1`, `build_width_phase2`

Machine integers (`i32`) are embedded as `Int`; all arithmetic performed by
the program stays far below the `i32` range on the inputs the theorems
quantify over, so wrap-around is never exercised.  `u8` cell values are
embedded as `Nat`.
-/

set_option maxHeartbeats 1000000

namespace SlidingPuzzle

/-- Embeds `Puzzle` from `src/logic/mod.rs`: a 3x3 board of `u8` values,
represented as a function from (row, column) to the cell value. -/
structure Puzzle where
  board : Fin 3 → Fin 3 → Nat

/-- Row-major list of the nine board positions, in the order the Rust code
iterates (`for i in 0..3 { for j in 0..3 }`). -/
def positions : List (Fin 3 × Fin 3) :=
  [(0, 0), (0, 1), (0, 2), (1, 0), (1, 1), (1, 2), (2, 0), (2, 1), (2, 2)]

namespace Puzzle

/-- Embeds `Puzzle::find_zero`: scan the board in row-major order and return
the first position holding value 0, or `none`. -/
def find_zero (p : Puzzle) : Option (Fin 3 × Fin 3) :=
  positions.find? (fun q => p.board q.1 q.2 == 0)

/-- Embeds `Puzzle::get_value`. -/
def get_value (p : Puzzle) (i j : Fin 3) : Nat := p.board i j

end Puzzle

/-- Embeds `Direction` from `src/logic/mod.rs`. -/
inductive Direction where
  | up
  | down
  | left
  | right
  deriving DecidableEq

namespace Direction

/-- Embeds `Direction::all`: the fixed enumeration order Up, Down, Left, Right. -/
def all : List Direction := [.up, .down, .left, .right]

/-- Embeds `Direction::reverse`. -/
def reverse : Direction → Direction
  | .up => .down
  | .down => .up
  | .left => .right
  | .right => .left

end Direction

/-- The (row, column) displacement of the blank for a direction, as in the
`match` inside `Puzzle::move_zero` (`i32` arithmetic). -/
def Direction.delta : Direction → Int × Int
  | .up => (-1, 0)
  | .down => (1, 0)
  | .left => (0, -1)
  | .right => (0, 1)

/-- Embeds `Puzzle::move_zero`: find the first zero cell; compute the target
cell in `i32` arithmetic; if it is inside the 3x3 grid, swap the zero with the
target cell's value, otherwise return `none`. -/
def Puzzle.move_zero (p : Puzzle) (d : Direction) : Option Puzzle :=
  match p.find_zero with
  | none => none
  | some (i, j) =>
    let ni : Int := (i : Int) + d.delta.1
    let nj : Int := (j : Int) + d.delta.2
    if h : 0 ≤ ni ∧ ni < 3 ∧ 0 ≤ nj ∧ nj < 3 then
      let ni' : Fin 3 := ⟨ni.toNat, by omega⟩
      let nj' : Fin 3 := ⟨nj.toNat, by omega⟩
      some ⟨fun r c =>
        if r = ni' ∧ c = nj' then 0
        else if r = i ∧ c = j then p.board ni' nj'
        else p.board r c⟩
    else
      none

/-- The board read out in row-major order as a list of nine values. -/
def Puzzle.flatten (p : Puzzle) : List Nat :=
  positions.map (fun q => p.board q.1 q.2)

@[ext] lemma Puzzle.ext {p q : Puzzle}
    (h : ∀ i j : Fin 3, p.board i j = q.board i j) : p = q := by
  cases p
  cases q
  simp only [Puzzle.mk.injEq]
  funext i j
  exact h i j

lemma Puzzle.flatten_inj {p q : Puzzle} (h : p.flatten = q.flatten) : p = q := by
  simp only [Puzzle.flatten, positions, List.map_cons, List.map_nil,
    List.cons.injEq, and_true] at h
  obtain ⟨h1, h2, h3, h4, h5, h6, h7, h8, h9⟩ := h
  ext i j
  fin_cases i <;> fin_cases j <;> assumption

instance : DecidableEq Puzzle := fun p q =>
  decidable_of_iff (p.flatten = q.flatten)
    ⟨Puzzle.flatten_inj, fun h => by rw [h]⟩

/-- A valid 8-puzzle state: the nine cells hold exactly the values 0..8
(in particular exactly one cell is blank).  This is the `Puzzle` invariant
stated in the specification's data model. -/
def Puzzle.Valid (p : Puzzle) : Prop :=
  List.Perm p.flatten [0, 1, 2, 3, 4, 5, 6, 7, 8]

instance : DecidablePred Puzzle.Valid := fun p =>
  inferInstanceAs (Decidable (List.Perm p.flatten _))

/-- A puzzle state holds exactly one blank cell. -/
def Puzzle.OneZero (p : Puzzle) : Prop :=
  ∃! q : Fin 3 × Fin 3, p.board q.1 q.2 = 0

instance : DecidablePred Puzzle.OneZero := fun p =>
  decidable_of_iff
    (∃ q : Fin 3 × Fin 3, p.board q.1 q.2 = 0 ∧
      ∀ r : Fin 3 × Fin 3, p.board r.1 r.2 = 0 → r = q) Iff.rfl

lemma positions_complete (z : Fin 3 × Fin 3) : z ∈ positions := by
  revert z; decide

lemma positions_nodup : positions.Nodup := by decide

lemma find?_eq_some_of_unique {α : Type} (f : α → Bool) (z : α) :
    ∀ l : List α, z ∈ l → f z = true → (∀ x ∈ l, f x = true → x = z) →
      l.find? f = some z := by
  intro l
  induction l with
  | nil => intro h; cases h
  | cons a t ih =>
    intro hz hfz hu
    by_cases ha : f a = true
    · have haz : a = z := hu a (List.mem_cons_self a t) ha
      cases haz
      simp [List.find?, ha]
    · have haz : a ≠ z := fun h => ha (h ▸ hfz)
      have hzt : z ∈ t := by
        rcases List.mem_cons.1 hz with h | h
        · exact absurd h.symm haz
        · exact h
      simp only [List.find?, Bool.not_eq_true] at ha ⊢
      rw [ha]
      exact ih hzt hfz (fun x hx => hu x (List.mem_cons_of_mem a hx))

lemma Puzzle.find_zero_of_unique (p : Puzzle) (z : Fin 3 × Fin 3)
    (hz : p.board z.1 z.2 = 0)
    (hu : ∀ q : Fin 3 × Fin 3, p.board q.1 q.2 = 0 → q = z) :
    p.find_zero = some z := by
  apply find?_eq_some_of_unique _ _ _ (positions_complete z)
  · simp [hz]
  · intro x _ hx
    exact hu x (by simpa using hx)

lemma Puzzle.find_zero_spec (p : Puzzle) (z : Fin 3 × Fin 3)
    (h : p.find_zero = some z) : p.board z.1 z.2 = 0 := by
  have := List.find?_some h
  simpa using this

/-- If a puzzle has exactly one blank, `find_zero` finds it. -/
lemma Puzzle.OneZero.find_zero_eq {p : Puzzle} (hp : p.OneZero)
    {z : Fin 3 × Fin 3} (hz : p.board z.1 z.2 = 0) : p.find_zero = some z := by
  obtain ⟨w, hw, huniq⟩ := hp
  have hzw : z = w := huniq z hz
  subst hzw
  exact p.find_zero_of_unique z hz (fun q hq => huniq q hq)

lemma delta_reverse (d : Direction) :
    d.reverse.delta = (-d.delta.1, -d.delta.2) := by cases d <;> rfl

lemma delta_natAbs (d : Direction) :
    d.delta.1.natAbs + d.delta.2.natAbs = 1 := by cases d <;> rfl

/-- Unfolding of a successful `move_zero`: the blank was found at `z`, the
target cell `n` is in bounds, and the result swaps the two cells. -/
lemma Puzzle.move_zero_eq_some {p : Puzzle} {d : Direction} {p' : Puzzle}
    (h : p.move_zero d = some p') :
    ∃ z n : Fin 3 × Fin 3, p.find_zero = some z ∧
      (n.1.val : Int) = (z.1.val : Int) + d.delta.1 ∧
      (n.2.val : Int) = (z.2.val : Int) + d.delta.2 ∧
      p'.board = fun r c =>
        if r = n.1 ∧ c = n.2 then 0
        else if r = z.1 ∧ c = z.2 then p.board n.1 n.2
        else p.board r c := by
  unfold move_zero at h
  cases hfz : p.find_zero with
  | none => rw [hfz] at h; exact absurd h (by simp)
  | some z =>
    obtain ⟨i, j⟩ := z
    rw [hfz] at h
    simp only [] at h
    split at h
    case isTrue hb =>
      refine ⟨(i, j), (⟨((i.val : Int) + d.delta.1).toNat, by omega⟩,
        ⟨((j.val : Int) + d.delta.2).toNat, by omega⟩), rfl, ?_, ?_, ?_⟩
      · simp only [Fin.val_mk]
        omega
      · simp only [Fin.val_mk]
        omega
      · cases h
        rfl
    case isFalse => exact absurd h (by simp)

/-- The target cell of a successful move differs from the blank cell. -/
lemma move_target_ne {d : Direction} {z n : Fin 3 × Fin 3}
    (h1 : (n.1.val : Int) = (z.1.val : Int) + d.delta.1)
    (h2 : (n.2.val : Int) = (z.2.val : Int) + d.delta.2) : n ≠ z := by
  intro h
  subst h
  have := delta_natAbs d
  omega

/-- Constructive direction of the `move_zero` unfolding. -/
lemma Puzzle.move_zero_eq_some_of (p : Puzzle) (z n : Fin 3 × Fin 3)
    (d : Direction) (hfz : p.find_zero = some z)
    (hn1 : (n.1.val : Int) = (z.1.val : Int) + d.delta.1)
    (hn2 : (n.2.val : Int) = (z.2.val : Int) + d.delta.2) :
    p.move_zero d = some ⟨fun r c =>
      if r = n.1 ∧ c = n.2 then 0
      else if r = z.1 ∧ c = z.2 then p.board n.1 n.2
      else p.board r c⟩ := by
  have hb : 0 ≤ (z.1.val : Int) + d.delta.1 ∧ (z.1.val : Int) + d.delta.1 < 3 ∧
      0 ≤ (z.2.val : Int) + d.delta.2 ∧ (z.2.val : Int) + d.delta.2 < 3 := by
    refine ⟨by omega, by omega, by omega, by omega⟩
  unfold move_zero
  rw [hfz]
  simp only []
  rw [dif_pos hb]
  have e1 : (⟨((z.1.val : Int) + d.delta.1).toNat, by omega⟩ : Fin 3) = n.1 :=
    Fin.ext (by simp only [Fin.val_mk]; omega)
  have e2 : (⟨((z.2.val : Int) + d.delta.2).toNat, by omega⟩ : Fin 3) = n.2 :=
    Fin.ext (by simp only [Fin.val_mk]; omega)
  rw [e1, e2]

/-- Moving the blank and then moving it back restores the original state,
for states with exactly one blank cell. -/
theorem Puzzle.move_zero_reverse {p p' : Puzzle} {d : Direction}
    (hp : p.OneZero) (h : p.move_zero d = some p') :
    p'.move_zero d.reverse = some p := by
  obtain ⟨z, n, hfz, hn1, hn2, hb⟩ := move_zero_eq_some h
  have hz0 : p.board z.1 z.2 = 0 := p.find_zero_spec z hfz
  have hnz : n ≠ z := move_target_ne hn1 hn2
  obtain ⟨w, hw0, huniq⟩ := hp
  have hzw : z = w := huniq z hz0
  have huz : ∀ q : Fin 3 × Fin 3, p.board q.1 q.2 = 0 → q = z := by
    intro q hq
    rw [hzw]
    exact huniq q hq
  have hnpair : ¬(z.1 = n.1 ∧ z.2 = n.2) := by
    intro hc
    exact hnz (Prod.ext hc.1.symm hc.2.symm)
  have hbn : p'.board n.1 n.2 = 0 := by rw [hb]; simp
  have hbz : p'.board z.1 z.2 = p.board n.1 n.2 := by
    rw [hb]
    simp [hnpair]
  have hbo : ∀ q : Fin 3 × Fin 3, q ≠ n → q ≠ z →
      p'.board q.1 q.2 = p.board q.1 q.2 := by
    intro q hqn hqz
    have c1 : ¬(q.1 = n.1 ∧ q.2 = n.2) := fun hc => hqn (Prod.ext hc.1 hc.2)
    have c2 : ¬(q.1 = z.1 ∧ q.2 = z.2) := fun hc => hqz (Prod.ext hc.1 hc.2)
    rw [hb]
    simp [c1, c2]
  have hn0 : p.board n.1 n.2 ≠ 0 := fun h0 => hnz (huz n h0)
  have huz' : ∀ q : Fin 3 × Fin 3, p'.board q.1 q.2 = 0 → q = n := by
    intro q hq
    by_contra hqn
    by_cases hqz : q = z
    · subst hqz
      rw [hbz] at hq
      exact hn0 hq
    · rw [hbo q hqn hqz] at hq
      exact hqz (huz q hq)
  have hfz' : p'.find_zero = some n := p'.find_zero_of_unique n hbn huz'
  have ht1 : (z.1.val : Int) = (n.1.val : Int) + d.reverse.delta.1 := by
    rw [delta_reverse]
    omega
  have ht2 : (z.2.val : Int) = (n.2.val : Int) + d.reverse.delta.2 := by
    rw [delta_reverse]
    omega
  rw [p'.move_zero_eq_some_of n z d.reverse hfz' ht1 ht2]
  congr 1
  ext r c
  have hbo' : ∀ r' c', ¬(r' = n.1 ∧ c' = n.2) → ¬(r' = z.1 ∧ c' = z.2) →
      p'.board r' c' = p.board r' c' := by
    intro r' c' h1 h2
    exact hbo (r', c') (fun hc => h1 (by cases hc; exact ⟨rfl, rfl⟩))
      (fun hc => h2 (by cases hc; exact ⟨rfl, rfl⟩))
  simp only []
  by_cases h1 : r = z.1 ∧ c = z.2
  · rw [if_pos h1]
    obtain ⟨e1, e2⟩ := h1
    subst e1
    subst e2
    exact hz0.symm
  · rw [if_neg h1]
    by_cases h2 : r = n.1 ∧ c = n.2
    · rw [if_pos h2]
      obtain ⟨e1, e2⟩ := h2
      subst e1
      subst e2
      exact hbz
    · rw [if_neg h2]
      exact hbo' r c h2 h1

/-- A successful move permutes the flattened board (it swaps the blank with
one neighbour and changes nothing else). -/
theorem Puzzle.move_zero_flatten_perm {p p' : Puzzle} {d : Direction}
    (h : p.move_zero d = some p') : List.Perm p'.flatten p.flatten := by
  obtain ⟨z, n, hfz, hn1, hn2, hb⟩ := move_zero_eq_some h
  have hz0 : p.board z.1 z.2 = 0 := p.find_zero_spec z hfz
  have hnz : n ≠ z := move_target_ne hn1 hn2
  have hcomp : ∀ q : Fin 3 × Fin 3,
      p'.board q.1 q.2 = p.board (Equiv.swap z n q).1 (Equiv.swap z n q).2 := by
    intro q
    rw [hb]
    by_cases hqz : q = z
    · subst hqz
      have c2 : ¬(q.1 = n.1 ∧ q.2 = n.2) := by
        intro hc
        exact hnz (Prod.ext hc.1.symm hc.2.symm)
      simp [Equiv.swap_apply_left, c2]
    · by_cases hqn : q = n
      · subst hqn
        simp [Equiv.swap_apply_right, hz0]
      · have c1 : ¬(q.1 = n.1 ∧ q.2 = n.2) := fun hc => hqn (Prod.ext hc.1 hc.2)
        have c2 : ¬(q.1 = z.1 ∧ q.2 = z.2) := fun hc => hqz (Prod.ext hc.1 hc.2)
        simp [Equiv.swap_apply_of_ne_of_ne hqz hqn, c1, c2]
  have hmap : p'.flatten =
      (positions.map (Equiv.swap z n)).map (fun q => p.board q.1 q.2) := by
    unfold flatten
    rw [List.map_map]
    exact List.map_congr_left (fun q _ => hcomp q)
  rw [hmap]
  apply List.Perm.map
  apply List.perm_of_nodup_nodup_toFinset_eq
  · exact positions_nodup.map (Equiv.swap z n).injective
  · exact positions_nodup
  · ext q
    simp only [List.mem_toFinset, List.mem_map]
    constructor
    · intro _
      exact positions_complete q
    · intro _
      exact ⟨Equiv.swap z n q, positions_complete _, Equiv.swap_apply_self z n q⟩

/-- A successful move preserves validity. -/
theorem Puzzle.move_zero_valid {p p' : Puzzle} {d : Direction}
    (hv : p.Valid) (h : p.move_zero d = some p') : p'.Valid :=
  (p.move_zero_flatten_perm h).trans hv

/-- Builds a puzzle from row-major lists of values (test inputs). -/
def Puzzle.ofRows (rows : List (List Nat)) : Puzzle :=
  ⟨fun i j => (rows.getD i.val []).getD j.val 0⟩

/-- A (non-valid) board holding two adjacent blanks. -/
def twoZeroBoard : Puzzle := Puzzle.ofRows [[0, 0, 1], [1, 1, 1], [1, 1, 1]]

/-- The canonical solved board with the blank in the top-left corner. -/
def solvedBoard : Puzzle := Puzzle.ofRows [[0, 1, 2], [3, 4, 5], [6, 7, 8]]

/-- `solvedBoard` after moving the blank down once. -/
def movedBoard : Puzzle := Puzzle.ofRows [[3, 1, 2], [0, 4, 5], [6, 7, 8]]

/-- Equality with a given `some` value can be checked on flattened boards. -/
lemma option_eq_of_flatten_eq {o : Option Puzzle} {q : Puzzle}
    (h : o.map Puzzle.flatten = some q.flatten) : o = some q := by
  cases o with
  | none => exact Option.noConfusion h
  | some x =>
    simp only [Option.map_some', Option.some.injEq] at h
    exact congrArg some (Puzzle.flatten_inj h)

/-- C7 (counterexample): as stated the claim only assumes the state contains
a blank cell.  On a board with two adjacent blanks, `move_zero Right`
succeeds (returning the unchanged board, since the first-found blank is
swapped with another blank), yet moving back with the reversed direction
fails, so the round trip does not return the original state. -/
theorem claim_C7_counterexample :
    (∃ q : Fin 3 × Fin 3, twoZeroBoard.board q.1 q.2 = 0) ∧
    twoZeroBoard.move_zero .right = some twoZeroBoard ∧
    ¬ twoZeroBoard.move_zero (Direction.reverse .right) = some twoZeroBoard := by
  refine ⟨⟨(0, 0), by decide⟩, option_eq_of_flatten_eq (by decide), by decide⟩

/-- C7 (amended): for every puzzle state with EXACTLY ONE blank cell and
every direction `d`, if `move_zero d` succeeds with `s'` then
`s'.move_zero (reverse d)` succeeds and returns the original state; and
`reverse` is an involution. -/
theorem claim_C7 :
    (∀ (p p' : Puzzle) (d : Direction), p.OneZero → p.move_zero d = some p' →
      p'.move_zero d.reverse = some p) ∧
    (∀ d : Direction, d.reverse.reverse = d) :=
  ⟨fun _ _ _ hp h => Puzzle.move_zero_reverse hp h, fun d => by cases d <;> rfl⟩

/-- Concrete instantiation of `claim_C7` at the solved board moved down. -/
theorem claim_C7_witness :
    solvedBoard.OneZero ∧ solvedBoard.move_zero .down = some movedBoard ∧
    movedBoard.move_zero (Direction.reverse .down) = some solvedBoard :=
  ⟨by decide, option_eq_of_flatten_eq (by decide),
    claim_C7.1 solvedBoard movedBoard .down (by decide)
      (option_eq_of_flatten_eq (by decide))⟩

/-- C10: a successful move of a valid state (one blank, tiles 1..8) yields a
state with exactly one blank and the same multiset of values: validity is
preserved and the flattened boards are permutations of each other. -/
theorem claim_C10 :
    ∀ (p p' : Puzzle) (d : Direction), p.Valid → p.move_zero d = some p' →
      p'.Valid ∧ List.Perm p'.flatten p.flatten :=
  fun _p _p' _d hv h =>
    ⟨Puzzle.move_zero_valid hv h, Puzzle.move_zero_flatten_perm h⟩

/-- Concrete instantiation of `claim_C10` at the solved board moved down. -/
theorem claim_C10_witness :
    solvedBoard.Valid ∧
    (movedBoard.Valid ∧ List.Perm movedBoard.flatten solvedBoard.flatten) :=
  ⟨by decide, claim_C10 solvedBoard movedBoard .down (by decide)
    (option_eq_of_flatten_eq (by decide))⟩

/-! ### The open set (`OpenSet` in `src/logic/mod.rs`) -/

/-- Embeds `BinaryHeapNode`. -/
structure BinaryHeapNode where
  puzzle : Puzzle
  parent : Puzzle
  g : Int
  h : Int

/-- The ordering key of a heap node: `f = g + h` (`Ord for BinaryHeapNode`
compares `g + h`, reversed so that the Rust max-heap extracts minimal `f`). -/
def BinaryHeapNode.fval (n : BinaryHeapNode) : Int := n.g + n.h

/-- Embeds `HashMap::get` on an association-list model of the map. -/
def mapGet {κ α : Type} [DecidableEq κ] : List (κ × α) → κ → Option α
  | [], _ => none
  | e :: rest, k => if e.1 = k then some e.2 else mapGet rest k

/-- Removes every binding of a key (model of `HashMap::remove`). -/
def mapRemove {κ α : Type} [DecidableEq κ] (m : List (κ × α)) (k : κ) :
    List (κ × α) :=
  m.filter (fun e => decide (e.1 ≠ k))

/-- Embeds `HashMap::insert`: bind a key, replacing any previous binding. -/
def mapInsert {κ α : Type} [DecidableEq κ] (m : List (κ × α)) (k : κ) (v : α) :
    List (κ × α) :=
  (k, v) :: mapRemove m k

lemma mapGet_insert_self {κ α : Type} [DecidableEq κ]
    (m : List (κ × α)) (k : κ) (v : α) : mapGet (mapInsert m k v) k = some v := by
  simp [mapInsert, mapGet]

lemma mapGet_remove_ne {κ α : Type} [DecidableEq κ]
    (m : List (κ × α)) (k k' : κ) (h : k' ≠ k) :
    mapGet (mapRemove m k) k' = mapGet m k' := by
  induction m with
  | nil => rfl
  | cons e rest ih =>
    by_cases he : e.1 = k
    · have hek' : ¬ e.1 = k' := fun hc => h (hc ▸ he)
      simp [mapRemove, List.filter_cons, he, mapGet, hek', Ne.symm h, h, ← ih]
    · by_cases he' : e.1 = k'
      · simp [mapRemove, List.filter_cons, he, mapGet, he', Ne.symm h, h]
      · simp [mapRemove, List.filter_cons, he, mapGet, he', Ne.symm h, h, ← ih]

lemma mapGet_remove_self {κ α : Type} [DecidableEq κ]
    (m : List (κ × α)) (k : κ) : mapGet (mapRemove m k) k = none := by
  induction m with
  | nil => rfl
  | cons e rest ih =>
    by_cases he : e.1 = k
    · simpa [mapRemove, List.filter_cons, he] using ih
    · simpa [mapRemove, List.filter_cons, he, mapGet] using ih

lemma mapGet_insert_ne {κ α : Type} [DecidableEq κ]
    (m : List (κ × α)) (k k' : κ) (v : α) (h : k' ≠ k) :
    mapGet (mapInsert m k v) k' = mapGet m k' := by
  simp only [mapInsert, mapGet, if_neg (fun hc : k = k' => h hc.symm)]
  exact mapGet_remove_ne m k k' h

lemma mapRemove_insert_self {κ α : Type} [DecidableEq κ]
    (m : List (κ × α)) (k : κ) (v : α) :
    mapRemove (mapInsert m k v) k = mapRemove m k := by
  simp [mapInsert, mapRemove, List.filter_cons, List.filter_filter]

/-- Embeds `OpenSet`: the binary heap (as the list of its elements) plus the
per-state side map. -/
structure OpenSet where
  set : List BinaryHeapNode
  map : List (Puzzle × (Puzzle × Int))

/-- Embeds `OpenSet::new`. -/
def OpenSet.new : OpenSet := ⟨[], []⟩

/-- Embeds `OpenSet::push`: consult the side map; if there is no entry for
the state, or the entry's g is greater than the pushed g, replace the entry
and push a heap record; otherwise do nothing. -/
def OpenSet.push (os : OpenSet) (node : BinaryHeapNode) : OpenSet :=
  match mapGet os.map node.puzzle with
  | none =>
    ⟨node :: os.set, mapInsert os.map node.puzzle (node.parent, node.g)⟩
  | some old =>
    if old.2 > node.g then
      ⟨node :: os.set, mapInsert os.map node.puzzle (node.parent, node.g)⟩
    else
      os

/-- Models `BinaryHeap::pop`: remove and return a maximal element in the
reversed `f`-order, i.e. an element with minimal `f = g + h`.  Rust leaves
the choice among equal keys unspecified; this model takes the leftmost. -/
def heapPop : List BinaryHeapNode → Option (BinaryHeapNode × List BinaryHeapNode)
  | [] => none
  | x :: xs =>
    match heapPop xs with
    | none => some (x, [])
    | some (m, rest) =>
      if x.fval ≤ m.fval then some (x, xs) else some (m, x :: rest)

lemma heapPop_none {l : List BinaryHeapNode} (h : heapPop l = none) : l = [] := by
  cases l with
  | nil => rfl
  | cons x xs =>
    exfalso
    simp only [heapPop] at h
    rcases hxs : heapPop xs with _ | ⟨m, rest⟩ <;> rw [hxs] at h
    · exact Option.noConfusion h
    · by_cases hc : x.fval ≤ m.fval <;> simp [hc] at h

/-- Combined specification of the heap-extraction model: the element comes
from the heap, has minimal `f`, and the remainder is the heap minus that
one element. -/
lemma heapPop_spec : ∀ {l : List BinaryHeapNode} {n rest},
    heapPop l = some (n, rest) →
    n ∈ l ∧ rest.length + 1 = l.length ∧ (∀ x ∈ l, n.fval ≤ x.fval) ∧
    (∀ x ∈ rest, x ∈ l) ∧ (∀ x ∈ l, x ≠ n → x ∈ rest) := by
  intro l
  induction l with
  | nil => intro n rest h; exact Option.noConfusion h
  | cons a xs ih =>
    intro n rest h
    simp only [heapPop] at h
    rcases hxs : heapPop xs with _ | ⟨m, r⟩ <;> rw [hxs] at h
    · have hnil : xs = [] := heapPop_none hxs
      subst hnil
      simp only [Option.some.injEq, Prod.mk.injEq] at h
      obtain ⟨hn, hrest⟩ := h
      subst hn
      subst hrest
      refine ⟨List.mem_cons_self _ _, by simp, ?_, by simp, ?_⟩
      · intro x hx
        rcases List.mem_cons.1 hx with h1 | h1
        · rw [h1]
        · cases h1
      · intro x hx hxn
        rcases List.mem_cons.1 hx with h1 | h1
        · exact absurd h1 hxn
        · cases h1
    · obtain ⟨hm_mem, hm_len, hm_min, hm_sub, hm_rest⟩ := ih hxs
      by_cases hc : a.fval ≤ m.fval
      · simp only [hc, if_true] at h
        simp only [Option.some.injEq, Prod.mk.injEq] at h
        obtain ⟨hn, hrest⟩ := h
        subst hn
        subst hrest
        refine ⟨List.mem_cons_self _ _, by simp, ?_, ?_, ?_⟩
        · intro x hx
          rcases List.mem_cons.1 hx with h1 | h1
          · rw [h1]
          · exact le_trans hc (hm_min x h1)
        · intro x hx
          exact List.mem_cons_of_mem _ hx
        · intro x hx hxn
          rcases List.mem_cons.1 hx with h1 | h1
          · exact absurd h1 hxn
          · exact h1
      · simp only [hc, if_false] at h
        simp only [Option.some.injEq, Prod.mk.injEq] at h
        obtain ⟨hn, hrest⟩ := h
        subst hn
        subst hrest
        refine ⟨List.mem_cons_of_mem _ hm_mem, by simp [← hm_len], ?_, ?_, ?_⟩
        · intro x hx
          rcases List.mem_cons.1 hx with h1 | h1
          · rw [h1]; omega
          · exact hm_min x h1
        · intro x hx
          rcases List.mem_cons.1 hx with h1 | h1
          · exact h1 ▸ List.mem_cons_self _ _
          · exact List.mem_cons_of_mem _ (hm_sub x h1)
        · intro x hx hxn
          rcases List.mem_cons.1 hx with h1 | h1
          · exact h1 ▸ List.mem_cons_self _ _
          · exact List.mem_cons_of_mem _ (hm_rest x h1 hxn)

/-- Embeds the loop of `OpenSet::pop`: repeatedly extract the minimal-`f`
heap record; if the side map still holds an entry for its state, remove the
entry and return the record with the entry's (parent, g); otherwise the
record is stale and is skipped.  The fuel argument only bounds the number
of loop iterations; `OpenSet.pop` supplies the heap size, which is always
enough since every iteration removes one heap record. -/
def popLoop : Nat → List BinaryHeapNode → List (Puzzle × (Puzzle × Int)) →
    Option (BinaryHeapNode × OpenSet)
  | 0, _, _ => none
  | fuel + 1, heap, map =>
    match heapPop heap with
    | none => none
    | some (node, rest) =>
      match mapGet map node.puzzle with
      | some real =>
        some (⟨node.puzzle, real.1, real.2, node.h⟩,
          ⟨rest, mapRemove map node.puzzle⟩)
      | none => popLoop fuel rest map

/-- Embeds `OpenSet::pop`. -/
def OpenSet.pop (os : OpenSet) : Option (BinaryHeapNode × OpenSet) :=
  popLoop os.set.length os.set os.map

/-- Specification of `popLoop`: a successful pop returns the live map entry
for some state whose minimal-`f` live heap record was reached, removes that
entry, and drops only records that are stale or the one extracted. -/
lemma popLoop_spec : ∀ (fuel : Nat) {heap : List BinaryHeapNode}
    {map : List (Puzzle × (Puzzle × Int))} {node : BinaryHeapNode}
    {os' : OpenSet}, popLoop fuel heap map = some (node, os') →
    mapGet map node.puzzle = some (node.parent, node.g) ∧
    os'.map = mapRemove map node.puzzle ∧
    (∃ rec ∈ heap, rec.puzzle = node.puzzle ∧ rec.h = node.h ∧
      ∀ x ∈ heap, mapGet map x.puzzle ≠ none → rec.fval ≤ x.fval) ∧
    (∀ x ∈ os'.set, x ∈ heap) ∧
    (∀ x ∈ heap, mapGet map x.puzzle ≠ none → x.puzzle ≠ node.puzzle →
      x ∈ os'.set) := by
  intro fuel
  induction fuel with
  | zero =>
    intro heap map node os' h
    exact Option.noConfusion h
  | succ n ih =>
  intro heap map node os' h
  rw [popLoop] at h
  split at h
  case h_1 => exact Option.noConfusion h
  case h_2 nd rest hh =>
    obtain ⟨hmem, hlen, hmin, hsub, hrest⟩ := heapPop_spec hh
    split at h
    case h_1 real hreal =>
      simp only [Option.some.injEq, Prod.mk.injEq] at h
      obtain ⟨hnode, hos⟩ := h
      subst hnode
      subst hos
      refine ⟨by simpa using hreal, rfl, ⟨nd, hmem, rfl, rfl, ?_⟩, hsub, ?_⟩
      · intro x hx _
        exact hmin x hx
      · intro x hx hlive hxp
        apply hrest x hx
        intro hxnd
        subst hxnd
        exact hxp rfl
    case h_2 hstale =>
      obtain ⟨h1, h2, ⟨rec, hrec_mem, hrec_p, hrec_h, hrec_min⟩, h4, h5⟩ :=
        ih h
      refine ⟨h1, h2, ⟨rec, hsub rec hrec_mem, hrec_p, hrec_h, ?_⟩, ?_, ?_⟩
      · intro x hx hxlive
        by_cases hxnd : x = nd
        · subst hxnd
          exact absurd hstale hxlive
        · exact hrec_min x (hrest x hx hxnd) hxlive
      · intro x hx
        exact hsub x (h4 x hx)
      · intro x hx hxlive hxp
        by_cases hxnd : x = nd
        · subst hxnd
          exact absurd hstale hxlive
        · exact h5 x (hrest x hx hxnd) hxlive hxp

/-- With enough fuel, a failed pop means every heap record is stale (its
state has no live map entry). -/
lemma popLoop_none : ∀ (fuel : Nat) {heap : List BinaryHeapNode}
    {map : List (Puzzle × (Puzzle × Int))}, heap.length ≤ fuel →
    popLoop fuel heap map = none →
    ∀ x ∈ heap, mapGet map x.puzzle = none := by
  intro fuel
  induction fuel with
  | zero =>
    intro heap map hlen h x hx
    have : heap = [] := List.length_eq_zero.1 (Nat.le_zero.1 hlen)
    subst this
    cases hx
  | succ n ih =>
  intro heap map hlen h x hx
  rw [popLoop] at h
  split at h
  case h_1 hh => cases heapPop_none hh; cases hx
  case h_2 nd rest hh =>
    obtain ⟨hmem, hlen2, hmin, hsub, hrest⟩ := heapPop_spec hh
    split at h
    case h_1 real hreal => exact Option.noConfusion h
    case h_2 hstale =>
      by_cases hxnd : x = nd
      · subst hxnd
        exact hstale
      · exact ih (by omega) h x (hrest x hx hxnd)

/-! ### Claims C3 and C4: OpenSet push/pop behaviour -/

/-- An abstract client operation on the open set (for stating temporal
properties of push/pop sequences). -/
inductive OpAction where
  | push (n : BinaryHeapNode)
  | pop

/-- Runs a sequence of operations, returning the final open set together
with the list of successfully popped nodes, in order. -/
def OpenSet.runLog (os : OpenSet) :
    List OpAction → OpenSet × List BinaryHeapNode
  | [] => (os, [])
  | .push n :: rest => (os.push n).runLog rest
  | .pop :: rest =>
    match os.pop with
    | none => os.runLog rest
    | some (m, os') =>
      let r := os'.runLog rest
      (r.1, m :: r.2)

/-- Pushing a node whose state has no live entry installs its (parent, g)
and adds the heap record. -/
lemma OpenSet.push_fresh {os : OpenSet} {n : BinaryHeapNode}
    (h : mapGet os.map n.puzzle = none) :
    (os.push n).set = n :: os.set ∧
    (os.push n).map = mapInsert os.map n.puzzle (n.parent, n.g) := by
  unfold OpenSet.push
  rw [h]
  exact ⟨rfl, rfl⟩

/-- Pushing a node with a strictly better g than the live entry replaces
the entry and adds a heap record. -/
lemma OpenSet.push_better {os : OpenSet} {n : BinaryHeapNode} {v}
    (h : mapGet os.map n.puzzle = some v) (hg : n.g < v.2) :
    (os.push n).set = n :: os.set ∧
    (os.push n).map = mapInsert os.map n.puzzle (n.parent, n.g) := by
  unfold OpenSet.push
  simp only [h]
  rw [if_pos (by omega)]
  exact ⟨rfl, rfl⟩

/-- Pushing a node whose g does not beat the live entry leaves the whole
open set unchanged. -/
lemma OpenSet.push_worse {os : OpenSet} {n : BinaryHeapNode} {v}
    (h : mapGet os.map n.puzzle = some v) (hg : v.2 ≤ n.g) :
    os.push n = os := by
  unfold OpenSet.push
  simp only [h]
  rw [if_neg (by omega)]

/-- A push either leaves a state's live entry unchanged or it concerns that
very state with a g no better than the entry. -/
lemma OpenSet.push_preserves_entry {os : OpenSet} {n : BinaryHeapNode}
    {s : Puzzle} {p : Puzzle} {g : Int}
    (h : mapGet os.map s = some (p, g))
    (hcond : n.puzzle ≠ s ∨ g ≤ n.g) :
    mapGet (os.push n).map s = some (p, g) := by
  by_cases hne : n.puzzle = s
  · rcases hcond with hc | hge
    · exact absurd hne hc
    · rw [OpenSet.push_worse (v := (p, g)) (hne ▸ h) hge]
      exact h
  · unfold OpenSet.push
    rcases hold : mapGet os.map n.puzzle with _ | v <;> simp only []
    · rw [mapGet_insert_ne _ _ _ _ (fun hc => hne hc.symm)]
      exact h
    · by_cases hg2 : v.2 > n.g
      · rw [if_pos hg2]
        rw [mapGet_insert_ne _ _ _ _ (fun hc => hne hc.symm)]
        exact h
      · rw [if_neg hg2]
        exact h

/-- A pop that returns some other state preserves a state's live entry. -/
lemma OpenSet.pop_preserves_entry {os : OpenSet} {node : BinaryHeapNode}
    {os' : OpenSet} {s p : Puzzle} {g : Int}
    (h : mapGet os.map s = some (p, g))
    (hpop : os.pop = some (node, os')) (hne : node.puzzle ≠ s) :
    mapGet os'.map s = some (p, g) := by
  obtain ⟨_, hmap, _, _, _⟩ := popLoop_spec _ hpop
  rw [hmap, mapGet_remove_ne _ _ _ (fun hc => hne hc.symm)]
  exact h

/-- A pop returns exactly the live (parent, g) entry of the popped state. -/
lemma OpenSet.pop_entry {os : OpenSet} {node : BinaryHeapNode} {os' : OpenSet}
    (hpop : os.pop = some (node, os')) :
    mapGet os.map node.puzzle = some (node.parent, node.g) :=
  (popLoop_spec _ hpop).1

lemma OpenSet.runLog_push (os : OpenSet) (n : BinaryHeapNode)
    (rest : List OpAction) :
    os.runLog (.push n :: rest) = (os.push n).runLog rest := rfl

lemma OpenSet.runLog_pop_none {os : OpenSet} (rest : List OpAction)
    (h : os.pop = none) : os.runLog (.pop :: rest) = os.runLog rest := by
  simp [OpenSet.runLog, h]

lemma OpenSet.runLog_pop_some {os : OpenSet} {m : BinaryHeapNode}
    {os' : OpenSet} (rest : List OpAction) (h : os.pop = some (m, os')) :
    os.runLog (.pop :: rest) =
      ((os'.runLog rest).1, m :: (os'.runLog rest).2) := by
  simp [OpenSet.runLog, h]

/-- Running operations that never push the state `s` and never pop `s`
preserves the live entry of `s`. -/
lemma OpenSet.runLog_preserves_entry :
    ∀ (ops : List OpAction) (os : OpenSet) (s p : Puzzle) (g : Int),
    mapGet os.map s = some (p, g) →
    (∀ n, OpAction.push n ∈ ops → n.puzzle ≠ s) →
    (∀ m ∈ (os.runLog ops).2, m.puzzle ≠ s) →
    mapGet (os.runLog ops).1.map s = some (p, g) := by
  intro ops
  induction ops with
  | nil => intro os s p g h _ _; exact h
  | cons a rest ih =>
    intro os s p g h hpush hpops
    cases a with
    | push n =>
      rw [OpenSet.runLog_push] at hpops ⊢
      refine ih _ s p g ?_ (fun n hn => hpush n (List.mem_cons_of_mem _ hn))
        hpops
      exact OpenSet.push_preserves_entry h
        (Or.inl (hpush n (List.mem_cons_self _ _)))
    | pop =>
      rcases hp : os.pop with _ | ⟨m, os'⟩
      · rw [OpenSet.runLog_pop_none rest hp] at hpops ⊢
        exact ih _ s p g h (fun n hn => hpush n (List.mem_cons_of_mem _ hn))
          hpops
      · rw [OpenSet.runLog_pop_some rest hp] at hpops ⊢
        have hm : m.puzzle ≠ s := hpops m (List.mem_cons_self _ _)
        refine ih _ s p g (OpenSet.pop_preserves_entry h hp hm)
          (fun n hn => hpush n (List.mem_cons_of_mem _ hn)) ?_
        intro x hx
        exact hpops x (List.mem_cons_of_mem _ hx)

/-- C3: if a state `s` with no live entry is pushed with cost `g1`, then —
after any operations that neither push nor pop `s` — pushed again with a
strictly larger `g2`, then after further such operations, the pop that
finally returns `s` carries the (parent, g) pair of the first push. -/
theorem claim_C3 (os0 : OpenSet) (s p1 p2 : Puzzle) (g1 h1 g2 h2 : Int)
    (ops1 ops2 : List OpAction) (node : BinaryHeapNode) (osf : OpenSet)
    (hfresh : mapGet os0.map s = none)
    (hg : g1 < g2)
    (hpush1 : ∀ n, OpAction.push n ∈ ops1 → n.puzzle ≠ s)
    (hpush2 : ∀ n, OpAction.push n ∈ ops2 → n.puzzle ≠ s)
    (hpops1 : ∀ m ∈ ((os0.push ⟨s, p1, g1, h1⟩).runLog ops1).2, m.puzzle ≠ s)
    (hpops2 : ∀ m ∈

      ((((os0.push ⟨s, p1, g1, h1⟩).runLog ops1).1.push
        ⟨s, p2, g2, h2⟩).runLog ops2).2, m.puzzle ≠ s)
    (hpop : ((((os0.push ⟨s, p1, g1, h1⟩).runLog ops1).1.push
        ⟨s, p2, g2, h2⟩).runLog ops2).1.pop = some (node, osf))
    (hnode : node.puzzle = s) :
    node.parent = p1 ∧ node.g = g1 := by
  have e1 : mapGet (os0.push ⟨s, p1, g1, h1⟩).map s = some (p1, g1) := by
    have hf := (OpenSet.push_fresh (n := ⟨s, p1, g1, h1⟩) hfresh).2
    rw [hf]
    exact mapGet_insert_self _ _ _
  have e2 := OpenSet.runLog_preserves_entry ops1 _ s p1 g1 e1 hpush1 hpops1
  have e3 : mapGet ((((os0.push ⟨s, p1, g1, h1⟩).runLog ops1).1.push
      ⟨s, p2, g2, h2⟩)).map s = some (p1, g1) :=
    OpenSet.push_preserves_entry e2 (Or.inr (le_of_lt hg))
  have e4 := OpenSet.runLog_preserves_entry ops2 _ s p1 g1 e3 hpush2 hpops2
  have e5 := OpenSet.pop_entry hpop
  rw [hnode, e4] at e5
  have hpair := Prod.ext_iff.1 (Option.some.inj e5)
  exact ⟨hpair.1.symm, hpair.2.symm⟩

/-- A heap record pushing the solved board with g = 0. -/
def node1 : BinaryHeapNode := ⟨solvedBoard, solvedBoard, 0, 0⟩

/-- A heap record pushing the solved board again with larger g = 1. -/
def node2 : BinaryHeapNode := ⟨solvedBoard, movedBoard, 1, 0⟩

/-- Concrete instantiation of `claim_C3`: push the solved board with g = 0,
push it again with g = 1, and pop: the pop carries the first (parent, g). -/
theorem claim_C3_witness :
    (⟨solvedBoard, solvedBoard, 0, 0⟩ : BinaryHeapNode).parent = solvedBoard ∧
    (⟨solvedBoard, solvedBoard, 0, 0⟩ : BinaryHeapNode).g = 0 :=
  claim_C3 OpenSet.new solvedBoard solvedBoard movedBoard 0 0 1 0 [] []
    ⟨solvedBoard, solvedBoard, 0, 0⟩ ⟨[], []⟩ rfl (by omega)
    (fun n hn => absurd hn (List.not_mem_nil _))
    (fun n hn => absurd hn (List.not_mem_nil _))
    (fun m hm => absurd hm (List.not_mem_nil _))
    (fun m hm => absurd hm (List.not_mem_nil _))
    rfl rfl

/-- C4 (counterexample): `OpenSet::push` does NOT insert a heap record on
every call: pushing the same state again with a larger g leaves the heap
unchanged (the guard covers both the map entry and the heap insertion). -/
theorem claim_C4_counterexample :
    ¬ ∀ (os : OpenSet) (n : BinaryHeapNode),
        (os.push n).set.length = os.set.length + 1 := by
  intro hall
  have h2 := hall (OpenSet.new.push node1) node2
  have hc : ((OpenSet.new.push node1).push node2).set.length = 1 := rfl
  have hc2 : (OpenSet.new.push node1).set.length = 1 := rfl
  omega

/-- C4 (amended): `OpenSet::push` inserts a heap record exactly when it
replaces the side-map entry, namely when no entry exists for the pushed
state or the existing entry's g is strictly greater than the pushed g;
otherwise the call leaves the open set completely unchanged. -/
theorem claim_C4 (os : OpenSet) (n : BinaryHeapNode) :
    ((mapGet os.map n.puzzle = none ∨
        (∃ v, mapGet os.map n.puzzle = some v ∧ n.g < v.2)) →
      (os.push n).set = n :: os.set ∧
      (os.push n).map = mapInsert os.map n.puzzle (n.parent, n.g)) ∧
    ((∃ v, mapGet os.map n.puzzle = some v ∧ v.2 ≤ n.g) →
      os.push n = os) := by
  constructor
  · intro hcond
    rcases hcond with hnone | ⟨v, hv, hg⟩
    · exact OpenSet.push_fresh hnone
    · exact OpenSet.push_better hv hg
  · intro ⟨v, hv, hg⟩
    exact OpenSet.push_worse hv hg

/-- Concrete instantiation of `claim_C4` at an empty open set. -/
theorem claim_C4_witness :
    mapGet OpenSet.new.map node1.puzzle = none ∧
    ((OpenSet.new.push node1).set = node1 :: OpenSet.new.set ∧
      (OpenSet.new.push node1).map =
        mapInsert OpenSet.new.map node1.puzzle (node1.parent, node1.g)) :=
  ⟨rfl, (claim_C4 OpenSet.new node1).1 (Or.inl rfl)⟩

/-! ### The search engine (`solve_from_initial` in `src/logic/mod.rs`) -/

/-- Embeds `BfsHeuristic::estimate_h` from `src/logic/bfs.rs`: always 0. -/
def BfsHeuristic.estimate_h (_current _goal : Puzzle) : Int := 0

/-- The search engine's state: the open set, the closed map (the
`MapSearchTree` HashMap from `main.rs`, newest binding first so lookups see
the latest `insert`), and the log of `step_callback` invocations with the
arguments the engine passes: (current, successor, pushed-flag). -/
structure SearchState where
  oset : OpenSet
  closed : List (Puzzle × (Puzzle × Int))
  log : List (Puzzle × Puzzle × Bool)

/-- Embeds `closed_set.set(current.puzzle, (current.parent, current.g))`
together with removing the popped state from the open set. -/
def closeStep (st : SearchState) (cur : BinaryHeapNode) (osRest : OpenSet) :
    SearchState :=
  ⟨osRest, (cur.puzzle, (cur.parent, cur.g)) :: st.closed, st.log⟩

/-- The `current_g` read back from the closed map
(`closed_set.get(&current.puzzle).unwrap().1`); the `unwrap` cannot fail
because the current state was closed just before. -/
def currentGOf (st : SearchState) (cur : BinaryHeapNode) : Int :=
  match mapGet st.closed cur.puzzle with
  | some v => v.2
  | none => 0

/-- Embeds one direction of the successor loop: generate the successor if
the move is valid, skip it if it is already closed, otherwise push it with
g' = current_g + 1 and the heuristic's h, then invoke the step observer
with the hard-coded `false` flag (`src/logic/mod.rs:240`). -/
def expandDir (goal : Puzzle) (hfn : Puzzle → Puzzle → Int)
    (cur : BinaryHeapNode) (currentG : Int) (st : SearchState)
    (d : Direction) : SearchState :=
  match cur.puzzle.move_zero d with
  | none => st
  | some next =>
    match mapGet st.closed next with
    | some _ => st
    | none =>
      let g := currentG + 1
      let h := hfn next goal
      ⟨st.oset.push ⟨next, cur.puzzle, g, h⟩, st.closed,
        st.log ++ [(cur.puzzle, next, false)]⟩

/-- Embeds the `for direction in Direction::all()` loop. -/
def expand (goal : Puzzle) (hfn : Puzzle → Puzzle → Int)
    (cur : BinaryHeapNode) (st : SearchState) : SearchState :=
  Direction.all.foldl (expandDir goal hfn cur (currentGOf st cur)) st

/-- How the engine finished: the `break` on reaching the goal, or the
`while let` ending because `pop` returned `None`. -/
inductive SolveOutcome where
  | goalFound
  | exhausted
  deriving DecidableEq

/-- The outcome of one iteration of the `while let` loop. -/
inductive StepResult where
  | done (outcome : SolveOutcome) (st : SearchState)
  | next (st : SearchState)

/-- Embeds one iteration of the search loop: pop (ending with `Exhausted`
when the open set is spent), close the popped node, stop with `GoalFound`
if it is the goal, otherwise expand its successors. -/
def solveStep (goal : Puzzle) (hfn : Puzzle → Puzzle → Int)
    (st : SearchState) : StepResult :=
  match st.oset.pop with
  | none => .done .exhausted st
  | some (cur, osRest) =>
    let st1 := closeStep st cur osRest
    if cur.puzzle = goal then .done .goalFound st1
    else .next (expand goal hfn cur st1)

/-- The search loop, with fuel bounding the number of iterations (the loop
itself terminates because each iteration closes a fresh state; see
`claim_C2`). -/
def solveLoop (goal : Puzzle) (hfn : Puzzle → Puzzle → Int) :
    Nat → SearchState → Option (SolveOutcome × SearchState)
  | 0, _ => none
  | fuel + 1, st =>
    match solveStep goal hfn st with
    | .done oc stf => some (oc, stf)
    | .next st' => solveLoop goal hfn fuel st'

/-- Embeds the initialisation of `solve_from_initial`: a fresh open set
holding the initial state with g = 0, h = 0, an empty closed map (as in
`main.rs`), and no observer calls yet. -/
def initState (initial : Puzzle) : SearchState :=
  ⟨OpenSet.new.push ⟨initial, initial, 0, 0⟩, [], []⟩

/-- Embeds `solve_from_initial`, run with the given fuel. -/
def solveFromInitial (initial goal : Puzzle) (hfn : Puzzle → Puzzle → Int)
    (fuel : Nat) : Option (SolveOutcome × SearchState) :=
  solveLoop goal hfn fuel (initState initial)

/-- C5 (counterexample): right after the initial push — the open set holds
the initial state with g = 0 — the closed map is still empty and in
particular does not contain the initial state; it is only populated by the
first loop iteration. -/
theorem claim_C5_counterexample :
    (initState solvedBoard).oset.map = [(solvedBoard, (solvedBoard, 0))] ∧
    mapGet (initState solvedBoard).closed solvedBoard = none :=
  ⟨rfl, rfl⟩

/-- C5 (amended): after the initial push (and an empty closed map), the
first pop of the loop returns the initial state with parent itself and
g = 0, and the close step of that first iteration — before any expansion —
records the initial state in the closed map with parent itself and cost 0. -/
theorem claim_C5 (initial : Puzzle) :
    mapGet (initState initial).closed initial = none ∧
    (∀ cur osRest, (initState initial).oset.pop = some (cur, osRest) →
      cur.puzzle = initial ∧ cur.parent = initial ∧ cur.g = 0 ∧
      mapGet (closeStep (initState initial) cur osRest).closed initial =
        some (initial, 0)) := by
  refine ⟨rfl, ?_⟩
  intro cur osRest hpop
  have hpop' : (initState initial).oset.pop =
      some (⟨initial, initial, 0, 0⟩, ⟨[], []⟩) := by
    show popLoop 1 [⟨initial, initial, 0, 0⟩]
      (mapInsert [] initial (initial, 0)) = _
    rw [popLoop]
    simp only [heapPop]
    rw [show mapGet (mapInsert ([] : List (Puzzle × (Puzzle × Int))) initial
      (initial, 0)) initial = some (initial, 0) from mapGet_insert_self _ _ _]
    simp only [mapRemove_insert_self]
    simp [mapRemove]
  rw [hpop'] at hpop
  simp only [Option.some.injEq, Prod.mk.injEq] at hpop
  obtain ⟨hcur, hos⟩ := hpop
  subst hcur
  refine ⟨rfl, rfl, rfl, ?_⟩
  simp [closeStep, mapGet]

/-- Concrete instantiation of `claim_C5` at the solved board. -/
theorem claim_C5_witness :
    mapGet (initState solvedBoard).closed solvedBoard = none ∧
    ((⟨solvedBoard, solvedBoard, 0, 0⟩ : BinaryHeapNode).puzzle = solvedBoard ∧
      (⟨solvedBoard, solvedBoard, 0, 0⟩ : BinaryHeapNode).parent = solvedBoard ∧
      (⟨solvedBoard, solvedBoard, 0, 0⟩ : BinaryHeapNode).g = 0 ∧
      mapGet (closeStep (initState solvedBoard) ⟨solvedBoard, solvedBoard, 0, 0⟩
        ⟨[], []⟩).closed solvedBoard = some (solvedBoard, 0)) :=
  ⟨(claim_C5 solvedBoard).1,
    (claim_C5 solvedBoard).2 ⟨solvedBoard, solvedBoard, 0, 0⟩ ⟨[], []⟩ rfl⟩

/-- The canonical goal used in the concrete engine runs. -/
def goalC6 : Puzzle := Puzzle.ofRows [[1, 2, 3], [4, 5, 6], [7, 8, 0]]

/-- The state reached by a `StepResult`, whichever way the step ended. -/
def stepState (r : StepResult) : SearchState :=
  match r with
  | .done _ st => st
  | .next st => st

/-- The engine state after one iteration from the solved board. -/
def c6st1 : SearchState :=
  stepState (solveStep goalC6 BfsHeuristic.estimate_h (initState solvedBoard))

/-- The engine state after two iterations from the solved board. -/
def c6st2 : SearchState :=
  stepState (solveStep goalC6 BfsHeuristic.estimate_h c6st1)

/-- C6 (code bug, evidence): in the first two iterations from the solved
board, the two expansions attempt five successors (two from the first node,
three from the second), but only four observer calls are logged — the
successor skipped as already closed gets no call — and every call carries
the flag `false` (hard-coded at `src/logic/mod.rs:240`, marked by a TODO),
even though each logged successor was newly pushed (it has a live open-set
entry when logged).  The claim states the flag is true exactly for newly
pushed successors and that skipped successors are also reported. -/
theorem claim_C6 :
    (Direction.all.filterMap (fun d => solvedBoard.move_zero d)).length = 2 ∧
    (∃ cr, c6st1.oset.pop = some cr ∧
      (Direction.all.filterMap (fun d => cr.1.puzzle.move_zero d)).length = 3) ∧
    c6st2.log.length = 4 ∧
    c6st2.log.map (fun e => e.2.2) = [false, false, false, false] ∧
    (∀ e ∈ c6st1.log, mapGet c6st1.oset.map e.2.1 ≠ none) := by
  refine ⟨by decide, ⟨_, rfl, by decide⟩, by decide, by decide, by decide⟩

/-! ### Solvability parity (proof tool for unreachability) -/

/-- The 36 index-ordered pairs of distinct board positions (row-major). -/
def pairsList : List ((Fin 3 × Fin 3) × (Fin 3 × Fin 3)) :=
  [(((0, 0) : Fin 3 × Fin 3), ((0, 1) : Fin 3 × Fin 3)),
   (((0, 0) : Fin 3 × Fin 3), ((0, 2) : Fin 3 × Fin 3)),
   (((0, 0) : Fin 3 × Fin 3), ((1, 0) : Fin 3 × Fin 3)),
   (((0, 0) : Fin 3 × Fin 3), ((1, 1) : Fin 3 × Fin 3)),
   (((0, 0) : Fin 3 × Fin 3), ((1, 2) : Fin 3 × Fin 3)),
   (((0, 0) : Fin 3 × Fin 3), ((2, 0) : Fin 3 × Fin 3)),
   (((0, 0) : Fin 3 × Fin 3), ((2, 1) : Fin 3 × Fin 3)),
   (((0, 0) : Fin 3 × Fin 3), ((2, 2) : Fin 3 × Fin 3)),
   (((0, 1) : Fin 3 × Fin 3), ((0, 2) : Fin 3 × Fin 3)),
   (((0, 1) : Fin 3 × Fin 3), ((1, 0) : Fin 3 × Fin 3)),
   (((0, 1) : Fin 3 × Fin 3), ((1, 1) : Fin 3 × Fin 3)),
   (((0, 1) : Fin 3 × Fin 3), ((1, 2) : Fin 3 × Fin 3)),
   (((0, 1) : Fin 3 × Fin 3), ((2, 0) : Fin 3 × Fin 3)),
   (((0, 1) : Fin 3 × Fin 3), ((2, 1) : Fin 3 × Fin 3)),
   (((0, 1) : Fin 3 × Fin 3), ((2, 2) : Fin 3 × Fin 3)),
   (((0, 2) : Fin 3 × Fin 3), ((1, 0) : Fin 3 × Fin 3)),
   (((0, 2) : Fin 3 × Fin 3), ((1, 1) : Fin 3 × Fin 3)),
   (((0, 2) : Fin 3 × Fin 3), ((1, 2) : Fin 3 × Fin 3)),
   (((0, 2) : Fin 3 × Fin 3), ((2, 0) : Fin 3 × Fin 3)),
   (((0, 2) : Fin 3 × Fin 3), ((2, 1) : Fin 3 × Fin 3)),
   (((0, 2) : Fin 3 × Fin 3), ((2, 2) : Fin 3 × Fin 3)),
   (((1, 0) : Fin 3 × Fin 3), ((1, 1) : Fin 3 × Fin 3)),
   (((1, 0) : Fin 3 × Fin 3), ((1, 2) : Fin 3 × Fin 3)),
   (((1, 0) : Fin 3 × Fin 3), ((2, 0) : Fin 3 × Fin 3)),
   (((1, 0) : Fin 3 × Fin 3), ((2, 1) : Fin 3 × Fin 3)),
   (((1, 0) : Fin 3 × Fin 3), ((2, 2) : Fin 3 × Fin 3)),
   (((1, 1) : Fin 3 × Fin 3), ((1, 2) : Fin 3 × Fin 3)),
   (((1, 1) : Fin 3 × Fin 3), ((2, 0) : Fin 3 × Fin 3)),
   (((1, 1) : Fin 3 × Fin 3), ((2, 1) : Fin 3 × Fin 3)),
   (((1, 1) : Fin 3 × Fin 3), ((2, 2) : Fin 3 × Fin 3)),
   (((1, 2) : Fin 3 × Fin 3), ((2, 0) : Fin 3 × Fin 3)),
   (((1, 2) : Fin 3 × Fin 3), ((2, 1) : Fin 3 × Fin 3)),
   (((1, 2) : Fin 3 × Fin 3), ((2, 2) : Fin 3 × Fin 3)),
   (((2, 0) : Fin 3 × Fin 3), ((2, 1) : Fin 3 × Fin 3)),
   (((2, 0) : Fin 3 × Fin 3), ((2, 2) : Fin 3 × Fin 3)),
   (((2, 1) : Fin 3 × Fin 3), ((2, 2) : Fin 3 × Fin 3))]

/-- The number of inversions of a board: pairs of positions, in row-major
order, whose values are out of order. -/
def inv9 (p : Puzzle) : Nat :=
  pairsList.countP (fun e => decide (p.board e.2.1 e.2.2 < p.board e.1.1 e.1.2))

/-- The row-major index of the blank cell (0 if there is none). -/
def blankIdx (p : Puzzle) : Nat :=
  match p.find_zero with
  | some z => 3 * z.1.val + z.2.val
  | none => 0

/-- The solvability parity of a board: every legal move preserves it. -/
def solvParity (p : Puzzle) : Nat := (inv9 p + blankIdx p) % 2

lemma posEnum (w : Fin 3 × Fin 3) :
    w = ((0, 0) : Fin 3 × Fin 3) ∨ w = ((0, 1) : Fin 3 × Fin 3) ∨ w = ((0, 2) : Fin 3 × Fin 3) ∨ w = ((1, 0) : Fin 3 × Fin 3) ∨ w = ((1, 1) : Fin 3 × Fin 3) ∨ w = ((1, 2) : Fin 3 × Fin 3) ∨ w = ((2, 0) : Fin 3 × Fin 3) ∨ w = ((2, 1) : Fin 3 × Fin 3) ∨ w = ((2, 2) : Fin 3 × Fin 3) := by
  revert w
  decide

/-- Expansion of the inversion count into its 36 comparison terms. -/
lemma inv9_expand (p : Puzzle) : inv9 p =
    (if p.board 0 1 < p.board 0 0 then (1 : Nat) else 0) +
    (if p.board 0 2 < p.board 0 0 then (1 : Nat) else 0) +
    (if p.board 1 0 < p.board 0 0 then (1 : Nat) else 0) +
    (if p.board 1 1 < p.board 0 0 then (1 : Nat) else 0) +
    (if p.board 1 2 < p.board 0 0 then (1 : Nat) else 0) +
    (if p.board 2 0 < p.board 0 0 then (1 : Nat) else 0) +
    (if p.board 2 1 < p.board 0 0 then (1 : Nat) else 0) +
    (if p.board 2 2 < p.board 0 0 then (1 : Nat) else 0) +
    (if p.board 0 2 < p.board 0 1 then (1 : Nat) else 0) +
    (if p.board 1 0 < p.board 0 1 then (1 : Nat) else 0) +
    (if p.board 1 1 < p.board 0 1 then (1 : Nat) else 0) +
    (if p.board 1 2 < p.board 0 1 then (1 : Nat) else 0) +
    (if p.board 2 0 < p.board 0 1 then (1 : Nat) else 0) +
    (if p.board 2 1 < p.board 0 1 then (1 : Nat) else 0) +
    (if p.board 2 2 < p.board 0 1 then (1 : Nat) else 0) +
    (if p.board 1 0 < p.board 0 2 then (1 : Nat) else 0) +
    (if p.board 1 1 < p.board 0 2 then (1 : Nat) else 0) +
    (if p.board 1 2 < p.board 0 2 then (1 : Nat) else 0) +
    (if p.board 2 0 < p.board 0 2 then (1 : Nat) else 0) +
    (if p.board 2 1 < p.board 0 2 then (1 : Nat) else 0) +
    (if p.board 2 2 < p.board 0 2 then (1 : Nat) else 0) +
    (if p.board 1 1 < p.board 1 0 then (1 : Nat) else 0) +
    (if p.board 1 2 < p.board 1 0 then (1 : Nat) else 0) +
    (if p.board 2 0 < p.board 1 0 then (1 : Nat) else 0) +
    (if p.board 2 1 < p.board 1 0 then (1 : Nat) else 0) +
    (if p.board 2 2 < p.board 1 0 then (1 : Nat) else 0) +
    (if p.board 1 2 < p.board 1 1 then (1 : Nat) else 0) +
    (if p.board 2 0 < p.board 1 1 then (1 : Nat) else 0) +
    (if p.board 2 1 < p.board 1 1 then (1 : Nat) else 0) +
    (if p.board 2 2 < p.board 1 1 then (1 : Nat) else 0) +
    (if p.board 2 0 < p.board 1 2 then (1 : Nat) else 0) +
    (if p.board 2 1 < p.board 1 2 then (1 : Nat) else 0) +
    (if p.board 2 2 < p.board 1 2 then (1 : Nat) else 0) +
    (if p.board 2 1 < p.board 2 0 then (1 : Nat) else 0) +
    (if p.board 2 2 < p.board 2 0 then (1 : Nat) else 0) +
    (if p.board 2 2 < p.board 2 1 then (1 : Nat) else 0) := by
  simp only [inv9, pairsList, List.countP_cons, List.countP_nil,
    decide_eq_true_eq]
  omega

/-- Swapping the blank with a neighbouring cell (any legal move shape)
flips the parity of the inversion count, provided the nine cell values are
pairwise distinct. -/
lemma inv9_swap (p pp : Puzzle) (z n : Fin 3 × Fin 3) (d : Direction)
    (hn1 : (n.1.val : Int) = (z.1.val : Int) + d.delta.1)
    (hn2 : (n.2.val : Int) = (z.2.val : Int) + d.delta.2)
    (T2 : ∀ a b c e : Fin 3, ¬((a, b) = ((c, e) : Fin 3 × Fin 3)) →
      (if p.board c e < p.board a b then (1 : Nat) else 0) +
      (if p.board a b < p.board c e then (1 : Nat) else 0) = 1)
    (hcomp2 : ∀ r c : Fin 3, pp.board r c =
      p.board (Equiv.swap z n (r, c)).1 (Equiv.swap z n (r, c)).2) :
    (inv9 p + inv9 pp) % 2 = 1 := by
  rcases posEnum z with rfl | rfl | rfl | rfl | rfl | rfl | rfl | rfl | rfl
  · cases d with
    | up =>
      exfalso
      have e : ((n.1.val : Int)) = -1 := hn1.trans (by decide)
      omega
    | down =>
      have e1 : (n.1.val : Int) = 1 := hn1.trans (by decide)
      have e2 : (n.2.val : Int) = 0 := hn2.trans (by decide)
      have hnv : n = ((1 : Fin 3), (0 : Fin 3)) := by
        have h1 : n.1 = (1 : Fin 3) :=
          Fin.ext (by have hv : ((1 : Fin 3)).val = 1 := rfl; omega)
        have h2 : n.2 = (0 : Fin 3) :=
          Fin.ext (by have hv : ((0 : Fin 3)).val = 0 := rfl; omega)
        exact Prod.ext h1 h2
      subst hnv
      rw [inv9_expand p, inv9_expand pp]
      have b00 : pp.board 0 0 = p.board 1 0 := (hcomp2 0 0).trans (by rfl)
      have b01 : pp.board 0 1 = p.board 0 1 := (hcomp2 0 1).trans (by rfl)
      have b02 : pp.board 0 2 = p.board 0 2 := (hcomp2 0 2).trans (by rfl)
      have b10 : pp.board 1 0 = p.board 0 0 := (hcomp2 1 0).trans (by rfl)
      have b11 : pp.board 1 1 = p.board 1 1 := (hcomp2 1 1).trans (by rfl)
      have b12 : pp.board 1 2 = p.board 1 2 := (hcomp2 1 2).trans (by rfl)
      have b20 : pp.board 2 0 = p.board 2 0 := (hcomp2 2 0).trans (by rfl)
      have b21 : pp.board 2 1 = p.board 2 1 := (hcomp2 2 1).trans (by rfl)
      have b22 : pp.board 2 2 = p.board 2 2 := (hcomp2 2 2).trans (by rfl)
      rw [b00, b01, b02, b10, b11, b12, b20, b21, b22]
      have t0 := T2 0 0 0 1 (by decide)
      have t1 := T2 0 0 0 2 (by decide)
      have t2 := T2 0 0 1 0 (by decide)
      have t3 := T2 0 0 1 1 (by decide)
      have t4 := T2 0 0 1 2 (by decide)
      have t5 := T2 0 0 2 0 (by decide)
      have t6 := T2 0 0 2 1 (by decide)
      have t7 := T2 0 0 2 2 (by decide)
      have t8 := T2 0 1 1 0 (by decide)
      have t9 := T2 0 2 1 0 (by decide)
      have t10 := T2 1 0 1 1 (by decide)
      have t11 := T2 1 0 1 2 (by decide)
      have t12 := T2 1 0 2 0 (by decide)
      have t13 := T2 1 0 2 1 (by decide)
      have t14 := T2 1 0 2 2 (by decide)
      omega
    | left =>
      exfalso
      have e : ((n.2.val : Int)) = -1 := hn2.trans (by decide)
      omega
    | right =>
      have e1 : (n.1.val : Int) = 0 := hn1.trans (by decide)
      have e2 : (n.2.val : Int) = 1 := hn2.trans (by decide)
      have hnv : n = ((0 : Fin 3), (1 : Fin 3)) := by
        have h1 : n.1 = (0 : Fin 3) :=
          Fin.ext (by have hv : ((0 : Fin 3)).val = 0 := rfl; omega)
        have h2 : n.2 = (1 : Fin 3) :=
          Fin.ext (by have hv : ((1 : Fin 3)).val = 1 := rfl; omega)
        exact Prod.ext h1 h2
      subst hnv
      rw [inv9_expand p, inv9_expand pp]
      have b00 : pp.board 0 0 = p.board 0 1 := (hcomp2 0 0).trans (by rfl)
      have b01 : pp.board 0 1 = p.board 0 0 := (hcomp2 0 1).trans (by rfl)
      have b02 : pp.board 0 2 = p.board 0 2 := (hcomp2 0 2).trans (by rfl)
      have b10 : pp.board 1 0 = p.board 1 0 := (hcomp2 1 0).trans (by rfl)
      have b11 : pp.board 1 1 = p.board 1 1 := (hcomp2 1 1).trans (by rfl)
      have b12 : pp.board 1 2 = p.board 1 2 := (hcomp2 1 2).trans (by rfl)
      have b20 : pp.board 2 0 = p.board 2 0 := (hcomp2 2 0).trans (by rfl)
      have b21 : pp.board 2 1 = p.board 2 1 := (hcomp2 2 1).trans (by rfl)
      have b22 : pp.board 2 2 = p.board 2 2 := (hcomp2 2 2).trans (by rfl)
      rw [b00, b01, b02, b10, b11, b12, b20, b21, b22]
      have t0 := T2 0 0 0 1 (by decide)
      have t1 := T2 0 0 0 2 (by decide)
      have t2 := T2 0 0 1 0 (by decide)
      have t3 := T2 0 0 1 1 (by decide)
      have t4 := T2 0 0 1 2 (by decide)
      have t5 := T2 0 0 2 0 (by decide)
      have t6 := T2 0 0 2 1 (by decide)
      have t7 := T2 0 0 2 2 (by decide)
      have t8 := T2 0 1 0 2 (by decide)
      have t9 := T2 0 1 1 0 (by decide)
      have t10 := T2 0 1 1 1 (by decide)
      have t11 := T2 0 1 1 2 (by decide)
      have t12 := T2 0 1 2 0 (by decide)
      have t13 := T2 0 1 2 1 (by decide)
      have t14 := T2 0 1 2 2 (by decide)
      omega
  · cases d with
    | up =>
      exfalso
      have e : ((n.1.val : Int)) = -1 := hn1.trans (by decide)
      omega
    | down =>
      have e1 : (n.1.val : Int) = 1 := hn1.trans (by decide)
      have e2 : (n.2.val : Int) = 1 := hn2.trans (by decide)
      have hnv : n = ((1 : Fin 3), (1 : Fin 3)) := by
        have h1 : n.1 = (1 : Fin 3) :=
          Fin.ext (by have hv : ((1 : Fin 3)).val = 1 := rfl; omega)
        have h2 : n.2 = (1 : Fin 3) :=
          Fin.ext (by have hv : ((1 : Fin 3)).val = 1 := rfl; omega)
        exact Prod.ext h1 h2
      subst hnv
      rw [inv9_expand p, inv9_expand pp]
      have b00 : pp.board 0 0 = p.board 0 0 := (hcomp2 0 0).trans (by rfl)
      have b01 : pp.board 0 1 = p.board 1 1 := (hcomp2 0 1).trans (by rfl)
      have b02 : pp.board 0 2 = p.board 0 2 := (hcomp2 0 2).trans (by rfl)
      have b10 : pp.board 1 0 = p.board 1 0 := (hcomp2 1 0).trans (by rfl)
      have b11 : pp.board 1 1 = p.board 0 1 := (hcomp2 1 1).trans (by rfl)
      have b12 : pp.board 1 2 = p.board 1 2 := (hcomp2 1 2).trans (by rfl)
      have b20 : pp.board 2 0 = p.board 2 0 := (hcomp2 2 0).trans (by rfl)
      have b21 : pp.board 2 1 = p.board 2 1 := (hcomp2 2 1).trans (by rfl)
      have b22 : pp.board 2 2 = p.board 2 2 := (hcomp2 2 2).trans (by rfl)
      rw [b00, b01, b02, b10, b11, b12, b20, b21, b22]
      have t0 := T2 0 0 0 1 (by decide)
      have t1 := T2 0 0 1 1 (by decide)
      have t2 := T2 0 1 0 2 (by decide)
      have t3 := T2 0 1 1 0 (by decide)
      have t4 := T2 0 1 1 1 (by decide)
      have t5 := T2 0 1 1 2 (by decide)
      have t6 := T2 0 1 2 0 (by decide)
      have t7 := T2 0 1 2 1 (by decide)
      have t8 := T2 0 1 2 2 (by decide)
      have t9 := T2 0 2 1 1 (by decide)
      have t10 := T2 1 0 1 1 (by decide)
      have t11 := T2 1 1 1 2 (by decide)
      have t12 := T2 1 1 2 0 (by decide)
      have t13 := T2 1 1 2 1 (by decide)
      have t14 := T2 1 1 2 2 (by decide)
      omega
    | left =>
      have e1 : (n.1.val : Int) = 0 := hn1.trans (by decide)
      have e2 : (n.2.val : Int) = 0 := hn2.trans (by decide)
      have hnv : n = ((0 : Fin 3), (0 : Fin 3)) := by
        have h1 : n.1 = (0 : Fin 3) :=
          Fin.ext (by have hv : ((0 : Fin 3)).val = 0 := rfl; omega)
        have h2 : n.2 = (0 : Fin 3) :=
          Fin.ext (by have hv : ((0 : Fin 3)).val = 0 := rfl; omega)
        exact Prod.ext h1 h2
      subst hnv
      rw [inv9_expand p, inv9_expand pp]
      have b00 : pp.board 0 0 = p.board 0 1 := (hcomp2 0 0).trans (by rfl)
      have b01 : pp.board 0 1 = p.board 0 0 := (hcomp2 0 1).trans (by rfl)
      have b02 : pp.board 0 2 = p.board 0 2 := (hcomp2 0 2).trans (by rfl)
      have b10 : pp.board 1 0 = p.board 1 0 := (hcomp2 1 0).trans (by rfl)
      have b11 : pp.board 1 1 = p.board 1 1 := (hcomp2 1 1).trans (by rfl)
      have b12 : pp.board 1 2 = p.board 1 2 := (hcomp2 1 2).trans (by rfl)
      have b20 : pp.board 2 0 = p.board 2 0 := (hcomp2 2 0).trans (by rfl)
      have b21 : pp.board 2 1 = p.board 2 1 := (hcomp2 2 1).trans (by rfl)
      have b22 : pp.board 2 2 = p.board 2 2 := (hcomp2 2 2).trans (by rfl)
      rw [b00, b01, b02, b10, b11, b12, b20, b21, b22]
      have t0 := T2 0 0 0 1 (by decide)
      have t1 := T2 0 0 0 2 (by decide)
      have t2 := T2 0 0 1 0 (by decide)
      have t3 := T2 0 0 1 1 (by decide)
      have t4 := T2 0 0 1 2 (by decide)
      have t5 := T2 0 0 2 0 (by decide)
      have t6 := T2 0 0 2 1 (by decide)
      have t7 := T2 0 0 2 2 (by decide)
      have t8 := T2 0 1 0 2 (by decide)
      have t9 := T2 0 1 1 0 (by decide)
      have t10 := T2 0 1 1 1 (by decide)
      have t11 := T2 0 1 1 2 (by decide)
      have t12 := T2 0 1 2 0 (by decide)
      have t13 := T2 0 1 2 1 (by decide)
      have t14 := T2 0 1 2 2 (by decide)
      omega
    | right =>
      have e1 : (n.1.val : Int) = 0 := hn1.trans (by decide)
      have e2 : (n.2.val : Int) = 2 := hn2.trans (by decide)
      have hnv : n = ((0 : Fin 3), (2 : Fin 3)) := by
        have h1 : n.1 = (0 : Fin 3) :=
          Fin.ext (by have hv : ((0 : Fin 3)).val = 0 := rfl; omega)
        have h2 : n.2 = (2 : Fin 3) :=
          Fin.ext (by have hv : ((2 : Fin 3)).val = 2 := rfl; omega)
        exact Prod.ext h1 h2
      subst hnv
      rw [inv9_expand p, inv9_expand pp]
      have b00 : pp.board 0 0 = p.board 0 0 := (hcomp2 0 0).trans (by rfl)
      have b01 : pp.board 0 1 = p.board 0 2 := (hcomp2 0 1).trans (by rfl)
      have b02 : pp.board 0 2 = p.board 0 1 := (hcomp2 0 2).trans (by rfl)
      have b10 : pp.board 1 0 = p.board 1 0 := (hcomp2 1 0).trans (by rfl)
      have b11 : pp.board 1 1 = p.board 1 1 := (hcomp2 1 1).trans (by rfl)
      have b12 : pp.board 1 2 = p.board 1 2 := (hcomp2 1 2).trans (by rfl)
      have b20 : pp.board 2 0 = p.board 2 0 := (hcomp2 2 0).trans (by rfl)
      have b21 : pp.board 2 1 = p.board 2 1 := (hcomp2 2 1).trans (by rfl)
      have b22 : pp.board 2 2 = p.board 2 2 := (hcomp2 2 2).trans (by rfl)
      rw [b00, b01, b02, b10, b11, b12, b20, b21, b22]
      have t0 := T2 0 0 0 1 (by decide)
      have t1 := T2 0 0 0 2 (by decide)
      have t2 := T2 0 1 0 2 (by decide)
      have t3 := T2 0 1 1 0 (by decide)
      have t4 := T2 0 1 1 1 (by decide)
      have t5 := T2 0 1 1 2 (by decide)
      have t6 := T2 0 1 2 0 (by decide)
      have t7 := T2 0 1 2 1 (by decide)
      have t8 := T2 0 1 2 2 (by decide)
      have t9 := T2 0 2 1 0 (by decide)
      have t10 := T2 0 2 1 1 (by decide)
      have t11 := T2 0 2 1 2 (by decide)
      have t12 := T2 0 2 2 0 (by decide)
      have t13 := T2 0 2 2 1 (by decide)
      have t14 := T2 0 2 2 2 (by decide)
      omega
  · cases d with
    | up =>
      exfalso
      have e : ((n.1.val : Int)) = -1 := hn1.trans (by decide)
      omega
    | down =>
      have e1 : (n.1.val : Int) = 1 := hn1.trans (by decide)
      have e2 : (n.2.val : Int) = 2 := hn2.trans (by decide)
      have hnv : n = ((1 : Fin 3), (2 : Fin 3)) := by
        have h1 : n.1 = (1 : Fin 3) :=
          Fin.ext (by have hv : ((1 : Fin 3)).val = 1 := rfl; omega)
        have h2 : n.2 = (2 : Fin 3) :=
          Fin.ext (by have hv : ((2 : Fin 3)).val = 2 := rfl; omega)
        exact Prod.ext h1 h2
      subst hnv
      rw [inv9_expand p, inv9_expand pp]
      have b00 : pp.board 0 0 = p.board 0 0 := (hcomp2 0 0).trans (by rfl)
      have b01 : pp.board 0 1 = p.board 0 1 := (hcomp2 0 1).trans (by rfl)
      have b02 : pp.board 0 2 = p.board 1 2 := (hcomp2 0 2).trans (by rfl)
      have b10 : pp.board 1 0 = p.board 1 0 := (hcomp2 1 0).trans (by rfl)
      have b11 : pp.board 1 1 = p.board 1 1 := (hcomp2 1 1).trans (by rfl)
      have b12 : pp.board 1 2 = p.board 0 2 := (hcomp2 1 2).trans (by rfl)
      have b20 : pp.board 2 0 = p.board 2 0 := (hcomp2 2 0).trans (by rfl)
      have b21 : pp.board 2 1 = p.board 2 1 := (hcomp2 2 1).trans (by rfl)
      have b22 : pp.board 2 2 = p.board 2 2 := (hcomp2 2 2).trans (by rfl)
      rw [b00, b01, b02, b10, b11, b12, b20, b21, b22]
      have t0 := T2 0 0 0 2 (by decide)
      have t1 := T2 0 0 1 2 (by decide)
      have t2 := T2 0 1 0 2 (by decide)
      have t3 := T2 0 1 1 2 (by decide)
      have t4 := T2 0 2 1 0 (by decide)
      have t5 := T2 0 2 1 1 (by decide)
      have t6 := T2 0 2 1 2 (by decide)
      have t7 := T2 0 2 2 0 (by decide)
      have t8 := T2 0 2 2 1 (by decide)
      have t9 := T2 0 2 2 2 (by decide)
      have t10 := T2 1 0 1 2 (by decide)
      have t11 := T2 1 1 1 2 (by decide)
      have t12 := T2 1 2 2 0 (by decide)
      have t13 := T2 1 2 2 1 (by decide)
      have t14 := T2 1 2 2 2 (by decide)
      omega
    | left =>
      have e1 : (n.1.val : Int) = 0 := hn1.trans (by decide)
      have e2 : (n.2.val : Int) = 1 := hn2.trans (by decide)
      have hnv : n = ((0 : Fin 3), (1 : Fin 3)) := by
        have h1 : n.1 = (0 : Fin 3) :=
          Fin.ext (by have hv : ((0 : Fin 3)).val = 0 := rfl; omega)
        have h2 : n.2 = (1 : Fin 3) :=
          Fin.ext (by have hv : ((1 : Fin 3)).val = 1 := rfl; omega)
        exact Prod.ext h1 h2
      subst hnv
      rw [inv9_expand p, inv9_expand pp]
      have b00 : pp.board 0 0 = p.board 0 0 := (hcomp2 0 0).trans (by rfl)
      have b01 : pp.board 0 1 = p.board 0 2 := (hcomp2 0 1).trans (by rfl)
      have b02 : pp.board 0 2 = p.board 0 1 := (hcomp2 0 2).trans (by rfl)
      have b10 : pp.board 1 0 = p.board 1 0 := (hcomp2 1 0).trans (by rfl)
      have b11 : pp.board 1 1 = p.board 1 1 := (hcomp2 1 1).trans (by rfl)
      have b12 : pp.board 1 2 = p.board 1 2 := (hcomp2 1 2).trans (by rfl)
      have b20 : pp.board 2 0 = p.board 2 0 := (hcomp2 2 0).trans (by rfl)
      have b21 : pp.board 2 1 = p.board 2 1 := (hcomp2 2 1).trans (by rfl)
      have b22 : pp.board 2 2 = p.board 2 2 := (hcomp2 2 2).trans (by rfl)
      rw [b00, b01, b02, b10, b11, b12, b20, b21, b22]
      have t0 := T2 0 0 0 1 (by decide)
      have t1 := T2 0 0 0 2 (by decide)
      have t2 := T2 0 1 0 2 (by decide)
      have t3 := T2 0 1 1 0 (by decide)
      have t4 := T2 0 1 1 1 (by decide)
      have t5 := T2 0 1 1 2 (by decide)
      have t6 := T2 0 1 2 0 (by decide)
      have t7 := T2 0 1 2 1 (by decide)
      have t8 := T2 0 1 2 2 (by decide)
      have t9 := T2 0 2 1 0 (by decide)
      have t10 := T2 0 2 1 1 (by decide)
      have t11 := T2 0 2 1 2 (by decide)
      have t12 := T2 0 2 2 0 (by decide)
      have t13 := T2 0 2 2 1 (by decide)
      have t14 := T2 0 2 2 2 (by decide)
      omega
    | right =>
      exfalso
      have e : ((n.2.val : Int)) = 3 := hn2.trans (by decide)
      have hb := n.2.isLt
      omega
  · cases d with
    | up =>
      have e1 : (n.1.val : Int) = 0 := hn1.trans (by decide)
      have e2 : (n.2.val : Int) = 0 := hn2.trans (by decide)
      have hnv : n = ((0 : Fin 3), (0 : Fin 3)) := by
        have h1 : n.1 = (0 : Fin 3) :=
          Fin.ext (by have hv : ((0 : Fin 3)).val = 0 := rfl; omega)
        have h2 : n.2 = (0 : Fin 3) :=
          Fin.ext (by have hv : ((0 : Fin 3)).val = 0 := rfl; omega)
        exact Prod.ext h1 h2
      subst hnv
      rw [inv9_expand p, inv9_expand pp]
      have b00 : pp.board 0 0 = p.board 1 0 := (hcomp2 0 0).trans (by rfl)
      have b01 : pp.board 0 1 = p.board 0 1 := (hcomp2 0 1).trans (by rfl)
      have b02 : pp.board 0 2 = p.board 0 2 := (hcomp2 0 2).trans (by rfl)
      have b10 : pp.board 1 0 = p.board 0 0 := (hcomp2 1 0).trans (by rfl)
      have b11 : pp.board 1 1 = p.board 1 1 := (hcomp2 1 1).trans (by rfl)
      have b12 : pp.board 1 2 = p.board 1 2 := (hcomp2 1 2).trans (by rfl)
      have b20 : pp.board 2 0 = p.board 2 0 := (hcomp2 2 0).trans (by rfl)
      have b21 : pp.board 2 1 = p.board 2 1 := (hcomp2 2 1).trans (by rfl)
      have b22 : pp.board 2 2 = p.board 2 2 := (hcomp2 2 2).trans (by rfl)
      rw [b00, b01, b02, b10, b11, b12, b20, b21, b22]
      have t0 := T2 0 0 0 1 (by decide)
      have t1 := T2 0 0 0 2 (by decide)
      have t2 := T2 0 0 1 0 (by decide)
      have t3 := T2 0 0 1 1 (by decide)
      have t4 := T2 0 0 1 2 (by decide)
      have t5 := T2 0 0 2 0 (by decide)
      have t6 := T2 0 0 2 1 (by decide)
      have t7 := T2 0 0 2 2 (by decide)
      have t8 := T2 0 1 1 0 (by decide)
      have t9 := T2 0 2 1 0 (by decide)
      have t10 := T2 1 0 1 1 (by decide)
      have t11 := T2 1 0 1 2 (by decide)
      have t12 := T2 1 0 2 0 (by decide)
      have t13 := T2 1 0 2 1 (by decide)
      have t14 := T2 1 0 2 2 (by decide)
      omega
    | down =>
      have e1 : (n.1.val : Int) = 2 := hn1.trans (by decide)
      have e2 : (n.2.val : Int) = 0 := hn2.trans (by decide)
      have hnv : n = ((2 : Fin 3), (0 : Fin 3)) := by
        have h1 : n.1 = (2 : Fin 3) :=
          Fin.ext (by have hv : ((2 : Fin 3)).val = 2 := rfl; omega)
        have h2 : n.2 = (0 : Fin 3) :=
          Fin.ext (by have hv : ((0 : Fin 3)).val = 0 := rfl; omega)
        exact Prod.ext h1 h2
      subst hnv
      rw [inv9_expand p, inv9_expand pp]
      have b00 : pp.board 0 0 = p.board 0 0 := (hcomp2 0 0).trans (by rfl)
      have b01 : pp.board 0 1 = p.board 0 1 := (hcomp2 0 1).trans (by rfl)
      have b02 : pp.board 0 2 = p.board 0 2 := (hcomp2 0 2).trans (by rfl)
      have b10 : pp.board 1 0 = p.board 2 0 := (hcomp2 1 0).trans (by rfl)
      have b11 : pp.board 1 1 = p.board 1 1 := (hcomp2 1 1).trans (by rfl)
      have b12 : pp.board 1 2 = p.board 1 2 := (hcomp2 1 2).trans (by rfl)
      have b20 : pp.board 2 0 = p.board 1 0 := (hcomp2 2 0).trans (by rfl)
      have b21 : pp.board 2 1 = p.board 2 1 := (hcomp2 2 1).trans (by rfl)
      have b22 : pp.board 2 2 = p.board 2 2 := (hcomp2 2 2).trans (by rfl)
      rw [b00, b01, b02, b10, b11, b12, b20, b21, b22]
      have t0 := T2 0 0 1 0 (by decide)
      have t1 := T2 0 0 2 0 (by decide)
      have t2 := T2 0 1 1 0 (by decide)
      have t3 := T2 0 1 2 0 (by decide)
      have t4 := T2 0 2 1 0 (by decide)
      have t5 := T2 0 2 2 0 (by decide)
      have t6 := T2 1 0 1 1 (by decide)
      have t7 := T2 1 0 1 2 (by decide)
      have t8 := T2 1 0 2 0 (by decide)
      have t9 := T2 1 0 2 1 (by decide)
      have t10 := T2 1 0 2 2 (by decide)
      have t11 := T2 1 1 2 0 (by decide)
      have t12 := T2 1 2 2 0 (by decide)
      have t13 := T2 2 0 2 1 (by decide)
      have t14 := T2 2 0 2 2 (by decide)
      omega
    | left =>
      exfalso
      have e : ((n.2.val : Int)) = -1 := hn2.trans (by decide)
      omega
    | right =>
      have e1 : (n.1.val : Int) = 1 := hn1.trans (by decide)
      have e2 : (n.2.val : Int) = 1 := hn2.trans (by decide)
      have hnv : n = ((1 : Fin 3), (1 : Fin 3)) := by
        have h1 : n.1 = (1 : Fin 3) :=
          Fin.ext (by have hv : ((1 : Fin 3)).val = 1 := rfl; omega)
        have h2 : n.2 = (1 : Fin 3) :=
          Fin.ext (by have hv : ((1 : Fin 3)).val = 1 := rfl; omega)
        exact Prod.ext h1 h2
      subst hnv
      rw [inv9_expand p, inv9_expand pp]
      have b00 : pp.board 0 0 = p.board 0 0 := (hcomp2 0 0).trans (by rfl)
      have b01 : pp.board 0 1 = p.board 0 1 := (hcomp2 0 1).trans (by rfl)
      have b02 : pp.board 0 2 = p.board 0 2 := (hcomp2 0 2).trans (by rfl)
      have b10 : pp.board 1 0 = p.board 1 1 := (hcomp2 1 0).trans (by rfl)
      have b11 : pp.board 1 1 = p.board 1 0 := (hcomp2 1 1).trans (by rfl)
      have b12 : pp.board 1 2 = p.board 1 2 := (hcomp2 1 2).trans (by rfl)
      have b20 : pp.board 2 0 = p.board 2 0 := (hcomp2 2 0).trans (by rfl)
      have b21 : pp.board 2 1 = p.board 2 1 := (hcomp2 2 1).trans (by rfl)
      have b22 : pp.board 2 2 = p.board 2 2 := (hcomp2 2 2).trans (by rfl)
      rw [b00, b01, b02, b10, b11, b12, b20, b21, b22]
      have t0 := T2 0 0 1 0 (by decide)
      have t1 := T2 0 0 1 1 (by decide)
      have t2 := T2 0 1 1 0 (by decide)
      have t3 := T2 0 1 1 1 (by decide)
      have t4 := T2 0 2 1 0 (by decide)
      have t5 := T2 0 2 1 1 (by decide)
      have t6 := T2 1 0 1 1 (by decide)
      have t7 := T2 1 0 1 2 (by decide)
      have t8 := T2 1 0 2 0 (by decide)
      have t9 := T2 1 0 2 1 (by decide)
      have t10 := T2 1 0 2 2 (by decide)
      have t11 := T2 1 1 1 2 (by decide)
      have t12 := T2 1 1 2 0 (by decide)
      have t13 := T2 1 1 2 1 (by decide)
      have t14 := T2 1 1 2 2 (by decide)
      omega
  · cases d with
    | up =>
      have e1 : (n.1.val : Int) = 0 := hn1.trans (by decide)
      have e2 : (n.2.val : Int) = 1 := hn2.trans (by decide)
      have hnv : n = ((0 : Fin 3), (1 : Fin 3)) := by
        have h1 : n.1 = (0 : Fin 3) :=
          Fin.ext (by have hv : ((0 : Fin 3)).val = 0 := rfl; omega)
        have h2 : n.2 = (1 : Fin 3) :=
          Fin.ext (by have hv : ((1 : Fin 3)).val = 1 := rfl; omega)
        exact Prod.ext h1 h2
      subst hnv
      rw [inv9_expand p, inv9_expand pp]
      have b00 : pp.board 0 0 = p.board 0 0 := (hcomp2 0 0).trans (by rfl)
      have b01 : pp.board 0 1 = p.board 1 1 := (hcomp2 0 1).trans (by rfl)
      have b02 : pp.board 0 2 = p.board 0 2 := (hcomp2 0 2).trans (by rfl)
      have b10 : pp.board 1 0 = p.board 1 0 := (hcomp2 1 0).trans (by rfl)
      have b11 : pp.board 1 1 = p.board 0 1 := (hcomp2 1 1).trans (by rfl)
      have b12 : pp.board 1 2 = p.board 1 2 := (hcomp2 1 2).trans (by rfl)
      have b20 : pp.board 2 0 = p.board 2 0 := (hcomp2 2 0).trans (by rfl)
      have b21 : pp.board 2 1 = p.board 2 1 := (hcomp2 2 1).trans (by rfl)
      have b22 : pp.board 2 2 = p.board 2 2 := (hcomp2 2 2).trans (by rfl)
      rw [b00, b01, b02, b10, b11, b12, b20, b21, b22]
      have t0 := T2 0 0 0 1 (by decide)
      have t1 := T2 0 0 1 1 (by decide)
      have t2 := T2 0 1 0 2 (by decide)
      have t3 := T2 0 1 1 0 (by decide)
      have t4 := T2 0 1 1 1 (by decide)
      have t5 := T2 0 1 1 2 (by decide)
      have t6 := T2 0 1 2 0 (by decide)
      have t7 := T2 0 1 2 1 (by decide)
      have t8 := T2 0 1 2 2 (by decide)
      have t9 := T2 0 2 1 1 (by decide)
      have t10 := T2 1 0 1 1 (by decide)
      have t11 := T2 1 1 1 2 (by decide)
      have t12 := T2 1 1 2 0 (by decide)
      have t13 := T2 1 1 2 1 (by decide)
      have t14 := T2 1 1 2 2 (by decide)
      omega
    | down =>
      have e1 : (n.1.val : Int) = 2 := hn1.trans (by decide)
      have e2 : (n.2.val : Int) = 1 := hn2.trans (by decide)
      have hnv : n = ((2 : Fin 3), (1 : Fin 3)) := by
        have h1 : n.1 = (2 : Fin 3) :=
          Fin.ext (by have hv : ((2 : Fin 3)).val = 2 := rfl; omega)
        have h2 : n.2 = (1 : Fin 3) :=
          Fin.ext (by have hv : ((1 : Fin 3)).val = 1 := rfl; omega)
        exact Prod.ext h1 h2
      subst hnv
      rw [inv9_expand p, inv9_expand pp]
      have b00 : pp.board 0 0 = p.board 0 0 := (hcomp2 0 0).trans (by rfl)
      have b01 : pp.board 0 1 = p.board 0 1 := (hcomp2 0 1).trans (by rfl)
      have b02 : pp.board 0 2 = p.board 0 2 := (hcomp2 0 2).trans (by rfl)
      have b10 : pp.board 1 0 = p.board 1 0 := (hcomp2 1 0).trans (by rfl)
      have b11 : pp.board 1 1 = p.board 2 1 := (hcomp2 1 1).trans (by rfl)
      have b12 : pp.board 1 2 = p.board 1 2 := (hcomp2 1 2).trans (by rfl)
      have b20 : pp.board 2 0 = p.board 2 0 := (hcomp2 2 0).trans (by rfl)
      have b21 : pp.board 2 1 = p.board 1 1 := (hcomp2 2 1).trans (by rfl)
      have b22 : pp.board 2 2 = p.board 2 2 := (hcomp2 2 2).trans (by rfl)
      rw [b00, b01, b02, b10, b11, b12, b20, b21, b22]
      have t0 := T2 0 0 1 1 (by decide)
      have t1 := T2 0 0 2 1 (by decide)
      have t2 := T2 0 1 1 1 (by decide)
      have t3 := T2 0 1 2 1 (by decide)
      have t4 := T2 0 2 1 1 (by decide)
      have t5 := T2 0 2 2 1 (by decide)
      have t6 := T2 1 0 1 1 (by decide)
      have t7 := T2 1 0 2 1 (by decide)
      have t8 := T2 1 1 1 2 (by decide)
      have t9 := T2 1 1 2 0 (by decide)
      have t10 := T2 1 1 2 1 (by decide)
      have t11 := T2 1 1 2 2 (by decide)
      have t12 := T2 1 2 2 1 (by decide)
      have t13 := T2 2 0 2 1 (by decide)
      have t14 := T2 2 1 2 2 (by decide)
      omega
    | left =>
      have e1 : (n.1.val : Int) = 1 := hn1.trans (by decide)
      have e2 : (n.2.val : Int) = 0 := hn2.trans (by decide)
      have hnv : n = ((1 : Fin 3), (0 : Fin 3)) := by
        have h1 : n.1 = (1 : Fin 3) :=
          Fin.ext (by have hv : ((1 : Fin 3)).val = 1 := rfl; omega)
        have h2 : n.2 = (0 : Fin 3) :=
          Fin.ext (by have hv : ((0 : Fin 3)).val = 0 := rfl; omega)
        exact Prod.ext h1 h2
      subst hnv
      rw [inv9_expand p, inv9_expand pp]
      have b00 : pp.board 0 0 = p.board 0 0 := (hcomp2 0 0).trans (by rfl)
      have b01 : pp.board 0 1 = p.board 0 1 := (hcomp2 0 1).trans (by rfl)
      have b02 : pp.board 0 2 = p.board 0 2 := (hcomp2 0 2).trans (by rfl)
      have b10 : pp.board 1 0 = p.board 1 1 := (hcomp2 1 0).trans (by rfl)
      have b11 : pp.board 1 1 = p.board 1 0 := (hcomp2 1 1).trans (by rfl)
      have b12 : pp.board 1 2 = p.board 1 2 := (hcomp2 1 2).trans (by rfl)
      have b20 : pp.board 2 0 = p.board 2 0 := (hcomp2 2 0).trans (by rfl)
      have b21 : pp.board 2 1 = p.board 2 1 := (hcomp2 2 1).trans (by rfl)
      have b22 : pp.board 2 2 = p.board 2 2 := (hcomp2 2 2).trans (by rfl)
      rw [b00, b01, b02, b10, b11, b12, b20, b21, b22]
      have t0 := T2 0 0 1 0 (by decide)
      have t1 := T2 0 0 1 1 (by decide)
      have t2 := T2 0 1 1 0 (by decide)
      have t3 := T2 0 1 1 1 (by decide)
      have t4 := T2 0 2 1 0 (by decide)
      have t5 := T2 0 2 1 1 (by decide)
      have t6 := T2 1 0 1 1 (by decide)
      have t7 := T2 1 0 1 2 (by decide)
      have t8 := T2 1 0 2 0 (by decide)
      have t9 := T2 1 0 2 1 (by decide)
      have t10 := T2 1 0 2 2 (by decide)
      have t11 := T2 1 1 1 2 (by decide)
      have t12 := T2 1 1 2 0 (by decide)
      have t13 := T2 1 1 2 1 (by decide)
      have t14 := T2 1 1 2 2 (by decide)
      omega
    | right =>
      have e1 : (n.1.val : Int) = 1 := hn1.trans (by decide)
      have e2 : (n.2.val : Int) = 2 := hn2.trans (by decide)
      have hnv : n = ((1 : Fin 3), (2 : Fin 3)) := by
        have h1 : n.1 = (1 : Fin 3) :=
          Fin.ext (by have hv : ((1 : Fin 3)).val = 1 := rfl; omega)
        have h2 : n.2 = (2 : Fin 3) :=
          Fin.ext (by have hv : ((2 : Fin 3)).val = 2 := rfl; omega)
        exact Prod.ext h1 h2
      subst hnv
      rw [inv9_expand p, inv9_expand pp]
      have b00 : pp.board 0 0 = p.board 0 0 := (hcomp2 0 0).trans (by rfl)
      have b01 : pp.board 0 1 = p.board 0 1 := (hcomp2 0 1).trans (by rfl)
      have b02 : pp.board 0 2 = p.board 0 2 := (hcomp2 0 2).trans (by rfl)
      have b10 : pp.board 1 0 = p.board 1 0 := (hcomp2 1 0).trans (by rfl)
      have b11 : pp.board 1 1 = p.board 1 2 := (hcomp2 1 1).trans (by rfl)
      have b12 : pp.board 1 2 = p.board 1 1 := (hcomp2 1 2).trans (by rfl)
      have b20 : pp.board 2 0 = p.board 2 0 := (hcomp2 2 0).trans (by rfl)
      have b21 : pp.board 2 1 = p.board 2 1 := (hcomp2 2 1).trans (by rfl)
      have b22 : pp.board 2 2 = p.board 2 2 := (hcomp2 2 2).trans (by rfl)
      rw [b00, b01, b02, b10, b11, b12, b20, b21, b22]
      have t0 := T2 0 0 1 1 (by decide)
      have t1 := T2 0 0 1 2 (by decide)
      have t2 := T2 0 1 1 1 (by decide)
      have t3 := T2 0 1 1 2 (by decide)
      have t4 := T2 0 2 1 1 (by decide)
      have t5 := T2 0 2 1 2 (by decide)
      have t6 := T2 1 0 1 1 (by decide)
      have t7 := T2 1 0 1 2 (by decide)
      have t8 := T2 1 1 1 2 (by decide)
      have t9 := T2 1 1 2 0 (by decide)
      have t10 := T2 1 1 2 1 (by decide)
      have t11 := T2 1 1 2 2 (by decide)
      have t12 := T2 1 2 2 0 (by decide)
      have t13 := T2 1 2 2 1 (by decide)
      have t14 := T2 1 2 2 2 (by decide)
      omega
  · cases d with
    | up =>
      have e1 : (n.1.val : Int) = 0 := hn1.trans (by decide)
      have e2 : (n.2.val : Int) = 2 := hn2.trans (by decide)
      have hnv : n = ((0 : Fin 3), (2 : Fin 3)) := by
        have h1 : n.1 = (0 : Fin 3) :=
          Fin.ext (by have hv : ((0 : Fin 3)).val = 0 := rfl; omega)
        have h2 : n.2 = (2 : Fin 3) :=
          Fin.ext (by have hv : ((2 : Fin 3)).val = 2 := rfl; omega)
        exact Prod.ext h1 h2
      subst hnv
      rw [inv9_expand p, inv9_expand pp]
      have b00 : pp.board 0 0 = p.board 0 0 := (hcomp2 0 0).trans (by rfl)
      have b01 : pp.board 0 1 = p.board 0 1 := (hcomp2 0 1).trans (by rfl)
      have b02 : pp.board 0 2 = p.board 1 2 := (hcomp2 0 2).trans (by rfl)
      have b10 : pp.board 1 0 = p.board 1 0 := (hcomp2 1 0).trans (by rfl)
      have b11 : pp.board 1 1 = p.board 1 1 := (hcomp2 1 1).trans (by rfl)
      have b12 : pp.board 1 2 = p.board 0 2 := (hcomp2 1 2).trans (by rfl)
      have b20 : pp.board 2 0 = p.board 2 0 := (hcomp2 2 0).trans (by rfl)
      have b21 : pp.board 2 1 = p.board 2 1 := (hcomp2 2 1).trans (by rfl)
      have b22 : pp.board 2 2 = p.board 2 2 := (hcomp2 2 2).trans (by rfl)
      rw [b00, b01, b02, b10, b11, b12, b20, b21, b22]
      have t0 := T2 0 0 0 2 (by decide)
      have t1 := T2 0 0 1 2 (by decide)
      have t2 := T2 0 1 0 2 (by decide)
      have t3 := T2 0 1 1 2 (by decide)
      have t4 := T2 0 2 1 0 (by decide)
      have t5 := T2 0 2 1 1 (by decide)
      have t6 := T2 0 2 1 2 (by decide)
      have t7 := T2 0 2 2 0 (by decide)
      have t8 := T2 0 2 2 1 (by decide)
      have t9 := T2 0 2 2 2 (by decide)
      have t10 := T2 1 0 1 2 (by decide)
      have t11 := T2 1 1 1 2 (by decide)
      have t12 := T2 1 2 2 0 (by decide)
      have t13 := T2 1 2 2 1 (by decide)
      have t14 := T2 1 2 2 2 (by decide)
      omega
    | down =>
      have e1 : (n.1.val : Int) = 2 := hn1.trans (by decide)
      have e2 : (n.2.val : Int) = 2 := hn2.trans (by decide)
      have hnv : n = ((2 : Fin 3), (2 : Fin 3)) := by
        have h1 : n.1 = (2 : Fin 3) :=
          Fin.ext (by have hv : ((2 : Fin 3)).val = 2 := rfl; omega)
        have h2 : n.2 = (2 : Fin 3) :=
          Fin.ext (by have hv : ((2 : Fin 3)).val = 2 := rfl; omega)
        exact Prod.ext h1 h2
      subst hnv
      rw [inv9_expand p, inv9_expand pp]
      have b00 : pp.board 0 0 = p.board 0 0 := (hcomp2 0 0).trans (by rfl)
      have b01 : pp.board 0 1 = p.board 0 1 := (hcomp2 0 1).trans (by rfl)
      have b02 : pp.board 0 2 = p.board 0 2 := (hcomp2 0 2).trans (by rfl)
      have b10 : pp.board 1 0 = p.board 1 0 := (hcomp2 1 0).trans (by rfl)
      have b11 : pp.board 1 1 = p.board 1 1 := (hcomp2 1 1).trans (by rfl)
      have b12 : pp.board 1 2 = p.board 2 2 := (hcomp2 1 2).trans (by rfl)
      have b20 : pp.board 2 0 = p.board 2 0 := (hcomp2 2 0).trans (by rfl)
      have b21 : pp.board 2 1 = p.board 2 1 := (hcomp2 2 1).trans (by rfl)
      have b22 : pp.board 2 2 = p.board 1 2 := (hcomp2 2 2).trans (by rfl)
      rw [b00, b01, b02, b10, b11, b12, b20, b21, b22]
      have t0 := T2 0 0 1 2 (by decide)
      have t1 := T2 0 0 2 2 (by decide)
      have t2 := T2 0 1 1 2 (by decide)
      have t3 := T2 0 1 2 2 (by decide)
      have t4 := T2 0 2 1 2 (by decide)
      have t5 := T2 0 2 2 2 (by decide)
      have t6 := T2 1 0 1 2 (by decide)
      have t7 := T2 1 0 2 2 (by decide)
      have t8 := T2 1 1 1 2 (by decide)
      have t9 := T2 1 1 2 2 (by decide)
      have t10 := T2 1 2 2 0 (by decide)
      have t11 := T2 1 2 2 1 (by decide)
      have t12 := T2 1 2 2 2 (by decide)
      have t13 := T2 2 0 2 2 (by decide)
      have t14 := T2 2 1 2 2 (by decide)
      omega
    | left =>
      have e1 : (n.1.val : Int) = 1 := hn1.trans (by decide)
      have e2 : (n.2.val : Int) = 1 := hn2.trans (by decide)
      have hnv : n = ((1 : Fin 3), (1 : Fin 3)) := by
        have h1 : n.1 = (1 : Fin 3) :=
          Fin.ext (by have hv : ((1 : Fin 3)).val = 1 := rfl; omega)
        have h2 : n.2 = (1 : Fin 3) :=
          Fin.ext (by have hv : ((1 : Fin 3)).val = 1 := rfl; omega)
        exact Prod.ext h1 h2
      subst hnv
      rw [inv9_expand p, inv9_expand pp]
      have b00 : pp.board 0 0 = p.board 0 0 := (hcomp2 0 0).trans (by rfl)
      have b01 : pp.board 0 1 = p.board 0 1 := (hcomp2 0 1).trans (by rfl)
      have b02 : pp.board 0 2 = p.board 0 2 := (hcomp2 0 2).trans (by rfl)
      have b10 : pp.board 1 0 = p.board 1 0 := (hcomp2 1 0).trans (by rfl)
      have b11 : pp.board 1 1 = p.board 1 2 := (hcomp2 1 1).trans (by rfl)
      have b12 : pp.board 1 2 = p.board 1 1 := (hcomp2 1 2).trans (by rfl)
      have b20 : pp.board 2 0 = p.board 2 0 := (hcomp2 2 0).trans (by rfl)
      have b21 : pp.board 2 1 = p.board 2 1 := (hcomp2 2 1).trans (by rfl)
      have b22 : pp.board 2 2 = p.board 2 2 := (hcomp2 2 2).trans (by rfl)
      rw [b00, b01, b02, b10, b11, b12, b20, b21, b22]
      have t0 := T2 0 0 1 1 (by decide)
      have t1 := T2 0 0 1 2 (by decide)
      have t2 := T2 0 1 1 1 (by decide)
      have t3 := T2 0 1 1 2 (by decide)
      have t4 := T2 0 2 1 1 (by decide)
      have t5 := T2 0 2 1 2 (by decide)
      have t6 := T2 1 0 1 1 (by decide)
      have t7 := T2 1 0 1 2 (by decide)
      have t8 := T2 1 1 1 2 (by decide)
      have t9 := T2 1 1 2 0 (by decide)
      have t10 := T2 1 1 2 1 (by decide)
      have t11 := T2 1 1 2 2 (by decide)
      have t12 := T2 1 2 2 0 (by decide)
      have t13 := T2 1 2 2 1 (by decide)
      have t14 := T2 1 2 2 2 (by decide)
      omega
    | right =>
      exfalso
      have e : ((n.2.val : Int)) = 3 := hn2.trans (by decide)
      have hb := n.2.isLt
      omega
  · cases d with
    | up =>
      have e1 : (n.1.val : Int) = 1 := hn1.trans (by decide)
      have e2 : (n.2.val : Int) = 0 := hn2.trans (by decide)
      have hnv : n = ((1 : Fin 3), (0 : Fin 3)) := by
        have h1 : n.1 = (1 : Fin 3) :=
          Fin.ext (by have hv : ((1 : Fin 3)).val = 1 := rfl; omega)
        have h2 : n.2 = (0 : Fin 3) :=
          Fin.ext (by have hv : ((0 : Fin 3)).val = 0 := rfl; omega)
        exact Prod.ext h1 h2
      subst hnv
      rw [inv9_expand p, inv9_expand pp]
      have b00 : pp.board 0 0 = p.board 0 0 := (hcomp2 0 0).trans (by rfl)
      have b01 : pp.board 0 1 = p.board 0 1 := (hcomp2 0 1).trans (by rfl)
      have b02 : pp.board 0 2 = p.board 0 2 := (hcomp2 0 2).trans (by rfl)
      have b10 : pp.board 1 0 = p.board 2 0 := (hcomp2 1 0).trans (by rfl)
      have b11 : pp.board 1 1 = p.board 1 1 := (hcomp2 1 1).trans (by rfl)
      have b12 : pp.board 1 2 = p.board 1 2 := (hcomp2 1 2).trans (by rfl)
      have b20 : pp.board 2 0 = p.board 1 0 := (hcomp2 2 0).trans (by rfl)
      have b21 : pp.board 2 1 = p.board 2 1 := (hcomp2 2 1).trans (by rfl)
      have b22 : pp.board 2 2 = p.board 2 2 := (hcomp2 2 2).trans (by rfl)
      rw [b00, b01, b02, b10, b11, b12, b20, b21, b22]
      have t0 := T2 0 0 1 0 (by decide)
      have t1 := T2 0 0 2 0 (by decide)
      have t2 := T2 0 1 1 0 (by decide)
      have t3 := T2 0 1 2 0 (by decide)
      have t4 := T2 0 2 1 0 (by decide)
      have t5 := T2 0 2 2 0 (by decide)
      have t6 := T2 1 0 1 1 (by decide)
      have t7 := T2 1 0 1 2 (by decide)
      have t8 := T2 1 0 2 0 (by decide)
      have t9 := T2 1 0 2 1 (by decide)
      have t10 := T2 1 0 2 2 (by decide)
      have t11 := T2 1 1 2 0 (by decide)
      have t12 := T2 1 2 2 0 (by decide)
      have t13 := T2 2 0 2 1 (by decide)
      have t14 := T2 2 0 2 2 (by decide)
      omega
    | down =>
      exfalso
      have e : ((n.1.val : Int)) = 3 := hn1.trans (by decide)
      have hb := n.1.isLt
      omega
    | left =>
      exfalso
      have e : ((n.2.val : Int)) = -1 := hn2.trans (by decide)
      omega
    | right =>
      have e1 : (n.1.val : Int) = 2 := hn1.trans (by decide)
      have e2 : (n.2.val : Int) = 1 := hn2.trans (by decide)
      have hnv : n = ((2 : Fin 3), (1 : Fin 3)) := by
        have h1 : n.1 = (2 : Fin 3) :=
          Fin.ext (by have hv : ((2 : Fin 3)).val = 2 := rfl; omega)
        have h2 : n.2 = (1 : Fin 3) :=
          Fin.ext (by have hv : ((1 : Fin 3)).val = 1 := rfl; omega)
        exact Prod.ext h1 h2
      subst hnv
      rw [inv9_expand p, inv9_expand pp]
      have b00 : pp.board 0 0 = p.board 0 0 := (hcomp2 0 0).trans (by rfl)
      have b01 : pp.board 0 1 = p.board 0 1 := (hcomp2 0 1).trans (by rfl)
      have b02 : pp.board 0 2 = p.board 0 2 := (hcomp2 0 2).trans (by rfl)
      have b10 : pp.board 1 0 = p.board 1 0 := (hcomp2 1 0).trans (by rfl)
      have b11 : pp.board 1 1 = p.board 1 1 := (hcomp2 1 1).trans (by rfl)
      have b12 : pp.board 1 2 = p.board 1 2 := (hcomp2 1 2).trans (by rfl)
      have b20 : pp.board 2 0 = p.board 2 1 := (hcomp2 2 0).trans (by rfl)
      have b21 : pp.board 2 1 = p.board 2 0 := (hcomp2 2 1).trans (by rfl)
      have b22 : pp.board 2 2 = p.board 2 2 := (hcomp2 2 2).trans (by rfl)
      rw [b00, b01, b02, b10, b11, b12, b20, b21, b22]
      have t0 := T2 0 0 2 0 (by decide)
      have t1 := T2 0 0 2 1 (by decide)
      have t2 := T2 0 1 2 0 (by decide)
      have t3 := T2 0 1 2 1 (by decide)
      have t4 := T2 0 2 2 0 (by decide)
      have t5 := T2 0 2 2 1 (by decide)
      have t6 := T2 1 0 2 0 (by decide)
      have t7 := T2 1 0 2 1 (by decide)
      have t8 := T2 1 1 2 0 (by decide)
      have t9 := T2 1 1 2 1 (by decide)
      have t10 := T2 1 2 2 0 (by decide)
      have t11 := T2 1 2 2 1 (by decide)
      have t12 := T2 2 0 2 1 (by decide)
      have t13 := T2 2 0 2 2 (by decide)
      have t14 := T2 2 1 2 2 (by decide)
      omega
  · cases d with
    | up =>
      have e1 : (n.1.val : Int) = 1 := hn1.trans (by decide)
      have e2 : (n.2.val : Int) = 1 := hn2.trans (by decide)
      have hnv : n = ((1 : Fin 3), (1 : Fin 3)) := by
        have h1 : n.1 = (1 : Fin 3) :=
          Fin.ext (by have hv : ((1 : Fin 3)).val = 1 := rfl; omega)
        have h2 : n.2 = (1 : Fin 3) :=
          Fin.ext (by have hv : ((1 : Fin 3)).val = 1 := rfl; omega)
        exact Prod.ext h1 h2
      subst hnv
      rw [inv9_expand p, inv9_expand pp]
      have b00 : pp.board 0 0 = p.board 0 0 := (hcomp2 0 0).trans (by rfl)
      have b01 : pp.board 0 1 = p.board 0 1 := (hcomp2 0 1).trans (by rfl)
      have b02 : pp.board 0 2 = p.board 0 2 := (hcomp2 0 2).trans (by rfl)
      have b10 : pp.board 1 0 = p.board 1 0 := (hcomp2 1 0).trans (by rfl)
      have b11 : pp.board 1 1 = p.board 2 1 := (hcomp2 1 1).trans (by rfl)
      have b12 : pp.board 1 2 = p.board 1 2 := (hcomp2 1 2).trans (by rfl)
      have b20 : pp.board 2 0 = p.board 2 0 := (hcomp2 2 0).trans (by rfl)
      have b21 : pp.board 2 1 = p.board 1 1 := (hcomp2 2 1).trans (by rfl)
      have b22 : pp.board 2 2 = p.board 2 2 := (hcomp2 2 2).trans (by rfl)
      rw [b00, b01, b02, b10, b11, b12, b20, b21, b22]
      have t0 := T2 0 0 1 1 (by decide)
      have t1 := T2 0 0 2 1 (by decide)
      have t2 := T2 0 1 1 1 (by decide)
      have t3 := T2 0 1 2 1 (by decide)
      have t4 := T2 0 2 1 1 (by decide)
      have t5 := T2 0 2 2 1 (by decide)
      have t6 := T2 1 0 1 1 (by decide)
      have t7 := T2 1 0 2 1 (by decide)
      have t8 := T2 1 1 1 2 (by decide)
      have t9 := T2 1 1 2 0 (by decide)
      have t10 := T2 1 1 2 1 (by decide)
      have t11 := T2 1 1 2 2 (by decide)
      have t12 := T2 1 2 2 1 (by decide)
      have t13 := T2 2 0 2 1 (by decide)
      have t14 := T2 2 1 2 2 (by decide)
      omega
    | down =>
      exfalso
      have e : ((n.1.val : Int)) = 3 := hn1.trans (by decide)
      have hb := n.1.isLt
      omega
    | left =>
      have e1 : (n.1.val : Int) = 2 := hn1.trans (by decide)
      have e2 : (n.2.val : Int) = 0 := hn2.trans (by decide)
      have hnv : n = ((2 : Fin 3), (0 : Fin 3)) := by
        have h1 : n.1 = (2 : Fin 3) :=
          Fin.ext (by have hv : ((2 : Fin 3)).val = 2 := rfl; omega)
        have h2 : n.2 = (0 : Fin 3) :=
          Fin.ext (by have hv : ((0 : Fin 3)).val = 0 := rfl; omega)
        exact Prod.ext h1 h2
      subst hnv
      rw [inv9_expand p, inv9_expand pp]
      have b00 : pp.board 0 0 = p.board 0 0 := (hcomp2 0 0).trans (by rfl)
      have b01 : pp.board 0 1 = p.board 0 1 := (hcomp2 0 1).trans (by rfl)
      have b02 : pp.board 0 2 = p.board 0 2 := (hcomp2 0 2).trans (by rfl)
      have b10 : pp.board 1 0 = p.board 1 0 := (hcomp2 1 0).trans (by rfl)
      have b11 : pp.board 1 1 = p.board 1 1 := (hcomp2 1 1).trans (by rfl)
      have b12 : pp.board 1 2 = p.board 1 2 := (hcomp2 1 2).trans (by rfl)
      have b20 : pp.board 2 0 = p.board 2 1 := (hcomp2 2 0).trans (by rfl)
      have b21 : pp.board 2 1 = p.board 2 0 := (hcomp2 2 1).trans (by rfl)
      have b22 : pp.board 2 2 = p.board 2 2 := (hcomp2 2 2).trans (by rfl)
      rw [b00, b01, b02, b10, b11, b12, b20, b21, b22]
      have t0 := T2 0 0 2 0 (by decide)
      have t1 := T2 0 0 2 1 (by decide)
      have t2 := T2 0 1 2 0 (by decide)
      have t3 := T2 0 1 2 1 (by decide)
      have t4 := T2 0 2 2 0 (by decide)
      have t5 := T2 0 2 2 1 (by decide)
      have t6 := T2 1 0 2 0 (by decide)
      have t7 := T2 1 0 2 1 (by decide)
      have t8 := T2 1 1 2 0 (by decide)
      have t9 := T2 1 1 2 1 (by decide)
      have t10 := T2 1 2 2 0 (by decide)
      have t11 := T2 1 2 2 1 (by decide)
      have t12 := T2 2 0 2 1 (by decide)
      have t13 := T2 2 0 2 2 (by decide)
      have t14 := T2 2 1 2 2 (by decide)
      omega
    | right =>
      have e1 : (n.1.val : Int) = 2 := hn1.trans (by decide)
      have e2 : (n.2.val : Int) = 2 := hn2.trans (by decide)
      have hnv : n = ((2 : Fin 3), (2 : Fin 3)) := by
        have h1 : n.1 = (2 : Fin 3) :=
          Fin.ext (by have hv : ((2 : Fin 3)).val = 2 := rfl; omega)
        have h2 : n.2 = (2 : Fin 3) :=
          Fin.ext (by have hv : ((2 : Fin 3)).val = 2 := rfl; omega)
        exact Prod.ext h1 h2
      subst hnv
      rw [inv9_expand p, inv9_expand pp]
      have b00 : pp.board 0 0 = p.board 0 0 := (hcomp2 0 0).trans (by rfl)
      have b01 : pp.board 0 1 = p.board 0 1 := (hcomp2 0 1).trans (by rfl)
      have b02 : pp.board 0 2 = p.board 0 2 := (hcomp2 0 2).trans (by rfl)
      have b10 : pp.board 1 0 = p.board 1 0 := (hcomp2 1 0).trans (by rfl)
      have b11 : pp.board 1 1 = p.board 1 1 := (hcomp2 1 1).trans (by rfl)
      have b12 : pp.board 1 2 = p.board 1 2 := (hcomp2 1 2).trans (by rfl)
      have b20 : pp.board 2 0 = p.board 2 0 := (hcomp2 2 0).trans (by rfl)
      have b21 : pp.board 2 1 = p.board 2 2 := (hcomp2 2 1).trans (by rfl)
      have b22 : pp.board 2 2 = p.board 2 1 := (hcomp2 2 2).trans (by rfl)
      rw [b00, b01, b02, b10, b11, b12, b20, b21, b22]
      have t0 := T2 0 0 2 1 (by decide)
      have t1 := T2 0 0 2 2 (by decide)
      have t2 := T2 0 1 2 1 (by decide)
      have t3 := T2 0 1 2 2 (by decide)
      have t4 := T2 0 2 2 1 (by decide)
      have t5 := T2 0 2 2 2 (by decide)
      have t6 := T2 1 0 2 1 (by decide)
      have t7 := T2 1 0 2 2 (by decide)
      have t8 := T2 1 1 2 1 (by decide)
      have t9 := T2 1 1 2 2 (by decide)
      have t10 := T2 1 2 2 1 (by decide)
      have t11 := T2 1 2 2 2 (by decide)
      have t12 := T2 2 0 2 1 (by decide)
      have t13 := T2 2 0 2 2 (by decide)
      have t14 := T2 2 1 2 2 (by decide)
      omega
  · cases d with
    | up =>
      have e1 : (n.1.val : Int) = 1 := hn1.trans (by decide)
      have e2 : (n.2.val : Int) = 2 := hn2.trans (by decide)
      have hnv : n = ((1 : Fin 3), (2 : Fin 3)) := by
        have h1 : n.1 = (1 : Fin 3) :=
          Fin.ext (by have hv : ((1 : Fin 3)).val = 1 := rfl; omega)
        have h2 : n.2 = (2 : Fin 3) :=
          Fin.ext (by have hv : ((2 : Fin 3)).val = 2 := rfl; omega)
        exact Prod.ext h1 h2
      subst hnv
      rw [inv9_expand p, inv9_expand pp]
      have b00 : pp.board 0 0 = p.board 0 0 := (hcomp2 0 0).trans (by rfl)
      have b01 : pp.board 0 1 = p.board 0 1 := (hcomp2 0 1).trans (by rfl)
      have b02 : pp.board 0 2 = p.board 0 2 := (hcomp2 0 2).trans (by rfl)
      have b10 : pp.board 1 0 = p.board 1 0 := (hcomp2 1 0).trans (by rfl)
      have b11 : pp.board 1 1 = p.board 1 1 := (hcomp2 1 1).trans (by rfl)
      have b12 : pp.board 1 2 = p.board 2 2 := (hcomp2 1 2).trans (by rfl)
      have b20 : pp.board 2 0 = p.board 2 0 := (hcomp2 2 0).trans (by rfl)
      have b21 : pp.board 2 1 = p.board 2 1 := (hcomp2 2 1).trans (by rfl)
      have b22 : pp.board 2 2 = p.board 1 2 := (hcomp2 2 2).trans (by rfl)
      rw [b00, b01, b02, b10, b11, b12, b20, b21, b22]
      have t0 := T2 0 0 1 2 (by decide)
      have t1 := T2 0 0 2 2 (by decide)
      have t2 := T2 0 1 1 2 (by decide)
      have t3 := T2 0 1 2 2 (by decide)
      have t4 := T2 0 2 1 2 (by decide)
      have t5 := T2 0 2 2 2 (by decide)
      have t6 := T2 1 0 1 2 (by decide)
      have t7 := T2 1 0 2 2 (by decide)
      have t8 := T2 1 1 1 2 (by decide)
      have t9 := T2 1 1 2 2 (by decide)
      have t10 := T2 1 2 2 0 (by decide)
      have t11 := T2 1 2 2 1 (by decide)
      have t12 := T2 1 2 2 2 (by decide)
      have t13 := T2 2 0 2 2 (by decide)
      have t14 := T2 2 1 2 2 (by decide)
      omega
    | down =>
      exfalso
      have e : ((n.1.val : Int)) = 3 := hn1.trans (by decide)
      have hb := n.1.isLt
      omega
    | left =>
      have e1 : (n.1.val : Int) = 2 := hn1.trans (by decide)
      have e2 : (n.2.val : Int) = 1 := hn2.trans (by decide)
      have hnv : n = ((2 : Fin 3), (1 : Fin 3)) := by
        have h1 : n.1 = (2 : Fin 3) :=
          Fin.ext (by have hv : ((2 : Fin 3)).val = 2 := rfl; omega)
        have h2 : n.2 = (1 : Fin 3) :=
          Fin.ext (by have hv : ((1 : Fin 3)).val = 1 := rfl; omega)
        exact Prod.ext h1 h2
      subst hnv
      rw [inv9_expand p, inv9_expand pp]
      have b00 : pp.board 0 0 = p.board 0 0 := (hcomp2 0 0).trans (by rfl)
      have b01 : pp.board 0 1 = p.board 0 1 := (hcomp2 0 1).trans (by rfl)
      have b02 : pp.board 0 2 = p.board 0 2 := (hcomp2 0 2).trans (by rfl)
      have b10 : pp.board 1 0 = p.board 1 0 := (hcomp2 1 0).trans (by rfl)
      have b11 : pp.board 1 1 = p.board 1 1 := (hcomp2 1 1).trans (by rfl)
      have b12 : pp.board 1 2 = p.board 1 2 := (hcomp2 1 2).trans (by rfl)
      have b20 : pp.board 2 0 = p.board 2 0 := (hcomp2 2 0).trans (by rfl)
      have b21 : pp.board 2 1 = p.board 2 2 := (hcomp2 2 1).trans (by rfl)
      have b22 : pp.board 2 2 = p.board 2 1 := (hcomp2 2 2).trans (by rfl)
      rw [b00, b01, b02, b10, b11, b12, b20, b21, b22]
      have t0 := T2 0 0 2 1 (by decide)
      have t1 := T2 0 0 2 2 (by decide)
      have t2 := T2 0 1 2 1 (by decide)
      have t3 := T2 0 1 2 2 (by decide)
      have t4 := T2 0 2 2 1 (by decide)
      have t5 := T2 0 2 2 2 (by decide)
      have t6 := T2 1 0 2 1 (by decide)
      have t7 := T2 1 0 2 2 (by decide)
      have t8 := T2 1 1 2 1 (by decide)
      have t9 := T2 1 1 2 2 (by decide)
      have t10 := T2 1 2 2 1 (by decide)
      have t11 := T2 1 2 2 2 (by decide)
      have t12 := T2 2 0 2 1 (by decide)
      have t13 := T2 2 0 2 2 (by decide)
      have t14 := T2 2 1 2 2 (by decide)
      omega
    | right =>
      exfalso
      have e : ((n.2.val : Int)) = 3 := hn2.trans (by decide)
      have hb := n.2.isLt
      omega

/-- A valid board has pairwise distinct cell values. -/
lemma Puzzle.Valid.flatten_nodup {p : Puzzle} (hv : p.Valid) :
    p.flatten.Nodup :=
  hv.nodup_iff.2 (by decide)

/-- Distinct cells of a valid board hold distinct values. -/
lemma Puzzle.Valid.board_inj {p : Puzzle} (hv : p.Valid)
    {q r : Fin 3 × Fin 3} (hqr : q ≠ r) :
    p.board q.1 q.2 ≠ p.board r.1 r.2 := by
  intro hc
  exact hqr (List.inj_on_of_nodup_map hv.flatten_nodup (positions_complete q)
    (positions_complete r) hc)

/-- The comparison trichotomy facts used by `inv9_swap`, for valid boards. -/
lemma Puzzle.Valid.T2 {p : Puzzle} (hv : p.Valid) :
    ∀ a b c e : Fin 3, ¬((a, b) = ((c, e) : Fin 3 × Fin 3)) →
      (if p.board c e < p.board a b then (1 : Nat) else 0) +
      (if p.board a b < p.board c e then (1 : Nat) else 0) = 1 := by
  intro a b c e hne
  have vne : p.board a b ≠ p.board c e := hv.board_inj hne
  rcases Nat.lt_trichotomy (p.board c e) (p.board a b) with h | h | h
  · rw [if_pos h, if_neg (by omega)]
  · exact absurd h.symm vne
  · rw [if_neg (by omega), if_pos h]

/-- A valid board has exactly one blank cell. -/
lemma Puzzle.Valid.oneZero {p : Puzzle} (hv : p.Valid) : p.OneZero := by
  have hmem : (0 : Nat) ∈ p.flatten := hv.mem_iff.2 (by decide)
  obtain ⟨q, _, hq0⟩ := List.mem_map.1 hmem
  refine ⟨q, hq0, ?_⟩
  intro r hr
  by_contra hrq
  exact hv.board_inj hrq (hr.trans hq0.symm)

/-- Successor boards are the original board precomposed with the swap of
the blank cell and the target cell. -/
lemma Puzzle.move_zero_swap {p p' : Puzzle} {d : Direction}
    (h : p.move_zero d = some p') :
    ∃ z n : Fin 3 × Fin 3, p.find_zero = some z ∧
      (n.1.val : Int) = (z.1.val : Int) + d.delta.1 ∧
      (n.2.val : Int) = (z.2.val : Int) + d.delta.2 ∧
      ∀ r c : Fin 3, p'.board r c =
        p.board (Equiv.swap z n (r, c)).1 (Equiv.swap z n (r, c)).2 := by
  obtain ⟨z, n, hfz, hn1, hn2, hb⟩ := Puzzle.move_zero_eq_some h
  have hz0 : p.board z.1 z.2 = 0 := p.find_zero_spec z hfz
  have hnz : n ≠ z := move_target_ne hn1 hn2
  refine ⟨z, n, hfz, hn1, hn2, ?_⟩
  intro r c
  rw [hb]
  simp only []
  by_cases hqz : ((r, c) : Fin 3 × Fin 3) = z
  · have c2 : ¬(r = n.1 ∧ c = n.2) := by
      intro hc
      exact hnz (Prod.ext (hc.1 ▸ congrArg Prod.fst hqz.symm ▸ rfl)
        (hc.2 ▸ congrArg Prod.snd hqz.symm ▸ rfl)).symm
    have c1 : r = z.1 ∧ c = z.2 := ⟨congrArg Prod.fst hqz, congrArg Prod.snd hqz⟩
    rw [if_neg ?_, if_pos c1, hqz, Equiv.swap_apply_left]
    intro hc
    exact c2 hc
  · by_cases hqn : ((r, c) : Fin 3 × Fin 3) = n
    · have c1 : r = n.1 ∧ c = n.2 := ⟨congrArg Prod.fst hqn, congrArg Prod.snd hqn⟩
      rw [if_pos c1, hqn, Equiv.swap_apply_right]
      exact hz0.symm
    · have c1 : ¬(r = n.1 ∧ c = n.2) := fun hc => hqn (Prod.ext hc.1 hc.2)
      have c2 : ¬(r = z.1 ∧ c = z.2) := fun hc => hqz (Prod.ext hc.1 hc.2)
      rw [if_neg c1, if_neg c2, Equiv.swap_apply_of_ne_of_ne hqz hqn]

/-- A legal move changes the row-major blank index by 1 or 3, so the sum of
the old and new blank indices is odd. -/
lemma blank_parity {z n : Fin 3 × Fin 3} {d : Direction}
    (hn1 : (n.1.val : Int) = (z.1.val : Int) + d.delta.1)
    (hn2 : (n.2.val : Int) = (z.2.val : Int) + d.delta.2) :
    (3 * z.1.val + z.2.val + (3 * n.1.val + n.2.val)) % 2 = 1 := by
  cases d <;> (simp only [Direction.delta] at hn1 hn2; omega)

/-- Every legal move of a valid board preserves the solvability parity. -/
lemma solvParity_move {p p' : Puzzle} {d : Direction} (hv : p.Valid)
    (h : p.move_zero d = some p') : solvParity p' = solvParity p := by
  obtain ⟨z, n, hfz, hn1, hn2, hcomp2⟩ := Puzzle.move_zero_swap h
  have hz0 : p.board z.1 z.2 = 0 := p.find_zero_spec z hfz
  have hv' : p'.Valid := Puzzle.move_zero_valid hv h
  have hinv : (inv9 p + inv9 p') % 2 = 1 :=
    inv9_swap p p' z n d hn1 hn2 hv.T2 hcomp2
  have hbn : p'.board n.1 n.2 = 0 := by
    rw [hcomp2 n.1 n.2, show ((n.1, n.2) : Fin 3 × Fin 3) = n from rfl,
      Equiv.swap_apply_right]
    exact hz0
  have hfz' : p'.find_zero = some n := hv'.oneZero.find_zero_eq hbn
  have hb1 : blankIdx p = 3 * z.1.val + z.2.val := by
    simp [blankIdx, hfz]
  have hb2 : blankIdx p' = 3 * n.1.val + n.2.val := by
    simp [blankIdx, hfz']
  have hblank := blank_parity hn1 hn2
  simp only [solvParity, hb1, hb2]
  omega

/-! ### Reachability -/

/-- Applies a list of moves in order; fails if any of them is illegal. -/
def applyMoves (p : Puzzle) : List Direction → Option Puzzle
  | [] => some p
  | d :: ds =>
    match p.move_zero d with
    | none => none
    | some q => applyMoves q ds

/-- A state is reachable from another when some sequence of legal moves
connects them. -/
def Reachable (p q : Puzzle) : Prop := ∃ ds, applyMoves p ds = some q

lemma Reachable.refl (p : Puzzle) : Reachable p p := ⟨[], rfl⟩

lemma applyMoves_append (p : Puzzle) (ds es : List Direction) :
    applyMoves p (ds ++ es) =
      match applyMoves p ds with
      | none => none
      | some q => applyMoves q es := by
  induction ds generalizing p with
  | nil => rfl
  | cons d ds ih =>
    simp only [List.cons_append, applyMoves]
    cases p.move_zero d with
    | none => rfl
    | some q => exact ih q

lemma Reachable.step {i p q : Puzzle} {d : Direction} (h : Reachable i p)
    (hm : p.move_zero d = some q) : Reachable i q := by
  obtain ⟨ds, hds⟩ := h
  refine ⟨ds ++ [d], ?_⟩
  rw [applyMoves_append, hds]
  simp [applyMoves, hm]

/-- Validity and parity are preserved along any chain of legal moves. -/
lemma applyMoves_valid_parity :
    ∀ (ds : List Direction) (p q : Puzzle), p.Valid →
      applyMoves p ds = some q → q.Valid ∧ solvParity q = solvParity p := by
  intro ds
  induction ds with
  | nil =>
    intro p q hv h
    cases h
    exact ⟨hv, rfl⟩
  | cons d ds ih =>
    intro p q hv h
    simp only [applyMoves] at h
    cases hm : p.move_zero d with
    | none => rw [hm] at h; exact Option.noConfusion h
    | some r =>
      rw [hm] at h
      have hrv : r.Valid := Puzzle.move_zero_valid hv hm
      obtain ⟨hqv, hpar⟩ := ih r q hrv h
      exact ⟨hqv, hpar.trans (solvParity_move hv hm)⟩

lemma Reachable.valid {p q : Puzzle} (hv : p.Valid) (h : Reachable p q) :
    q.Valid := by
  obtain ⟨ds, hds⟩ := h
  exact (applyMoves_valid_parity ds p q hv hds).1

lemma Reachable.solvParity_eq {p q : Puzzle} (hv : p.Valid)
    (h : Reachable p q) : solvParity q = solvParity p := by
  obtain ⟨ds, hds⟩ := h
  exact (applyMoves_valid_parity ds p q hv hds).2

/-- The standard goal with the blank in the bottom-right corner. -/
def standardGoal : Puzzle := Puzzle.ofRows [[1, 2, 3], [4, 5, 6], [7, 8, 0]]

/-- `standardGoal` with the two adjacent tiles 1 and 2 swapped: a valid
state of the opposite solvability parity. -/
def swappedGoal : Puzzle := Puzzle.ofRows [[2, 1, 3], [4, 5, 6], [7, 8, 0]]

lemma swappedGoal_unreachable : ¬ Reachable swappedGoal standardGoal := by
  intro h
  have he := h.solvParity_eq (by decide)
  rw [show solvParity standardGoal = 0 from by decide,
    show solvParity swappedGoal = 1 from by decide] at he
  exact absurd he (by decide)

/-! ### Invariants and termination of the search loop -/

lemma mapGet_eq_none_of_not_mem {κ α : Type} [DecidableEq κ]
    {m : List (κ × α)} {k : κ} (h : k ∉ m.map Prod.fst) : mapGet m k = none := by
  induction m with
  | nil => rfl
  | cons e rest ih =>
    simp only [List.map_cons, List.mem_cons, not_or] at h
    simp only [mapGet, if_neg (fun hc : e.1 = k => h.1 hc.symm)]
    exact ih h.2

lemma not_mem_of_mapGet_eq_none {κ α : Type} [DecidableEq κ]
    {m : List (κ × α)} {k : κ} (h : mapGet m k = none) : k ∉ m.map Prod.fst := by
  induction m with
  | nil => simp
  | cons e rest ih =>
    simp only [mapGet] at h
    by_cases he : e.1 = k
    · rw [if_pos he] at h
      exact Option.noConfusion h
    · rw [if_neg he] at h
      simp only [List.map_cons, List.mem_cons, not_or]
      exact ⟨fun hc => he hc.symm, ih h⟩

lemma mapGet_isSome_of_mem_keys {κ α : Type} [DecidableEq κ]
    {m : List (κ × α)} {k : κ} (h : k ∈ m.map Prod.fst) :
    ∃ v, mapGet m k = some v := by
  induction m with
  | nil => cases h
  | cons e rest ih =>
    by_cases he : e.1 = k
    · exact ⟨e.2, by simp [mapGet, he]⟩
    · simp only [List.map_cons, List.mem_cons] at h
      rcases h with h | h
      · exact absurd h.symm he
      · simpa [mapGet, he] using ih h

lemma mapGet_remove_some {κ α : Type} [DecidableEq κ]
    {m : List (κ × α)} {k s : κ} {v : α}
    (h : mapGet (mapRemove m k) s = some v) : mapGet m s = some v := by
  by_cases hs : s = k
  · subst hs
    rw [mapGet_remove_self] at h
    exact Option.noConfusion h
  · rw [mapGet_remove_ne _ _ _ hs] at h
    exact h

/-- The map after a push still covers the pushed state, with a g no larger
than the pushed one. -/
lemma OpenSet.push_covers (os : OpenSet) (n : BinaryHeapNode) :
    ∃ p' g', mapGet (os.push n).map n.puzzle = some (p', g') ∧ g' ≤ n.g := by
  unfold OpenSet.push
  rcases hold : mapGet os.map n.puzzle with _ | v <;> simp only []
  · exact ⟨n.parent, n.g, mapGet_insert_self _ _ _, le_refl _⟩
  · by_cases hg : v.2 > n.g
    · rw [if_pos hg]
      exact ⟨n.parent, n.g, mapGet_insert_self _ _ _, le_refl _⟩
    · rw [if_neg hg]
      exact ⟨v.1, v.2, by rw [hold], by omega⟩

/-- A push can only lower a state's recorded g. -/
lemma OpenSet.push_entry_mono {os : OpenSet} {n : BinaryHeapNode} {s : Puzzle}
    {p : Puzzle} {g : Int} (h : mapGet os.map s = some (p, g)) :
    ∃ p' g', mapGet (os.push n).map s = some (p', g') ∧ g' ≤ g := by
  by_cases hs : n.puzzle = s
  · subst hs
    by_cases hg : n.g < g
    · obtain ⟨_, hmap⟩ := OpenSet.push_better h hg
      exact ⟨n.parent, n.g, by rw [hmap]; exact mapGet_insert_self _ _ _,
        le_of_lt hg⟩
    · rw [OpenSet.push_worse h (le_of_not_lt hg)]
      exact ⟨p, g, h, le_refl g⟩
  · exact ⟨p, g, OpenSet.push_preserves_entry h (Or.inl hs), le_refl g⟩

/-- The live entry after a push is the old one or exactly the pushed node's. -/
lemma OpenSet.push_entry_cases {os : OpenSet} {n : BinaryHeapNode} {s p : Puzzle}
    {g : Int} (h : mapGet (os.push n).map s = some (p, g)) :
    mapGet os.map s = some (p, g) ∨ (s = n.puzzle ∧ p = n.parent ∧ g = n.g) := by
  by_cases hs : n.puzzle = s
  · subst hs
    rcases hold : mapGet os.map n.puzzle with _ | v
    · obtain ⟨_, hmap⟩ := OpenSet.push_fresh hold
      rw [hmap, mapGet_insert_self] at h
      have h2 := Option.some.inj h
      exact Or.inr ⟨rfl, (Prod.ext_iff.1 h2).1.symm, (Prod.ext_iff.1 h2).2.symm⟩
    · by_cases hg : n.g < v.2
      · obtain ⟨_, hmap⟩ := OpenSet.push_better hold hg
        rw [hmap, mapGet_insert_self] at h
        have h2 := Option.some.inj h
        exact Or.inr ⟨rfl, (Prod.ext_iff.1 h2).1.symm, (Prod.ext_iff.1 h2).2.symm⟩
      · rw [OpenSet.push_worse hold (le_of_not_lt hg)] at h
        rw [hold] at h
        exact Or.inl h
  · refine Or.inl ?_
    rw [← h]
    unfold OpenSet.push
    rcases hold : mapGet os.map n.puzzle with _ | v <;> simp only []
    · exact (mapGet_insert_ne _ _ _ _ (fun hc => hs hc.symm)).symm
    · by_cases hg : v.2 > n.g
      · rw [if_pos hg]
        exact (mapGet_insert_ne _ _ _ _ (fun hc => hs hc.symm)).symm
      · rw [if_neg hg]

/-- Lookup in a cons-map: the head binding wins. -/
lemma mapGet_cons_self {κ α : Type} [DecidableEq κ] (k : κ) (v : α)
    (m : List (κ × α)) : mapGet ((k, v) :: m) k = some v := by
  simp [mapGet]

/-- Lookup in a cons-map at another key skips the head binding. -/
lemma mapGet_cons_ne {κ α : Type} [DecidableEq κ] {k k' : κ} {v : α}
    {m : List (κ × α)} (h : k ≠ k') : mapGet ((k, v) :: m) k' = mapGet m k' := by
  simp [mapGet, h]

/-- A successful lookup exhibits a binding present in the list. -/
lemma mapGet_some_mem {κ α : Type} [DecidableEq κ] {m : List (κ × α)} {k : κ}
    {v : α} (h : mapGet m k = some v) : (k, v) ∈ m := by
  induction m with
  | nil => exact Option.noConfusion h
  | cons e rest ih =>
    simp only [mapGet] at h
    by_cases he : e.1 = k
    · rw [if_pos he] at h
      have hv := Option.some.inj h
      exact List.mem_cons.2 (Or.inl (by rw [← he, ← hv]))
    · rw [if_neg he] at h
      exact List.mem_cons.2 (Or.inr (ih h))

/-- Equation: a direction whose move is illegal changes nothing. -/
lemma expandDir_none {goal : Puzzle} {hfn : Puzzle → Puzzle → Int}
    {cur : BinaryHeapNode} {cg : Int} {st : SearchState} {d : Direction}
    (hm : cur.puzzle.move_zero d = none) :
    expandDir goal hfn cur cg st d = st := by
  unfold expandDir
  simp only [hm]

/-- Equation: a successor that is already closed is skipped silently
(`continue` before the callback, `src/logic/mod.rs:227`). -/
lemma expandDir_closed_skip {goal : Puzzle} {hfn : Puzzle → Puzzle → Int}
    {cur : BinaryHeapNode} {cg : Int} {st : SearchState} {d : Direction}
    {next : Puzzle} {v : Puzzle × Int}
    (hm : cur.puzzle.move_zero d = some next)
    (hc : mapGet st.closed next = some v) :
    expandDir goal hfn cur cg st d = st := by
  unfold expandDir
  simp only [hm, hc]

/-- Equation: a non-closed successor is pushed and the observer is called. -/
lemma expandDir_push {goal : Puzzle} {hfn : Puzzle → Puzzle → Int}
    {cur : BinaryHeapNode} {cg : Int} {st : SearchState} {d : Direction}
    {next : Puzzle} (hm : cur.puzzle.move_zero d = some next)
    (hc : mapGet st.closed next = none) :
    expandDir goal hfn cur cg st d =
      ⟨st.oset.push ⟨next, cur.puzzle, cg + 1, hfn next goal⟩, st.closed,
        st.log ++ [(cur.puzzle, next, false)]⟩ := by
  unfold expandDir
  simp only [hm, hc]

/-- Expanding one direction leaves the closed map untouched. -/
lemma expandDir_closed (goal : Puzzle) (hfn : Puzzle → Puzzle → Int)
    (cur : BinaryHeapNode) (cg : Int) (st : SearchState) (d : Direction) :
    (expandDir goal hfn cur cg st d).closed = st.closed := by
  cases hm : cur.puzzle.move_zero d with
  | none => rw [expandDir_none hm]
  | some next =>
    cases hc : mapGet st.closed next with
    | none => rw [expandDir_push hm hc]
    | some v => rw [expandDir_closed_skip hm hc]

/-- Folding `expandDir` over any direction list leaves the closed map
untouched. -/
lemma foldl_expandDir_closed (goal : Puzzle) (hfn : Puzzle → Puzzle → Int)
    (cur : BinaryHeapNode) (cg : Int) :
    ∀ (ds : List Direction) (st : SearchState),
      (ds.foldl (expandDir goal hfn cur cg) st).closed = st.closed := by
  intro ds
  induction ds with
  | nil => intro st; rfl
  | cons d ds ih =>
    intro st
    rw [List.foldl_cons, ih, expandDir_closed]

/-- The whole expansion leaves the closed map untouched. -/
lemma expand_closed (goal : Puzzle) (hfn : Puzzle → Puzzle → Int)
    (cur : BinaryHeapNode) (st : SearchState) :
    (expand goal hfn cur st).closed = st.closed :=
  foldl_expandDir_closed goal hfn cur (currentGOf st cur) Direction.all st

/-- A live entry after one `expandDir` is the old entry or a fresh one for a
non-closed legal successor, with parent the expanded state and g = cg + 1. -/
lemma expandDir_map_entry {goal : Puzzle} {hfn : Puzzle → Puzzle → Int}
    {cur : BinaryHeapNode} {cg : Int} {st : SearchState} {d : Direction}
    {s p : Puzzle} {g : Int}
    (h : mapGet (expandDir goal hfn cur cg st d).oset.map s = some (p, g)) :
    mapGet st.oset.map s = some (p, g) ∨
    (p = cur.puzzle ∧ g = cg + 1 ∧ mapGet st.closed s = none ∧
      cur.puzzle.move_zero d = some s) := by
  cases hm : cur.puzzle.move_zero d with
  | none =>
    rw [expandDir_none hm] at h
    exact Or.inl h
  | some next =>
    cases hc : mapGet st.closed next with
    | some v =>
      rw [expandDir_closed_skip hm hc] at h
      exact Or.inl h
    | none =>
      rw [expandDir_push hm hc] at h
      rcases OpenSet.push_entry_cases
          (n := ⟨next, cur.puzzle, cg + 1, hfn next goal⟩) h with
        hold | ⟨hs, hp, hg⟩
      · exact Or.inl hold
      · subst hs
        exact Or.inr ⟨hp, hg, hc, rfl⟩

/-- A live entry after folding `expandDir` is the old entry or one created
for a non-closed legal successor of the expanded state. -/
lemma foldl_expandDir_map_entry (goal : Puzzle) (hfn : Puzzle → Puzzle → Int)
    (cur : BinaryHeapNode) (cg : Int) :
    ∀ (ds : List Direction) (st : SearchState) {s p : Puzzle} {g : Int},
      mapGet ((ds.foldl (expandDir goal hfn cur cg) st)).oset.map s =
        some (p, g) →
      mapGet st.oset.map s = some (p, g) ∨
      (p = cur.puzzle ∧ g = cg + 1 ∧ mapGet st.closed s = none ∧
        ∃ d, cur.puzzle.move_zero d = some s) := by
  intro ds
  induction ds with
  | nil =>
    intro st s p g h
    exact Or.inl h
  | cons d ds ih =>
    intro st s p g h
    rw [List.foldl_cons] at h
    rcases ih (expandDir goal hfn cur cg st d) h with hold | ⟨hp, hg, hc, d', hd'⟩
    · rcases expandDir_map_entry hold with h1 | ⟨hp, hg, hc, hd⟩
      · exact Or.inl h1
      · exact Or.inr ⟨hp, hg, hc, d, hd⟩
    · rw [expandDir_closed] at hc
      exact Or.inr ⟨hp, hg, hc, d', hd'⟩

/-- The loop invariant of `solve_from_initial`: closed keys are distinct
(each state is closed at most once), open-map entries are never already
closed, and every recorded state is reachable from the initial state. -/
structure InvT (initial : Puzzle) (st : SearchState) : Prop where
  nodup : (st.closed.map Prod.fst).Nodup
  disj : ∀ s p g, mapGet st.oset.map s = some (p, g) → mapGet st.closed s = none
  reachC : ∀ e ∈ st.closed, Reachable initial e.1
  reachO : ∀ s p g, mapGet st.oset.map s = some (p, g) → Reachable initial s

/-- The invariant holds right after initialisation. -/
lemma invT_init (initial : Puzzle) : InvT initial (initState initial) := by
  refine ⟨List.nodup_nil, fun s p g _ => rfl,
    fun e he => absurd he (List.not_mem_nil e), ?_⟩
  intro s p g h
  rcases OpenSet.push_entry_cases (n := ⟨initial, initial, 0, 0⟩) h with
    h0 | ⟨hs, _, _⟩
  · exact Option.noConfusion h0
  · rw [hs]
    exact Reachable.refl _

/-- Closing a freshly popped node preserves the invariant; the popped state
is reachable. -/
lemma invT_close {initial : Puzzle} {st : SearchState} {cur : BinaryHeapNode}
    {osRest : OpenSet} (hi : InvT initial st)
    (hpop : st.oset.pop = some (cur, osRest)) :
    InvT initial (closeStep st cur osRest) ∧ Reachable initial cur.puzzle := by
  obtain ⟨hentry, hmap, _, _, _⟩ := popLoop_spec _ hpop
  have hreach : Reachable initial cur.puzzle := hi.reachO _ _ _ hentry
  have hclosed : mapGet st.closed cur.puzzle = none := hi.disj _ _ _ hentry
  refine ⟨⟨?_, ?_, ?_, ?_⟩, hreach⟩
  · show (((cur.puzzle, (cur.parent, cur.g)) :: st.closed).map Prod.fst).Nodup
    rw [List.map_cons]
    exact List.nodup_cons.2 ⟨not_mem_of_mapGet_eq_none hclosed, hi.nodup⟩
  · intro s p g h
    have h' : mapGet osRest.map s = some (p, g) := h
    rw [hmap] at h'
    have hs : s ≠ cur.puzzle := by
      intro hc
      subst hc
      rw [mapGet_remove_self] at h'
      exact Option.noConfusion h'
    rw [mapGet_remove_ne _ _ _ hs] at h'
    show mapGet ((cur.puzzle, (cur.parent, cur.g)) :: st.closed) s = none
    rw [mapGet_cons_ne (fun hc : cur.puzzle = s => hs hc.symm)]
    exact hi.disj _ _ _ h'
  · intro e he
    have he' : e ∈ (cur.puzzle, (cur.parent, cur.g)) :: st.closed := he
    rcases List.mem_cons.1 he' with h | h
    · rw [h]
      exact hreach
    · exact hi.reachC e h
  · intro s p g h
    have h' : mapGet osRest.map s = some (p, g) := h
    rw [hmap] at h'
    exact hi.reachO _ _ _ (mapGet_remove_some h')

/-- Expanding the successors of a reachable state preserves the invariant. -/
lemma invT_expand {initial goal : Puzzle} {hfn : Puzzle → Puzzle → Int}
    {cur : BinaryHeapNode} {st1 : SearchState} (hi : InvT initial st1)
    (hcur : Reachable initial cur.puzzle) :
    InvT initial (expand goal hfn cur st1) := by
  refine ⟨?_, ?_, ?_, ?_⟩
  · rw [expand_closed]
    exact hi.nodup
  · intro s p g h
    rw [expand_closed]
    rcases foldl_expandDir_map_entry goal hfn cur (currentGOf st1 cur)
        Direction.all st1 h with hold | ⟨_, _, hc, _⟩
    · exact hi.disj _ _ _ hold
    · exact hc
  · intro e he
    rw [expand_closed] at he
    exact hi.reachC e he
  · intro s p g h
    rcases foldl_expandDir_map_entry goal hfn cur (currentGOf st1 cur)
        Direction.all st1 h with hold | ⟨_, _, _, d, hd⟩
    · exact hi.reachO _ _ _ hold
    · exact hcur.step hd

/-- Equation: an exhausted open set ends the loop. -/
lemma solveStep_pop_none {goal : Puzzle} {hfn : Puzzle → Puzzle → Int}
    {st : SearchState} (h : st.oset.pop = none) :
    solveStep goal hfn st = .done .exhausted st := by
  unfold solveStep
  simp only [h]

/-- Equation: popping the goal closes it and stops. -/
lemma solveStep_pop_goal {goal : Puzzle} {hfn : Puzzle → Puzzle → Int}
    {st : SearchState} {cur : BinaryHeapNode} {osRest : OpenSet}
    (h : st.oset.pop = some (cur, osRest)) (hg : cur.puzzle = goal) :
    solveStep goal hfn st = .done .goalFound (closeStep st cur osRest) := by
  unfold solveStep
  simp only [h]
  rw [if_pos hg]

/-- Equation: popping a non-goal state closes and expands it. -/
lemma solveStep_pop_next {goal : Puzzle} {hfn : Puzzle → Puzzle → Int}
    {st : SearchState} {cur : BinaryHeapNode} {osRest : OpenSet}
    (h : st.oset.pop = some (cur, osRest)) (hg : cur.puzzle ≠ goal) :
    solveStep goal hfn st =
      .next (expand goal hfn cur (closeStep st cur osRest)) := by
  unfold solveStep
  simp only [h]
  rw [if_neg hg]

/-- One continuing iteration preserves the invariant and closes exactly one
new state. -/
lemma solveStep_next {initial goal : Puzzle} {hfn : Puzzle → Puzzle → Int}
    {st st' : SearchState} (hi : InvT initial st)
    (h : solveStep goal hfn st = .next st') :
    InvT initial st' ∧ st'.closed.length = st.closed.length + 1 := by
  cases hpop : st.oset.pop with
  | none =>
    rw [solveStep_pop_none hpop] at h
    exact StepResult.noConfusion h
  | some pr =>
    obtain ⟨cur, osRest⟩ := pr
    by_cases hgoal : cur.puzzle = goal
    · rw [solveStep_pop_goal hpop hgoal] at h
      exact StepResult.noConfusion h
    · rw [solveStep_pop_next hpop hgoal] at h
      have hst' := StepResult.next.inj h
      obtain ⟨hi1, hreach⟩ := invT_close hi hpop
      subst hst'
      refine ⟨invT_expand hi1 hreach, ?_⟩
      rw [expand_closed]
      simp [closeStep]

/-- A final iteration preserves the invariant; `Exhausted` happens exactly
when the pop failed (state unchanged), and `GoalFound` certifies that the
goal is reachable from the initial state. -/
lemma solveStep_done {initial goal : Puzzle} {hfn : Puzzle → Puzzle → Int}
    {st stf : SearchState} {oc : SolveOutcome} (hi : InvT initial st)
    (h : solveStep goal hfn st = .done oc stf) :
    InvT initial stf ∧ (oc = .exhausted → stf = st ∧ st.oset.pop = none) ∧
      (oc = .goalFound → Reachable initial goal) := by
  cases hpop : st.oset.pop with
  | none =>
    rw [solveStep_pop_none hpop] at h
    obtain ⟨h1, h2⟩ := StepResult.done.inj h
    subst h1
    subst h2
    exact ⟨hi, fun _ => ⟨rfl, rfl⟩, fun hgf => SolveOutcome.noConfusion hgf⟩
  | some pr =>
    obtain ⟨cur, osRest⟩ := pr
    by_cases hgoal : cur.puzzle = goal
    · rw [solveStep_pop_goal hpop hgoal] at h
      obtain ⟨h1, h2⟩ := StepResult.done.inj h
      subst h1
      subst h2
      obtain ⟨hi1, hreach⟩ := invT_close hi hpop
      exact ⟨hi1, fun he => SolveOutcome.noConfusion he,
        fun _ => hgoal ▸ hreach⟩
    · rw [solveStep_pop_next hpop hgoal] at h
      exact StepResult.noConfusion h

/-- Equation: the loop stops when the step finishes. -/
lemma solveLoop_succ_done {goal : Puzzle} {hfn : Puzzle → Puzzle → Int}
    {fuel : Nat} {st stf : SearchState} {oc : SolveOutcome}
    (h : solveStep goal hfn st = .done oc stf) :
    solveLoop goal hfn (fuel + 1) st = some (oc, stf) := by
  rw [solveLoop]
  simp only [h]

/-- Equation: the loop continues when the step continues. -/
lemma solveLoop_succ_next {goal : Puzzle} {hfn : Puzzle → Puzzle → Int}
    {fuel : Nat} {st st' : SearchState}
    (h : solveStep goal hfn st = .next st') :
    solveLoop goal hfn (fuel + 1) st = solveLoop goal hfn fuel st' := by
  rw [solveLoop]
  simp only [h]

/-- Every element of a list is bounded by its max-fold. -/
lemma le_foldr_max {x : Nat} : ∀ {l : List Nat}, x ∈ l → x ≤ l.foldr max 0 := by
  intro l
  induction l with
  | nil =>
    intro h
    cases h
  | cons a t ih =>
    intro h
    show x ≤ max a (t.foldr max 0)
    rcases List.mem_cons.1 h with h | h
    · subst h
      exact le_max_left _ _
    · exact le_trans (ih h) (le_max_right _ _)

/-- The largest value appearing on a board. -/
def maxVal (p : Puzzle) : Nat := p.flatten.foldr max 0

/-- All boards with values below `B`: a finite set covering every state the
search can ever meet, which is what makes the loop terminate. -/
def boundedBoards (B : Nat) : Finset Puzzle :=
  Finset.image (fun f : Fin 3 → Fin 3 → Fin B => ⟨fun i j => (f i j).val⟩)
    Finset.univ

lemma mem_boundedBoards {B : Nat} {p : Puzzle} (h : ∀ i j, p.board i j < B) :
    p ∈ boundedBoards B := by
  refine Finset.mem_image.2
    ⟨fun i j => ⟨p.board i j, h i j⟩, Finset.mem_univ _, ?_⟩
  ext i j
  rfl

/-- Moves permute the flattened board (no validity needed). -/
lemma applyMoves_flatten_perm : ∀ (ds : List Direction) (p q : Puzzle),
    applyMoves p ds = some q → List.Perm q.flatten p.flatten := by
  intro ds
  induction ds with
  | nil =>
    intro p q h
    cases h
    exact List.Perm.refl _
  | cons d ds ih =>
    intro p q h
    simp only [applyMoves] at h
    cases hm : p.move_zero d with
    | none =>
      rw [hm] at h
      exact Option.noConfusion h
    | some r =>
      rw [hm] at h
      exact (ih r q h).trans (Puzzle.move_zero_flatten_perm hm)

/-- Every state reachable from `initial` has all values below
`maxVal initial + 1`. -/
lemma Reachable.board_lt {initial s : Puzzle} (h : Reachable initial s)
    (i j : Fin 3) : s.board i j < maxVal initial + 1 := by
  obtain ⟨ds, hds⟩ := h
  have hperm := applyMoves_flatten_perm ds initial s hds
  have hmem : s.board i j ∈ s.flatten :=
    List.mem_map.2 ⟨(i, j), positions_complete (i, j), rfl⟩
  have hle := le_foldr_max (hperm.mem_iff.1 hmem)
  have hdef : maxVal initial = initial.flatten.foldr max 0 := rfl
  omega

/-- Distinct closed keys, all reachable, cannot outnumber the bounded
boards. -/
lemma InvT.closed_le {initial : Puzzle} {st : SearchState}
    (hi : InvT initial st) :
    st.closed.length ≤ (boundedBoards (maxVal initial + 1)).card := by
  have hlen : (st.closed.map Prod.fst).length = st.closed.length := by simp
  rw [← hlen, ← List.toFinset_card_of_nodup hi.nodup]
  apply Finset.card_le_card
  intro k hk
  rw [List.mem_toFinset] at hk
  obtain ⟨e, he, hek⟩ := List.mem_map.1 hk
  subst hek
  exact mem_boundedBoards (fun i j => (hi.reachC e he).board_lt i j)

/-- If the loop runs out of fuel, the fuel was at most the number of
bounded boards minus the states already closed. -/
lemma solveLoop_none_bound {initial goal : Puzzle}
    {hfn : Puzzle → Puzzle → Int} :
    ∀ (fuel : Nat) (st : SearchState), InvT initial st →
      solveLoop goal hfn fuel st = none →
      st.closed.length + fuel ≤ (boundedBoards (maxVal initial + 1)).card := by
  intro fuel
  induction fuel with
  | zero =>
    intro st hi _
    simpa using hi.closed_le
  | succ n ih =>
    intro st hi h
    cases hs : solveStep goal hfn st with
    | done oc stf =>
      rw [solveLoop_succ_done hs] at h
      exact Option.noConfusion h
    | next st' =>
      rw [solveLoop_succ_next hs] at h
      obtain ⟨hi', hlen⟩ := solveStep_next hi hs
      have hb := ih st' hi' h
      omega

/-- Whatever the fuel, a finished run satisfies the invariant; `Exhausted`
means the final pop failed, `GoalFound` means the goal was reachable. -/
lemma solveLoop_result {initial goal : Puzzle} {hfn : Puzzle → Puzzle → Int} :
    ∀ (fuel : Nat) (st : SearchState), InvT initial st →
      ∀ {oc : SolveOutcome} {stf : SearchState},
      solveLoop goal hfn fuel st = some (oc, stf) →
      InvT initial stf ∧ (oc = .exhausted → stf.oset.pop = none) ∧
        (oc = .goalFound → Reachable initial goal) := by
  intro fuel
  induction fuel with
  | zero =>
    intro st hi oc stf h
    exact Option.noConfusion h
  | succ n ih =>
    intro st hi oc stf h
    cases hs : solveStep goal hfn st with
    | done oc' stf' =>
      rw [solveLoop_succ_done hs] at h
      obtain ⟨h1, h2⟩ := Prod.ext_iff.1 (Option.some.inj h)
      subst h1
      subst h2
      obtain ⟨hinv, hexh, hgf⟩ := solveStep_done hi hs
      refine ⟨hinv, fun he => ?_, hgf⟩
      obtain ⟨hst, hpop⟩ := hexh he
      rw [hst]
      exact hpop
    | next st' =>
      rw [solveLoop_succ_next hs] at h
      exact ih st' (solveStep_next hi hs).1 h

/-- Fuel that always suffices: one more than the number of bounded boards. -/
def searchFuel (initial : Puzzle) : Nat :=
  (boundedBoards (maxVal initial + 1)).card + 1

lemma solveFromInitial_def (initial goal : Puzzle)
    (hfn : Puzzle → Puzzle → Int) (fuel : Nat) :
    solveFromInitial initial goal hfn fuel =
      solveLoop goal hfn fuel (initState initial) := rfl

/-- C2: for valid initial and goal boards and any heuristic, the search
terminates (with fuel `searchFuel initial` the fuel is never exhausted); when
the goal has the opposite solvability parity — hence is unreachable — the run
ends with `Exhausted` because the final pop returns `None`, the goal is not a
key of the closed map, and the closed keys are pairwise distinct (no state is
closed twice). -/
theorem claim_C2 (initial goal : Puzzle) (hfn : Puzzle → Puzzle → Int)
    (hvi : initial.Valid) (_hvg : goal.Valid)
    (hpar : solvParity initial ≠ solvParity goal) :
    ∃ stf, solveFromInitial initial goal hfn (searchFuel initial) =
        some (.exhausted, stf) ∧
      stf.oset.pop = none ∧ mapGet stf.closed goal = none ∧
      (stf.closed.map Prod.fst).Nodup := by
  have hunreach : ¬ Reachable initial goal := fun hr =>
    hpar (hr.solvParity_eq hvi).symm
  cases hres : solveFromInitial initial goal hfn (searchFuel initial) with
  | none =>
    exfalso
    rw [solveFromInitial_def] at hres
    have hb := solveLoop_none_bound (searchFuel initial) (initState initial)
      (invT_init initial) hres
    have hz : (initState initial).closed.length = 0 := rfl
    rw [hz] at hb
    unfold searchFuel at hb
    omega
  | some res =>
    obtain ⟨oc, stf⟩ := res
    rw [solveFromInitial_def] at hres
    obtain ⟨hinv, hexh, hgf⟩ := solveLoop_result (searchFuel initial)
      (initState initial) (invT_init initial) hres
    have hoc : oc = .exhausted := by
      cases oc with
      | exhausted => rfl
      | goalFound => exact absurd (hgf rfl) hunreach
    subst hoc
    refine ⟨stf, rfl, hexh rfl, ?_, hinv.nodup⟩
    cases hg : mapGet stf.closed goal with
    | none => rfl
    | some v =>
      exact absurd (hinv.reachC (goal, v) (mapGet_some_mem hg)) hunreach

/-- Concrete instantiation of `claim_C2`: the standard goal is unreachable
from the board with tiles 1 and 2 swapped (opposite parity), so the BFS run
exhausts the open set without ever closing the goal. -/
theorem claim_C2_witness :
    swappedGoal.Valid ∧ standardGoal.Valid ∧
    solvParity swappedGoal ≠ solvParity standardGoal ∧
    ∃ stf, solveFromInitial swappedGoal standardGoal BfsHeuristic.estimate_h
        (searchFuel swappedGoal) = some (.exhausted, stf) ∧
      stf.oset.pop = none ∧ mapGet stf.closed standardGoal = none ∧
      (stf.closed.map Prod.fst).Nodup :=
  ⟨by decide, by decide, by decide,
    claim_C2 swappedGoal standardGoal BfsHeuristic.estimate_h (by decide)
      (by decide) (by decide)⟩

/-! ### Claim C1: BFS optimality of the zero-heuristic search -/

/-- `g` is the length of a shortest move sequence from `initial` to `s`. -/
def IsDist (initial s : Puzzle) (g : Int) : Prop :=
  (∃ ds, applyMoves initial ds = some s ∧ (ds.length : Int) = g) ∧
  ∀ es, applyMoves initial es = some s → g ≤ (es.length : Int)

lemma IsDist.nonneg {initial s : Puzzle} {g : Int} (h : IsDist initial s g) :
    0 ≤ g := by
  obtain ⟨⟨ds, _, hlen⟩, _⟩ := h
  omega

/-- Splitting off the last move of a successful move sequence. -/
lemma applyMoves_concat {initial q : Puzzle} {es : List Direction}
    {d : Direction} (h : applyMoves initial (es ++ [d]) = some q) :
    ∃ e, applyMoves initial es = some e ∧ e.move_zero d = some q := by
  rw [applyMoves_append] at h
  cases he : applyMoves initial es with
  | none =>
    rw [he] at h
    exact Option.noConfusion h
  | some e =>
    rw [he] at h
    refine ⟨e, rfl, ?_⟩
    have h1 : applyMoves e [d] = some q := h
    simp only [applyMoves] at h1
    cases hm : e.move_zero d with
    | none =>
      rw [hm] at h1
      exact Option.noConfusion h1
    | some r =>
      rw [hm] at h1
      exact h1

/-- Appending one legal move to a successful move sequence. -/
lemma applyMoves_snoc {initial e q : Puzzle} {es : List Direction}
    {d : Direction} (he : applyMoves initial es = some e)
    (hm : e.move_zero d = some q) :
    applyMoves initial (es ++ [d]) = some q := by
  rw [applyMoves_append, he]
  show applyMoves e [d] = some q
  simp [applyMoves, hm]

/-- A list of states each of whose elements names the next one as its
parent in the closed map and is one legal move after it: the path read off
by following parent links. -/
def followsParents (C : List (Puzzle × (Puzzle × Int))) : List Puzzle → Prop
  | [] => True
  | [_] => True
  | a :: b :: rest =>
    (∃ g, mapGet C a = some (b, g)) ∧ (∃ d, b.move_zero d = some a) ∧
      followsParents C (b :: rest)

/-- Invariants of the open set against a closed map `C`: all heap records
carry h = 0 (zero heuristic); every live map entry has a heap record with
the same g; no heap record undercuts its state's live g; every heap record
belongs to a live or closed state; every live entry is the initial self-loop
entry or points at a closed parent one move and one g-unit away; live states
are never closed and always reachable. -/
structure OInv (initial : Puzzle) (C : List (Puzzle × (Puzzle × Int)))
    (os : OpenSet) : Prop where
  hzero : ∀ rec ∈ os.set, rec.h = 0
  hrec : ∀ s p g, mapGet os.map s = some (p, g) →
    ∃ rec ∈ os.set, rec.puzzle = s ∧ rec.g = g
  hmono : ∀ rec ∈ os.set, ∀ p g,
    mapGet os.map rec.puzzle = some (p, g) → g ≤ rec.g
  hcover : ∀ rec ∈ os.set,
    mapGet os.map rec.puzzle ≠ none ∨ mapGet C rec.puzzle ≠ none
  copen : ∀ s p g, mapGet os.map s = some (p, g) →
    (s = initial ∧ p = initial ∧ g = 0) ∨
    (∃ pp gp, mapGet C p = some (pp, gp) ∧ g = gp + 1 ∧
      ∃ d, p.move_zero d = some s)
  disj : ∀ s p g, mapGet os.map s = some (p, g) → mapGet C s = none
  reachO : ∀ s p g, mapGet os.map s = some (p, g) → Reachable initial s

/-- `OInv` is preserved by a push that lands in the heap (the fresh and
better cases), given that no cheaper record for the pushed state exists. -/
lemma OInv.push_new {initial : Puzzle} {C : List (Puzzle × (Puzzle × Int))}
    {os : OpenSet} {n : BinaryHeapNode} (ho : OInv initial C os)
    (hh : n.h = 0) (hnc : mapGet C n.puzzle = none)
    (hreach : Reachable initial n.puzzle)
    (hstruct : (n.puzzle = initial ∧ n.parent = initial ∧ n.g = 0) ∨
      (∃ pp gp, mapGet C n.parent = some (pp, gp) ∧ n.g = gp + 1 ∧
        ∃ d, n.parent.move_zero d = some n.puzzle))
    (hlow : ∀ rec ∈ os.set, rec.puzzle = n.puzzle → n.g ≤ rec.g)
    (hset : (os.push n).set = n :: os.set)
    (hmap2 : (os.push n).map = mapInsert os.map n.puzzle (n.parent, n.g)) :
    OInv initial C (os.push n) := by
  refine ⟨?_, ?_, ?_, ?_, ?_, ?_, ?_⟩
  · intro rec hrec
    rw [hset] at hrec
    rcases List.mem_cons.1 hrec with h | h
    · rw [h]
      exact hh
    · exact ho.hzero rec h
  · intro s p g h
    rw [hmap2] at h
    by_cases hs : s = n.puzzle
    · subst hs
      rw [mapGet_insert_self] at h
      have h2 : n.g = g := (Prod.ext_iff.1 (Option.some.inj h)).2
      exact ⟨n, by rw [hset]; exact List.mem_cons_self _ _, rfl, h2⟩
    · rw [mapGet_insert_ne _ _ _ _ hs] at h
      obtain ⟨rec, hm, hp, hg⟩ := ho.hrec s p g h
      exact ⟨rec, by rw [hset]; exact List.mem_cons_of_mem _ hm, hp, hg⟩
  · intro rec hrec p g h
    rw [hset] at hrec
    rw [hmap2] at h
    rcases List.mem_cons.1 hrec with hr | hr
    · rw [hr] at h ⊢
      rw [mapGet_insert_self] at h
      have h2 : n.g = g := (Prod.ext_iff.1 (Option.some.inj h)).2
      omega
    · by_cases hpz : rec.puzzle = n.puzzle
      · rw [hpz, mapGet_insert_self] at h
        have h2 : n.g = g := (Prod.ext_iff.1 (Option.some.inj h)).2
        have h3 := hlow rec hr hpz
        omega
      · rw [mapGet_insert_ne _ _ _ _ hpz] at h
        exact ho.hmono rec hr p g h
  · intro rec hrec
    rw [hset] at hrec
    rcases List.mem_cons.1 hrec with hr | hr
    · subst hr
      left
      rw [hmap2, mapGet_insert_self]
      exact fun hc => Option.noConfusion hc
    · by_cases hpz : rec.puzzle = n.puzzle
      · left
        rw [hmap2, hpz, mapGet_insert_self]
        exact fun hc => Option.noConfusion hc
      · rcases ho.hcover rec hr with hlive | hcl
        · left
          rw [hmap2, mapGet_insert_ne _ _ _ _ hpz]
          exact hlive
        · right
          exact hcl
  · intro s p g h
    rw [hmap2] at h
    by_cases hs : s = n.puzzle
    · subst hs
      rw [mapGet_insert_self] at h
      have hp : n.parent = p := (Prod.ext_iff.1 (Option.some.inj h)).1
      have hg : n.g = g := (Prod.ext_iff.1 (Option.some.inj h)).2
      subst hp
      subst hg
      exact hstruct
    · rw [mapGet_insert_ne _ _ _ _ hs] at h
      exact ho.copen s p g h
  · intro s p g h
    rw [hmap2] at h
    by_cases hs : s = n.puzzle
    · subst hs
      exact hnc
    · rw [mapGet_insert_ne _ _ _ _ hs] at h
      exact ho.disj s p g h
  · intro s p g h
    rw [hmap2] at h
    by_cases hs : s = n.puzzle
    · subst hs
      exact hreach
    · rw [mapGet_insert_ne _ _ _ _ hs] at h
      exact ho.reachO s p g h

/-- `OInv` is preserved by any push of a record for a non-closed state with
the parent/edge structure. -/
lemma OInv.push {initial : Puzzle} {C : List (Puzzle × (Puzzle × Int))}
    {os : OpenSet} {n : BinaryHeapNode} (ho : OInv initial C os)
    (hh : n.h = 0) (hnc : mapGet C n.puzzle = none)
    (hreach : Reachable initial n.puzzle)
    (hstruct : (n.puzzle = initial ∧ n.parent = initial ∧ n.g = 0) ∨
      (∃ pp gp, mapGet C n.parent = some (pp, gp) ∧ n.g = gp + 1 ∧
        ∃ d, n.parent.move_zero d = some n.puzzle)) :
    OInv initial C (os.push n) := by
  rcases hold : mapGet os.map n.puzzle with _ | v
  · obtain ⟨hset, hmap2⟩ := OpenSet.push_fresh hold
    refine OInv.push_new ho hh hnc hreach hstruct ?_ hset hmap2
    intro rec hmem hpz
    rcases ho.hcover rec hmem with hlive | hcl
    · rw [hpz, hold] at hlive
      exact absurd rfl hlive
    · rw [hpz, hnc] at hcl
      exact absurd rfl hcl
  · by_cases hg : n.g < v.2
    · obtain ⟨hset, hmap2⟩ := OpenSet.push_better hold hg
      refine OInv.push_new ho hh hnc hreach hstruct ?_ hset hmap2
      intro rec hmem hpz
      have h2 := ho.hmono rec hmem v.1 v.2 (by rw [hpz, hold])
      omega
    · rw [OpenSet.push_worse hold (le_of_not_lt hg)]
      exact ho

/-- `OInv` survives a pop, against the closed map extended with the popped
binding. -/
lemma OInv.popClose {initial : Puzzle} {C : List (Puzzle × (Puzzle × Int))}
    {os : OpenSet} {cur : BinaryHeapNode} {osRest : OpenSet}
    (ho : OInv initial C os) (hpop : os.pop = some (cur, osRest)) :
    OInv initial ((cur.puzzle, (cur.parent, cur.g)) :: C) osRest := by
  obtain ⟨hentry, hmaprem, _, hsub, hret⟩ := popLoop_spec _ hpop
  have hcurnc : mapGet C cur.puzzle = none := ho.disj _ _ _ hentry
  refine ⟨?_, ?_, ?_, ?_, ?_, ?_, ?_⟩
  · intro rec hrec
    exact ho.hzero rec (hsub rec hrec)
  · intro s p g h
    rw [hmaprem] at h
    have hs : s ≠ cur.puzzle := by
      intro hc
      subst hc
      rw [mapGet_remove_self] at h
      exact Option.noConfusion h
    rw [mapGet_remove_ne _ _ _ hs] at h
    obtain ⟨rec, hm, hpz, hg⟩ := ho.hrec s p g h
    refine ⟨rec, ?_, hpz, hg⟩
    refine hret rec hm ?_ ?_
    · rw [hpz, h]
      exact fun hc => Option.noConfusion hc
    · rw [hpz]
      exact hs
  · intro rec hrec p g h
    rw [hmaprem] at h
    have hs : rec.puzzle ≠ cur.puzzle := by
      intro hc
      rw [hc, mapGet_remove_self] at h
      exact Option.noConfusion h
    rw [mapGet_remove_ne _ _ _ hs] at h
    exact ho.hmono rec (hsub rec hrec) p g h
  · intro rec hrec
    by_cases hpz : rec.puzzle = cur.puzzle
    · right
      rw [hpz, mapGet_cons_self]
      exact fun hc => Option.noConfusion hc
    · rcases ho.hcover rec (hsub rec hrec) with hlive | hcl
      · left
        rw [hmaprem, mapGet_remove_ne _ _ _ hpz]
        exact hlive
      · right
        rw [mapGet_cons_ne (fun hc => hpz hc.symm)]
        exact hcl
  · intro s p g h
    rw [hmaprem] at h
    have hs : s ≠ cur.puzzle := by
      intro hc
      rw [hc, mapGet_remove_self] at h
      exact Option.noConfusion h
    rw [mapGet_remove_ne _ _ _ hs] at h
    rcases ho.copen s p g h with h1 | ⟨pp, gp, hc, hg2, d, hd⟩
    · exact Or.inl h1
    · have hp : p ≠ cur.puzzle := by
        intro hcc
        rw [hcc, hcurnc] at hc
        exact Option.noConfusion hc
      refine Or.inr ⟨pp, gp, ?_, hg2, d, hd⟩
      rw [mapGet_cons_ne (fun hcc => hp hcc.symm)]
      exact hc
  · intro s p g h
    rw [hmaprem] at h
    have hs : s ≠ cur.puzzle := by
      intro hc
      rw [hc, mapGet_remove_self] at h
      exact Option.noConfusion h
    rw [mapGet_remove_ne _ _ _ hs] at h
    rw [mapGet_cons_ne (fun hc => hs hc.symm)]
    exact ho.disj s p g h
  · intro s p g h
    rw [hmaprem] at h
    have hs : s ≠ cur.puzzle := by
      intro hc
      rw [hc, mapGet_remove_self] at h
      exact Option.noConfusion h
    rw [mapGet_remove_ne _ _ _ hs] at h
    exact ho.reachO s p g h

/-- Invariants of the closed map: distinct keys, reachable states, each
binding the initial self-loop or a parent binding one move and one g-unit
below, and every recorded g a true shortest distance. -/
structure CInv (initial : Puzzle) (C : List (Puzzle × (Puzzle × Int))) :
    Prop where
  nodup : (C.map Prod.fst).Nodup
  reachC : ∀ e ∈ C, Reachable initial e.1
  cclosed : ∀ s p g, mapGet C s = some (p, g) →
    (s = initial ∧ p = initial ∧ g = 0) ∨
    (∃ pp gp, mapGet C p = some (pp, gp) ∧ g = gp + 1 ∧
      ∃ d, p.move_zero d = some s)
  cdist : ∀ s p g, mapGet C s = some (p, g) → IsDist initial s g

/-- Closing a popped node whose g is a true distance preserves `CInv`. -/
lemma CInv.closeNode {initial : Puzzle} {C : List (Puzzle × (Puzzle × Int))}
    {os : OpenSet} {cur : BinaryHeapNode} {osRest : OpenSet}
    (hc : CInv initial C) (ho : OInv initial C os)
    (hpop : os.pop = some (cur, osRest))
    (hdist : IsDist initial cur.puzzle cur.g) :
    CInv initial ((cur.puzzle, (cur.parent, cur.g)) :: C) := by
  have hentry := OpenSet.pop_entry hpop
  have hcurnc : mapGet C cur.puzzle = none := ho.disj _ _ _ hentry
  refine ⟨?_, ?_, ?_, ?_⟩
  · rw [List.map_cons]
    exact List.nodup_cons.2 ⟨not_mem_of_mapGet_eq_none hcurnc, hc.nodup⟩
  · intro e he
    rcases List.mem_cons.1 he with h | h
    · rw [h]
      exact ho.reachO _ _ _ hentry
    · exact hc.reachC e h
  · intro s p g h
    by_cases hs : s = cur.puzzle
    · subst hs
      rw [mapGet_cons_self] at h
      have hpe : cur.parent = p := (Prod.ext_iff.1 (Option.some.inj h)).1
      have hge : cur.g = g := (Prod.ext_iff.1 (Option.some.inj h)).2
      subst hpe
      subst hge
      rcases ho.copen _ _ _ hentry with ⟨h1, h2, h3⟩ | ⟨pp, gp, hpc, hg2, d, hd⟩
      · exact Or.inl ⟨h1, h2, h3⟩
      · have hpcur : cur.parent ≠ cur.puzzle := by
          intro hcc
          rw [hcc, hcurnc] at hpc
          exact Option.noConfusion hpc
        refine Or.inr ⟨pp, gp, ?_, hg2, d, hd⟩
        rw [mapGet_cons_ne (fun hcc => hpcur hcc.symm)]
        exact hpc
    · rw [mapGet_cons_ne (fun hc2 => hs hc2.symm)] at h
      rcases hc.cclosed s p g h with h1 | ⟨pp, gp, hpc, hg2, d, hd⟩
      · exact Or.inl h1
      · have hp : p ≠ cur.puzzle := by
          intro hcc
          rw [hcc, hcurnc] at hpc
          exact Option.noConfusion hpc
        refine Or.inr ⟨pp, gp, ?_, hg2, d, hd⟩
        rw [mapGet_cons_ne (fun hcc => hp hcc.symm)]
        exact hpc
  · intro s p g h
    by_cases hs : s = cur.puzzle
    · subst hs
      rw [mapGet_cons_self] at h
      have hge : cur.g = g := (Prod.ext_iff.1 (Option.some.inj h)).2
      subst hge
      exact hdist
    · rw [mapGet_cons_ne (fun hc2 => hs hc2.symm)] at h
      exact hc.cdist s p g h

/-- The full loop invariant of the zero-heuristic search: the open and
closed invariants, the frontier property (every non-closed successor of a
closed state is live with g at most one above its parent), coverage of the
initial state, and the goal never being closed while the loop runs. -/
structure DInv (initial goal : Puzzle) (st : SearchState) : Prop where
  oinv : OInv initial st.closed st.oset
  cinv : CInv initial st.closed
  frontier : ∀ s p gs, mapGet st.closed s = some (p, gs) →
    ∀ d s2, s.move_zero d = some s2 → mapGet st.closed s2 = none →
    ∃ p2 g2, mapGet st.oset.map s2 = some (p2, g2) ∧ g2 ≤ gs + 1
  hinit : (∃ v, mapGet st.closed initial = some v) ∨
    mapGet st.oset.map initial = some (initial, 0)
  gnc : mapGet st.closed goal = none

/-- With all heap records carrying h = 0, a pop returns a live entry of
minimal g. -/
lemma pop_min {initial : Puzzle} {C : List (Puzzle × (Puzzle × Int))}
    {os : OpenSet} {cur : BinaryHeapNode} {osRest : OpenSet}
    (ho : OInv initial C os) (hpop : os.pop = some (cur, osRest)) :
    ∀ s p g, mapGet os.map s = some (p, g) → cur.g ≤ g := by
  obtain ⟨hentry, _, ⟨rec, hrecmem, hrecp, _, hrecmin⟩, _, _⟩ :=
    popLoop_spec _ hpop
  intro s p g h
  obtain ⟨rec2, hrec2mem, hrec2p, hrec2g⟩ := ho.hrec s p g h
  have he2 : mapGet os.map rec.puzzle = some (cur.parent, cur.g) := by
    rw [hrecp]
    exact hentry
  have h1 : cur.g ≤ rec.g := ho.hmono rec hrecmem cur.parent cur.g he2
  have h2 : rec.fval ≤ rec2.fval := by
    refine hrecmin rec2 hrec2mem ?_
    rw [hrec2p, h]
    exact fun hc => Option.noConfusion hc
  have hz1 : rec.h = 0 := ho.hzero rec hrecmem
  have hz2 : rec2.h = 0 := ho.hzero rec2 hrec2mem
  have h3 : rec.g + rec.h ≤ rec2.g + rec2.h := h2
  omega

/-- The heart of BFS optimality: a popped node's g is the true shortest
distance to its state. -/
lemma popped_isDist {initial goal : Puzzle} {st : SearchState}
    {cur : BinaryHeapNode} {osRest : OpenSet} (hd : DInv initial goal st)
    (hpop : st.oset.pop = some (cur, osRest)) :
    IsDist initial cur.puzzle cur.g := by
  have hentry := OpenSet.pop_entry hpop
  constructor
  · rcases hd.oinv.copen _ _ _ hentry with ⟨hs, _, hg⟩ | ⟨pp, gp, hpc, hg, d, hm⟩
    · refine ⟨[], ?_, ?_⟩
      · rw [hs]
        rfl
      · simp [hg]
    · obtain ⟨ds2, hds2, hlen2⟩ := (hd.cinv.cdist _ _ _ hpc).1
      refine ⟨ds2 ++ [d], applyMoves_snoc hds2 hm, ?_⟩
      simp only [List.length_append, List.length_singleton]
      push_cast
      omega
  · intro es hes
    have hnotc : mapGet st.closed cur.puzzle = none := hd.oinv.disj _ _ _ hentry
    have hmin := pop_min hd.oinv hpop
    have main : ∀ fs : List Direction, ∀ q : Puzzle,
        applyMoves initial fs = some q → mapGet st.closed q = none →
        cur.g ≤ (fs.length : Int) := by
      intro fs
      induction fs using List.reverseRecOn with
      | nil =>
        intro q hq hqc
        have hq2 : initial = q := Option.some.inj hq
        rcases hd.hinit with ⟨v, hv⟩ | hop
        · rw [hq2, hqc] at hv
          exact Option.noConfusion hv
        · have := hmin _ _ _ hop
          simpa using this
      | append_singleton fs d ih =>
        intro q hq hqc
        obtain ⟨e, he, hme⟩ := applyMoves_concat hq
        simp only [List.length_append, List.length_singleton]
        push_cast
        cases hc : mapGet st.closed e with
        | none =>
          have hb := ih e he hc
          omega
        | some v =>
          have hvbind : mapGet st.closed e = some (v.1, v.2) := by rw [hc]
          obtain ⟨p2, g2, hopen2, hle2⟩ :=
            hd.frontier e v.1 v.2 hvbind d q hme hqc
          have h1 := hmin _ _ _ hopen2
          have h2 := (hd.cinv.cdist e v.1 v.2 hvbind).2 fs he
          omega
    exact main es cur.puzzle hes hnotc

/-- The full invariant holds right after initialisation. -/
lemma dinv_init (initial goal : Puzzle) :
    DInv initial goal (initState initial) := by
  have hset : (initState initial).oset.set = [⟨initial, initial, 0, 0⟩] := rfl
  have hmap : (initState initial).oset.map = [(initial, (initial, 0))] := rfl
  have hget : ∀ s p g, mapGet (initState initial).oset.map s = some (p, g) →
      s = initial ∧ p = initial ∧ g = 0 := by
    intro s p g h
    rw [hmap] at h
    by_cases hs : s = initial
    · rw [hs, mapGet_cons_self] at h
      have hp : initial = p := (Prod.ext_iff.1 (Option.some.inj h)).1
      have hg : (0 : Int) = g := (Prod.ext_iff.1 (Option.some.inj h)).2
      exact ⟨hs, hp.symm, hg.symm⟩
    · rw [mapGet_cons_ne (fun hc : initial = s => hs hc.symm)] at h
      exact Option.noConfusion h
  refine ⟨⟨?_, ?_, ?_, ?_, ?_, ?_, ?_⟩, ⟨?_, ?_, ?_, ?_⟩, ?_, ?_, rfl⟩
  · intro rec hrec
    rw [hset] at hrec
    rcases List.mem_cons.1 hrec with hr | hr
    · rw [hr]
    · cases hr
  · intro s p g h
    obtain ⟨hs, hp, hg⟩ := hget s p g h
    exact ⟨⟨initial, initial, 0, 0⟩,
      by rw [hset]; exact List.mem_cons_self _ _, hs.symm, hg.symm⟩
  · intro rec hrec p g h
    obtain ⟨_, _, hg⟩ := hget _ _ _ h
    rw [hg]
    rw [hset] at hrec
    rcases List.mem_cons.1 hrec with hr | hr
    · rw [hr]
    · cases hr
  · intro rec hrec
    left
    rw [hset] at hrec
    rcases List.mem_cons.1 hrec with hr | hr
    · rw [hr]
      show mapGet (initState initial).oset.map initial ≠ none
      rw [hmap, mapGet_cons_self]
      exact fun hc => Option.noConfusion hc
    · cases hr
  · intro s p g h
    exact Or.inl (hget s p g h)
  · intro s p g h
    rfl
  · intro s p g h
    obtain ⟨hs, _, _⟩ := hget s p g h
    rw [hs]
    exact Reachable.refl _
  · exact List.nodup_nil
  · intro e he
    exact absurd he (List.not_mem_nil e)
  · intro s p g h
    exact Option.noConfusion h
  · intro s p g h
    exact Option.noConfusion h
  · intro s p gs h
    exact Option.noConfusion h
  · right
    rw [hmap]
    exact mapGet_cons_self _ _ _

/-- After closing a popped node, `current_g` reads back its g. -/
lemma currentGOf_close (st : SearchState) (cur : BinaryHeapNode)
    (osRest : OpenSet) : currentGOf (closeStep st cur osRest) cur = cur.g := by
  have h : mapGet (closeStep st cur osRest).closed cur.puzzle =
      some (cur.parent, cur.g) := mapGet_cons_self _ _ _
  unfold currentGOf
  rw [h]

/-- Folding `expandDir` can only lower a live entry's g. -/
lemma foldl_expandDir_entry_mono (goal : Puzzle) (hfn : Puzzle → Puzzle → Int)
    (cur : BinaryHeapNode) (cg : Int) :
    ∀ (ds : List Direction) (st : SearchState) {s p : Puzzle} {g : Int},
      mapGet st.oset.map s = some (p, g) →
      ∃ p2 g2, mapGet ((ds.foldl (expandDir goal hfn cur cg) st)).oset.map s =
        some (p2, g2) ∧ g2 ≤ g := by
  intro ds
  induction ds with
  | nil =>
    intro st s p g h
    exact ⟨p, g, h, le_refl g⟩
  | cons d ds ih =>
    intro st s p g h
    rw [List.foldl_cons]
    cases hm : cur.puzzle.move_zero d with
    | none =>
      rw [expandDir_none hm]
      exact ih st h
    | some next =>
      cases hc : mapGet st.closed next with
      | some v =>
        rw [expandDir_closed_skip hm hc]
        exact ih st h
      | none =>
        rw [expandDir_push hm hc]
        obtain ⟨p1, g1, h1, hle1⟩ := OpenSet.push_entry_mono
          (n := ⟨next, cur.puzzle, cg + 1, hfn next goal⟩) h
        obtain ⟨p2, g2, h2, hle2⟩ := ih
          ⟨st.oset.push ⟨next, cur.puzzle, cg + 1, hfn next goal⟩, st.closed,
            st.log ++ [(cur.puzzle, next, false)]⟩ h1
        exact ⟨p2, g2, h2, le_trans hle2 hle1⟩

/-- Folding `expandDir` keeps any live entry whose g does not exceed the
pushed cost cg + 1 byte-for-byte. -/
lemma foldl_expandDir_entry_keep (goal : Puzzle) (hfn : Puzzle → Puzzle → Int)
    (cur : BinaryHeapNode) (cg : Int) :
    ∀ (ds : List Direction) (st : SearchState) {s p : Puzzle} {g : Int},
      mapGet st.oset.map s = some (p, g) → g ≤ cg + 1 →
      mapGet ((ds.foldl (expandDir goal hfn cur cg) st)).oset.map s =
        some (p, g) := by
  intro ds
  induction ds with
  | nil =>
    intro st s p g h _
    exact h
  | cons d ds ih =>
    intro st s p g h hgle
    rw [List.foldl_cons]
    cases hm : cur.puzzle.move_zero d with
    | none =>
      rw [expandDir_none hm]
      exact ih st h hgle
    | some next =>
      cases hc : mapGet st.closed next with
      | some v =>
        rw [expandDir_closed_skip hm hc]
        exact ih st h hgle
      | none =>
        rw [expandDir_push hm hc]
        have h1 := OpenSet.push_preserves_entry
          (n := ⟨next, cur.puzzle, cg + 1, hfn next goal⟩) h (Or.inr hgle)
        exact ih ⟨st.oset.push ⟨next, cur.puzzle, cg + 1, hfn next goal⟩,
          st.closed, st.log ++ [(cur.puzzle, next, false)]⟩ h1 hgle

/-- Folding `expandDir` over any direction list preserves `OInv` when the
expanded node is closed at cost cg. -/
lemma oinv_expand_fold {initial : Puzzle} (goal : Puzzle)
    (cur : BinaryHeapNode) (cg : Int) :
    ∀ (ds : List Direction) (st : SearchState),
      OInv initial st.closed st.oset →
      (∃ pc, mapGet st.closed cur.puzzle = some (pc, cg)) →
      Reachable initial cur.puzzle →
      OInv initial st.closed
        ((ds.foldl (expandDir goal BfsHeuristic.estimate_h cur cg) st)).oset ∧
      ((ds.foldl (expandDir goal BfsHeuristic.estimate_h cur cg) st)).closed =
        st.closed := by
  intro ds
  induction ds with
  | nil =>
    intro st ho _ _
    exact ⟨ho, rfl⟩
  | cons d ds ih =>
    intro st ho hcl hreach
    rw [List.foldl_cons]
    cases hm : cur.puzzle.move_zero d with
    | none =>
      rw [expandDir_none hm]
      exact ih st ho hcl hreach
    | some next =>
      cases hc : mapGet st.closed next with
      | some v =>
        rw [expandDir_closed_skip hm hc]
        exact ih st ho hcl hreach
      | none =>
        rw [expandDir_push hm hc]
        have ho2 : OInv initial st.closed
            (st.oset.push ⟨next, cur.puzzle, cg + 1,
              BfsHeuristic.estimate_h next goal⟩) := by
          refine ho.push rfl hc (hreach.step hm) ?_
          obtain ⟨pc, hpc⟩ := hcl
          exact Or.inr ⟨pc, cg, hpc, rfl, d, hm⟩
        exact ih ⟨st.oset.push ⟨next, cur.puzzle, cg + 1,
            BfsHeuristic.estimate_h next goal⟩, st.closed,
          st.log ++ [(cur.puzzle, next, false)]⟩ ho2 hcl hreach

/-- Expansion gives every non-closed legal successor of the expanded node a
live entry bounded by current_g + 1. -/
lemma expand_frontier (goal : Puzzle) (cur : BinaryHeapNode)
    (st1 : SearchState) :
    ∀ d s2, cur.puzzle.move_zero d = some s2 →
      mapGet st1.closed s2 = none →
      ∃ p2 g2,
        mapGet (expand goal BfsHeuristic.estimate_h cur st1).oset.map s2 =
          some (p2, g2) ∧ g2 ≤ currentGOf st1 cur + 1 := by
  intro d s2 hm hnc
  have hdmem : d ∈ Direction.all := by cases d <;> decide
  obtain ⟨l1, l2, hsplit⟩ := List.append_of_mem hdmem
  show ∃ p2 g2, mapGet ((Direction.all.foldl
      (expandDir goal BfsHeuristic.estimate_h cur (currentGOf st1 cur))
      st1)).oset.map s2 = some (p2, g2) ∧ g2 ≤ currentGOf st1 cur + 1
  rw [hsplit, List.foldl_append, List.foldl_cons]
  have hAclosed : ((l1.foldl (expandDir goal BfsHeuristic.estimate_h cur
      (currentGOf st1 cur)) st1)).closed = st1.closed :=
    foldl_expandDir_closed goal BfsHeuristic.estimate_h cur
      (currentGOf st1 cur) l1 st1
  have hguard : mapGet ((l1.foldl (expandDir goal BfsHeuristic.estimate_h cur
      (currentGOf st1 cur)) st1)).closed s2 = none := by
    rw [hAclosed]
    exact hnc
  rw [expandDir_push hm hguard]
  obtain ⟨pA, gA, hA, hAle⟩ := OpenSet.push_covers
    (l1.foldl (expandDir goal BfsHeuristic.estimate_h cur
      (currentGOf st1 cur)) st1).oset
    ⟨s2, cur.puzzle, currentGOf st1 cur + 1, BfsHeuristic.estimate_h s2 goal⟩
  obtain ⟨pB, gB, hB, hBle⟩ := foldl_expandDir_entry_mono goal
    BfsHeuristic.estimate_h cur (currentGOf st1 cur) l2
    ⟨(l1.foldl (expandDir goal BfsHeuristic.estimate_h cur
        (currentGOf st1 cur)) st1).oset.push
      ⟨s2, cur.puzzle, currentGOf st1 cur + 1,
        BfsHeuristic.estimate_h s2 goal⟩,
      (l1.foldl (expandDir goal BfsHeuristic.estimate_h cur
        (currentGOf st1 cur)) st1).closed,
      (l1.foldl (expandDir goal BfsHeuristic.estimate_h cur
        (currentGOf st1 cur)) st1).log ++ [(cur.puzzle, s2, false)]⟩ hA
  exact ⟨pB, gB, hB, le_trans hBle hAle⟩

/-- The full invariant is preserved by a continuing iteration. -/
lemma dinv_next {initial goal : Puzzle} {st st2 : SearchState}
    (hd : DInv initial goal st)
    (h : solveStep goal BfsHeuristic.estimate_h st = .next st2) :
    DInv initial goal st2 := by
  cases hpop : st.oset.pop with
  | none =>
    rw [solveStep_pop_none hpop] at h
    exact StepResult.noConfusion h
  | some pr =>
    obtain ⟨cur, osRest⟩ := pr
    by_cases hgoal : cur.puzzle = goal
    · rw [solveStep_pop_goal hpop hgoal] at h
      exact StepResult.noConfusion h
    · rw [solveStep_pop_next hpop hgoal] at h
      have hst2 := StepResult.next.inj h
      subst hst2
      have hentry := OpenSet.pop_entry hpop
      have hdist : IsDist initial cur.puzzle cur.g := popped_isDist hd hpop
      have hcurnc : mapGet st.closed cur.puzzle = none :=
        hd.oinv.disj _ _ _ hentry
      have hreachcur : Reachable initial cur.puzzle :=
        hd.oinv.reachO _ _ _ hentry
      have hC1 : (closeStep st cur osRest).closed =
          (cur.puzzle, (cur.parent, cur.g)) :: st.closed := rfl
      have ho1 : OInv initial (closeStep st cur osRest).closed
          (closeStep st cur osRest).oset := by
        rw [hC1]
        exact hd.oinv.popClose hpop
      have hc1 : CInv initial (closeStep st cur osRest).closed := by
        rw [hC1]
        exact hd.cinv.closeNode hd.oinv hpop hdist
      have hcg := currentGOf_close st cur osRest
      have hbind : ∃ pc, mapGet (closeStep st cur osRest).closed cur.puzzle =
          some (pc, currentGOf (closeStep st cur osRest) cur) := by
        refine ⟨cur.parent, ?_⟩
        rw [hcg, hC1]
        exact mapGet_cons_self _ _ _
      have hex := oinv_expand_fold goal cur
        (currentGOf (closeStep st cur osRest) cur) Direction.all
        (closeStep st cur osRest) ho1 hbind hreachcur
      have hexC : (expand goal BfsHeuristic.estimate_h cur
          (closeStep st cur osRest)).closed =
          (closeStep st cur osRest).closed := hex.2
      have hexO : OInv initial (closeStep st cur osRest).closed
          (expand goal BfsHeuristic.estimate_h cur
            (closeStep st cur osRest)).oset := hex.1
      refine ⟨?_, ?_, ?_, ?_, ?_⟩
      · rw [hexC]
        exact hexO
      · rw [hexC]
        exact hc1
      · intro s p gs hsbind d2 s2 hm2 hnc2
        rw [hexC] at hsbind hnc2
        by_cases hscur : s = cur.puzzle
        · subst hscur
          rw [hC1, mapGet_cons_self] at hsbind
          have hgs : cur.g = gs := (Prod.ext_iff.1 (Option.some.inj hsbind)).2
          obtain ⟨p2, g2, hopen2, hle2⟩ := expand_frontier goal cur
            (closeStep st cur osRest) d2 s2 hm2 hnc2
          refine ⟨p2, g2, hopen2, ?_⟩
          rw [hcg] at hle2
          omega
        · rw [hC1, mapGet_cons_ne (fun hc => hscur hc.symm)] at hsbind
          have hs2cur : s2 ≠ cur.puzzle := by
            intro hcc
            rw [hC1, hcc, mapGet_cons_self] at hnc2
            exact Option.noConfusion hnc2
          have hnc2old : mapGet st.closed s2 = none := by
            rw [hC1, mapGet_cons_ne (fun hc => hs2cur hc.symm)] at hnc2
            exact hnc2
          obtain ⟨p2, g2, hopen2, hle2⟩ :=
            hd.frontier s p gs hsbind d2 s2 hm2 hnc2old
          have hopen3 : mapGet (closeStep st cur osRest).oset.map s2 =
              some (p2, g2) :=
            OpenSet.pop_preserves_entry hopen2 hpop (Ne.symm hs2cur)
          obtain ⟨p3, g3, hopen4, hle3⟩ := foldl_expandDir_entry_mono goal
            BfsHeuristic.estimate_h cur
            (currentGOf (closeStep st cur osRest) cur) Direction.all
            (closeStep st cur osRest) hopen3
          exact ⟨p3, g3, hopen4, by omega⟩
      · rcases hd.hinit with ⟨v, hv⟩ | hop
        · left
          by_cases hic : cur.puzzle = initial
          · refine ⟨(cur.parent, cur.g), ?_⟩
            rw [hexC, hC1, ← hic]
            exact mapGet_cons_self _ _ _
          · refine ⟨v, ?_⟩
            rw [hexC, hC1, mapGet_cons_ne hic]
            exact hv
        · by_cases hic : cur.puzzle = initial
          · left
            refine ⟨(cur.parent, cur.g), ?_⟩
            rw [hexC, hC1, ← hic]
            exact mapGet_cons_self _ _ _
          · right
            have hop1 : mapGet (closeStep st cur osRest).oset.map initial =
                some (initial, 0) :=
              OpenSet.pop_preserves_entry hop hpop hic
            have hge0 : (0 : Int) ≤
                currentGOf (closeStep st cur osRest) cur + 1 := by
              rw [hcg]
              have := hdist.nonneg
              omega
            exact foldl_expandDir_entry_keep goal BfsHeuristic.estimate_h cur
              (currentGOf (closeStep st cur osRest) cur) Direction.all
              (closeStep st cur osRest) hop1 hge0
      · rw [hexC, hC1, mapGet_cons_ne hgoal]
        exact hd.gnc

/-- Inversion: an `Exhausted` step leaves the state unchanged and means the
pop failed. -/
lemma solveStep_exhausted_inv {goal : Puzzle} {hfn : Puzzle → Puzzle → Int}
    {st stf : SearchState}
    (h : solveStep goal hfn st = .done .exhausted stf) :
    stf = st ∧ st.oset.pop = none := by
  cases hpop : st.oset.pop with
  | none =>
    rw [solveStep_pop_none hpop] at h
    obtain ⟨_, h2⟩ := StepResult.done.inj h
    exact ⟨h2.symm, rfl⟩
  | some pr =>
    obtain ⟨cur, osRest⟩ := pr
    by_cases hgoal : cur.puzzle = goal
    · rw [solveStep_pop_goal hpop hgoal] at h
      obtain ⟨h1, _⟩ := StepResult.done.inj h
      exact SolveOutcome.noConfusion h1
    · rw [solveStep_pop_next hpop hgoal] at h
      exact StepResult.noConfusion h

/-- Inversion: a `GoalFound` step comes from popping the goal itself and
closing it. -/
lemma solveStep_goalFound_inv {goal : Puzzle} {hfn : Puzzle → Puzzle → Int}
    {st stf : SearchState}
    (h : solveStep goal hfn st = .done .goalFound stf) :
    ∃ cur osRest, st.oset.pop = some (cur, osRest) ∧ cur.puzzle = goal ∧
      stf = closeStep st cur osRest := by
  cases hpop : st.oset.pop with
  | none =>
    rw [solveStep_pop_none hpop] at h
    obtain ⟨h1, _⟩ := StepResult.done.inj h
    exact SolveOutcome.noConfusion h1
  | some pr =>
    obtain ⟨cur, osRest⟩ := pr
    by_cases hgoal : cur.puzzle = goal
    · rw [solveStep_pop_goal hpop hgoal] at h
      obtain ⟨_, h2⟩ := StepResult.done.inj h
      exact ⟨cur, osRest, rfl, hgoal, h2.symm⟩
    · rw [solveStep_pop_next hpop hgoal] at h
      exact StepResult.noConfusion h

/-- While the goal is reachable and not closed, the open set cannot be
exhausted. -/
lemma dinv_no_exhaust {initial goal : Puzzle} {st : SearchState}
    (hd : DInv initial goal st) (hreach : Reachable initial goal)
    (hpop : st.oset.pop = none) : False := by
  obtain ⟨es, hes⟩ := hreach
  have main : ∀ fs : List Direction, ∀ q : Puzzle,
      applyMoves initial fs = some q → mapGet st.closed q = none →
      ∃ s p g, mapGet st.oset.map s = some (p, g) := by
    intro fs
    induction fs using List.reverseRecOn with
    | nil =>
      intro q hq hqc
      have hq2 : initial = q := Option.some.inj hq
      rcases hd.hinit with ⟨v, hv⟩ | hop
      · rw [hq2, hqc] at hv
        exact Option.noConfusion hv
      · exact ⟨initial, initial, 0, hop⟩
    | append_singleton fs d ih =>
      intro q hq hqc
      obtain ⟨e, he, hme⟩ := applyMoves_concat hq
      cases hc : mapGet st.closed e with
      | none => exact ih e he hc
      | some v =>
        have hvbind : mapGet st.closed e = some (v.1, v.2) := by rw [hc]
        obtain ⟨p2, g2, hopen2, _⟩ :=
          hd.frontier e v.1 v.2 hvbind d q hme hqc
        exact ⟨q, p2, g2, hopen2⟩
  obtain ⟨s, p, g, hopen⟩ := main es goal hes hd.gnc
  obtain ⟨rec, hrecmem, hrecp, _⟩ := hd.oinv.hrec s p g hopen
  have hstale := popLoop_none _ (le_refl _) hpop rec hrecmem
  rw [hrecp, hopen] at hstale
  exact Option.noConfusion hstale

/-- From any closed binding, following parent links yields a chain of
states from the bound state back to the initial state, of length g + 1,
each step one legal move. -/
lemma closed_chain {initial : Puzzle} {C : List (Puzzle × (Puzzle × Int))}
    (hc : CInv initial C) :
    ∀ (n : Nat) (s p : Puzzle) (g : Int), g.toNat ≤ n →
      mapGet C s = some (p, g) →
      ∃ chain : List Puzzle, chain.head? = some s ∧
        chain.getLast? = some initial ∧ (chain.length : Int) = g + 1 ∧
        followsParents C chain := by
  intro n
  induction n with
  | zero =>
    intro s p g hle h
    have hg0 : 0 ≤ g := (hc.cdist s p g h).nonneg
    have hgz : g = 0 := by omega
    rcases hc.cclosed s p g h with ⟨hs, _, _⟩ | ⟨pp, gp, hpc, hg2, _⟩
    · refine ⟨[s], rfl, ?_, ?_, trivial⟩
      · simp [hs]
      · simp [hgz]
    · have hgp0 : 0 ≤ gp := (hc.cdist _ _ _ hpc).nonneg
      exfalso
      omega
  | succ n ih =>
    intro s p g hle h
    rcases hc.cclosed s p g h with ⟨hs, _, hgz⟩ | ⟨pp, gp, hpc, hg2, d, hd⟩
    · refine ⟨[s], rfl, ?_, ?_, trivial⟩
      · simp [hs]
      · simp [hgz]
    · have hgp0 : 0 ≤ gp := (hc.cdist _ _ _ hpc).nonneg
      have hgpnat : gp.toNat ≤ n := by omega
      obtain ⟨chain2, hhead2, hlast2, hlen2, hfp2⟩ := ih p pp gp hgpnat hpc
      cases chain2 with
      | nil => exact Option.noConfusion hhead2
      | cons c0 rest =>
        have hc0 : c0 = p := Option.some.inj hhead2
        have hpc0 : mapGet C s = some (c0, g) := by
          rw [hc0]
          exact h
        refine ⟨s :: c0 :: rest, rfl, ?_, ?_, ?_⟩
        · rw [List.getLast?_cons_cons]
          exact hlast2
        · have hl2 : ((c0 :: rest).length : Int) = gp + 1 := hlen2
          simp only [List.length_cons] at hl2 ⊢
          push_cast at hl2 ⊢
          omega
        · exact ⟨⟨g, hpc0⟩, ⟨d, by rw [hc0]; exact hd⟩, hfp2⟩

/-- When the goal is reachable, any finished run found it, recorded its true
shortest distance, and its closed map satisfies the structural invariants. -/
lemma solveLoop_c1 {initial goal : Puzzle} (hreach : Reachable initial goal) :
    ∀ (fuel : Nat) (st : SearchState), DInv initial goal st →
      ∀ {oc : SolveOutcome} {stf : SearchState},
      solveLoop goal BfsHeuristic.estimate_h fuel st = some (oc, stf) →
      oc = .goalFound ∧ ∃ p g, mapGet stf.closed goal = some (p, g) ∧
        IsDist initial goal g ∧ CInv initial stf.closed := by
  intro fuel
  induction fuel with
  | zero =>
    intro st hd oc stf h
    exact Option.noConfusion h
  | succ n ih =>
    intro st hd oc stf h
    cases hs : solveStep goal BfsHeuristic.estimate_h st with
    | done oc2 stf2 =>
      rw [solveLoop_succ_done hs] at h
      have h1 : oc2 = oc := (Prod.ext_iff.1 (Option.some.inj h)).1
      have h2 : stf2 = stf := (Prod.ext_iff.1 (Option.some.inj h)).2
      rw [← h1, ← h2]
      cases oc2 with
      | exhausted =>
        obtain ⟨_, hpop⟩ := solveStep_exhausted_inv hs
        exact (dinv_no_exhaust hd hreach hpop).elim
      | goalFound =>
        obtain ⟨cur, osRest, hpop, hcg, hstf2⟩ := solveStep_goalFound_inv hs
        have hdist := popped_isDist hd hpop
        have hcinv : CInv initial
            ((cur.puzzle, (cur.parent, cur.g)) :: st.closed) :=
          hd.cinv.closeNode hd.oinv hpop hdist
        refine ⟨rfl, cur.parent, cur.g, ?_, ?_, ?_⟩
        · rw [hstf2]
          show mapGet ((cur.puzzle, (cur.parent, cur.g)) :: st.closed) goal =
            some (cur.parent, cur.g)
          rw [← hcg]
          exact mapGet_cons_self _ _ _
        · rw [← hcg]
          exact hdist
        · rw [hstf2]
          show CInv initial ((cur.puzzle, (cur.parent, cur.g)) :: st.closed)
          exact hcinv
    | next st3 =>
      rw [solveLoop_succ_next hs] at h
      exact ih st3 (dinv_next hd hs) h

/-- C1: for a valid solvable pair, the zero-heuristic (BFS) search
terminates with `GoalFound`, the goal is recorded in the closed map, its
recorded g equals the length of a minimum-length move sequence from the
initial state, and following parent links from the goal yields a chain of
one-move steps of exactly that length ending at the initial state. -/
theorem claim_C1 (initial goal : Puzzle) (_hvi : initial.Valid)
    (_hvg : goal.Valid) (hreach : Reachable initial goal) :
    ∃ stf p g,
      solveFromInitial initial goal BfsHeuristic.estimate_h
        (searchFuel initial) = some (.goalFound, stf) ∧
      mapGet stf.closed goal = some (p, g) ∧
      (∃ ds, applyMoves initial ds = some goal ∧ (ds.length : Int) = g ∧
        ∀ es, applyMoves initial es = some goal → g ≤ (es.length : Int)) ∧
      ∃ chain : List Puzzle, chain.head? = some goal ∧
        chain.getLast? = some initial ∧ (chain.length : Int) = g + 1 ∧
        followsParents stf.closed chain := by
  cases hres : solveFromInitial initial goal BfsHeuristic.estimate_h
      (searchFuel initial) with
  | none =>
    exfalso
    rw [solveFromInitial_def] at hres
    have hb := solveLoop_none_bound (searchFuel initial) (initState initial)
      (invT_init initial) hres
    have hz : (initState initial).closed.length = 0 := rfl
    rw [hz] at hb
    unfold searchFuel at hb
    omega
  | some res =>
    obtain ⟨oc, stf⟩ := res
    rw [solveFromInitial_def] at hres
    obtain ⟨hoc, p, g, hbind, hdist, hcinv⟩ := solveLoop_c1 hreach
      (searchFuel initial) (initState initial) (dinv_init initial goal) hres
    subst hoc
    obtain ⟨chain, hchain⟩ :=
      closed_chain hcinv g.toNat goal p g (le_refl _) hbind
    obtain ⟨⟨ds, hds, hdlen⟩, hlow⟩ := hdist
    exact ⟨stf, p, g, rfl, hbind, ⟨ds, hds, hdlen, hlow⟩, chain, hchain⟩

/-- The solved board reaches `movedBoard` in one down-move. -/
lemma solved_moved_reach : Reachable solvedBoard movedBoard := by
  refine ⟨[Direction.down], ?_⟩
  have hmv : solvedBoard.move_zero Direction.down = some movedBoard :=
    option_eq_of_flatten_eq (by decide)
  simp [applyMoves, hmv]

/-- Concrete instantiation of `claim_C1` at the solved board and its
one-move-down neighbour, which is reachable, both boards valid. -/
theorem claim_C1_witness :
    solvedBoard.Valid ∧ movedBoard.Valid ∧
    Reachable solvedBoard movedBoard ∧
    ∃ stf p g,
      solveFromInitial solvedBoard movedBoard BfsHeuristic.estimate_h
        (searchFuel solvedBoard) = some (.goalFound, stf) ∧
      mapGet stf.closed movedBoard = some (p, g) ∧
      (∃ ds, applyMoves solvedBoard ds = some movedBoard ∧
        (ds.length : Int) = g ∧
        ∀ es, applyMoves solvedBoard es = some movedBoard →
          g ≤ (es.length : Int)) ∧
      ∃ chain : List Puzzle, chain.head? = some movedBoard ∧
        chain.getLast? = some solvedBoard ∧ (chain.length : Int) = g + 1 ∧
        followsParents stf.closed chain :=
  ⟨by decide, by decide, solved_moved_reach,
    claim_C1 solvedBoard movedBoard (by decide) (by decide)
      solved_moved_reach⟩

/-! ### Claim C9: the tree layout (`build_width_phase1/2` in `src/draw_tree.rs`)

`i32` arithmetic is embedded as `Int`; Rust's `/` truncates toward zero,
which is `Int.tdiv`.  The recursion over the node tree is embedded with a
fuel argument bounding the depth (the Rust recursion terminates because the
tree is finite). -/

/-- Embeds `PuzzleSizer`. -/
structure Sizer where
  scale : Int

/-- Embeds `PuzzleSizer::puzzle_cell`: `2 * scale - 1`. -/
def Sizer.puzzle_cell (sz : Sizer) : Int := 2 * sz.scale - 1

/-- Embeds `PuzzleSizer::puzzle_center_offset`: `puzzle_cell * 3 / 2`. -/
def Sizer.puzzle_center_offset (sz : Sizer) : Int :=
  Int.tdiv (sz.puzzle_cell * 3) 2

/-- The shape of a draw tree: only the children structure matters to the
layout. -/
inductive DTree where
  | mk (children : List DTree)

def DTree.children : DTree → List DTree
  | .mk cs => cs

/-- A tree annotated with the phase-1 extents (`min_x`, `max_x`). -/
inductive LTree where
  | mk (min_x max_x : Int) (children : List LTree)

def LTree.min_x : LTree → Int
  | .mk a _ _ => a

def LTree.max_x : LTree → Int
  | .mk _ b _ => b

def LTree.children : LTree → List LTree
  | .mk _ _ cs => cs

/-- A tree annotated with the final phase-2 placement. -/
inductive PTree where
  | mk (center_x min_x max_x : Int) (children : List PTree)

def PTree.center_x : PTree → Int
  | .mk c _ _ _ => c

def PTree.min_x : PTree → Int
  | .mk _ a _ _ => a

def PTree.max_x : PTree → Int
  | .mk _ _ b _ => b

def PTree.children : PTree → List PTree
  | .mk _ _ _ cs => cs

/-- The fuel bounds the recursion depth of the tree. -/
def okFuel : Nat → DTree → Bool
  | 0, _ => false
  | n + 1, .mk cs => cs.all (okFuel n)

/-- Embeds `build_width_phase1`: leaves take the extent `±puzzle_center_offset`;
an inner node sums its children's extents plus one, adds `puzzle_cell` between
adjacent children, and centres the resulting width around zero with truncating
division. -/
def phase1 (sz : Sizer) : Nat → DTree → LTree
  | 0, _ => .mk 0 0 []
  | n + 1, .mk cs =>
    if cs.isEmpty then
      .mk (-sz.puzzle_center_offset) sz.puzzle_center_offset []
    else
      let lcs := cs.map (phase1 sz n)
      let width := ((cs.length : Int) - 1) * sz.puzzle_cell +
        (lcs.map (fun l => l.max_x - l.min_x + 1)).sum
      .mk (Int.tdiv (-(width - 1)) 2) (Int.tdiv (width - 1) 2) lcs

/-- Embeds the child-placement loop of `build_width_phase2`: a cursor starts
at the parent's final `min_x`; each child's centre is the cursor plus half its
phase-1 extent, its extents are recentred around that centre, and the cursor
advances past its new `max_x` by `puzzle_cell + 1`. -/
def placeAux (sz : Sizer) (f : LTree → Int → Int → Int → PTree) :
    List LTree → Int → List PTree
  | [], _ => []
  | l :: rest, left =>
    f l (left + Int.tdiv (l.max_x - l.min_x) 2)
      (left + Int.tdiv (l.max_x - l.min_x) 2 -
        Int.tdiv (l.max_x - l.min_x) 2)
      (left + Int.tdiv (l.max_x - l.min_x) 2 +
        Int.tdiv (l.max_x - l.min_x) 2) ::
      placeAux sz f rest
        (left + Int.tdiv (l.max_x - l.min_x) 2 +
          Int.tdiv (l.max_x - l.min_x) 2 + sz.puzzle_cell + 1)

/-- Embeds `build_width_phase2` for a node whose final centre and extents
have already been assigned (the root keeps centre 0 and its phase-1 extents). -/
def phase2 (sz : Sizer) : Nat → LTree → Int → Int → Int → PTree
  | 0, _, c, mn, mx => .mk c mn mx []
  | n + 1, l, c, mn, mx =>
    .mk c mn mx (placeAux sz (phase2 sz n) l.children mn)

/-- Embeds `build_coord`: phase 1 then phase 2 from the root, whose
`center_x` stays 0 and whose extents are the phase-1 ones. -/
def build_coord (sz : Sizer) (fuel : Nat) (t : DTree) : PTree :=
  let l := phase1 sz fuel t
  phase2 sz fuel l 0 l.min_x l.max_x

/-- The concrete tree refuting the original midpoint claim: a root with an
inner child (two grandchildren) and a leaf child. -/
def cexTree : DTree := .mk [.mk [.mk [], .mk []], .mk []]

/-- Scale 2: `puzzle_cell = 3`, `puzzle_center_offset = 4`. -/
def cexSizer : Sizer := ⟨2⟩

/-- C9 (counterexample): at scale 2 on `cexTree`, the root's `center_x` is 0
but its children's final centres are -6 and 12, whose midpoint is 3: a
parent's centre is in general not the midpoint of its children's centres. -/
theorem claim_C9_counterexample :
    (build_coord cexSizer 3 cexTree).center_x = 0 ∧
    ((build_coord cexSizer 3 cexTree).children.head?).map PTree.center_x =
      some (-6) ∧
    ((build_coord cexSizer 3 cexTree).children.getLast?).map PTree.center_x =
      some 12 ∧
    Int.tdiv (-6 + 12) 2 = 3 ∧ (0 : Int) ≠ 3 := by
  decide

lemma tdiv_two_mul (k : Int) : Int.tdiv (2 * k) 2 = k :=
  Int.mul_tdiv_cancel_left k (by decide)

/-- The horizontal span a child claims in its parent: its (even) extent plus
the `puzzle_cell + 1` advance of the cursor. -/
def spanSum (cell : Int) (ls : List LTree) : Int :=
  (ls.map (fun l => 2 * l.max_x + cell + 1)).sum

lemma spanSum_nil (cell : Int) : spanSum cell [] = 0 := rfl

lemma spanSum_cons (cell : Int) (l : LTree) (ls : List LTree) :
    spanSum cell (l :: ls) =
      (2 * l.max_x + cell + 1) + spanSum cell ls := by
  simp [spanSum]

/-- What phase 1 guarantees of its output, by recursion depth: extents are
symmetric around zero and nonnegative, and an inner node's extent is the sum
of its children's spans minus one cursor advance. -/
def LShape (sz : Sizer) : Nat → LTree → Prop
  | 0, _ => False
  | n + 1, l =>
    l.min_x = -l.max_x ∧ 0 ≤ l.max_x ∧
    (l.children ≠ [] →
      2 * l.max_x = spanSum sz.puzzle_cell l.children -
        (sz.puzzle_cell + 1)) ∧
    ∀ c ∈ l.children, LShape sz n c

lemma LShape.minx {sz : Sizer} {n : Nat} {l : LTree} (h : LShape sz n l) :
    l.min_x = -l.max_x := by
  cases n with
  | zero => exact h.elim
  | succ n => exact h.1

lemma LShape.maxNonneg {sz : Sizer} {n : Nat} {l : LTree} (h : LShape sz n l) :
    0 ≤ l.max_x := by
  cases n with
  | zero => exact h.elim
  | succ n => exact h.2.1

lemma sum_ext_ge : ∀ ls : List LTree,
    (∀ l ∈ ls, l.min_x = -l.max_x ∧ 0 ≤ l.max_x) →
    (ls.length : Int) ≤ (ls.map (fun l => l.max_x - l.min_x + 1)).sum := by
  intro ls
  induction ls with
  | nil =>
    intro _
    simp
  | cons l ls ih =>
    intro h
    have h0 := h l (List.mem_cons_self _ _)
    have hrest := ih (fun x hx => h x (List.mem_cons_of_mem _ hx))
    simp only [List.map_cons, List.sum_cons, List.length_cons]
    push_cast
    omega

lemma sum_ext_eq (cell : Int) : ∀ ls : List LTree,
    (∀ l ∈ ls, l.min_x = -l.max_x) →
    (ls.map (fun l => l.max_x - l.min_x + 1)).sum =
      spanSum cell ls - (ls.length : Int) * cell := by
  intro ls
  induction ls with
  | nil =>
    intro _
    simp [spanSum]
  | cons l ls ih =>
    intro h
    have h0 := h l (List.mem_cons_self _ _)
    have hrest := ih (fun x hx => h x (List.mem_cons_of_mem _ hx))
    simp only [List.map_cons, List.sum_cons, spanSum_cons, List.length_cons]
    push_cast
    rw [add_mul, one_mul]
    omega

lemma spanSum_even (sz : Sizer) : ∀ ls : List LTree,
    ∃ k, spanSum sz.puzzle_cell ls = 2 * k := by
  intro ls
  induction ls with
  | nil => exact ⟨0, rfl⟩
  | cons l ls ih =>
    obtain ⟨k, hk⟩ := ih
    refine ⟨l.max_x + sz.scale + k, ?_⟩
    rw [spanSum_cons, hk]
    unfold Sizer.puzzle_cell
    ring

lemma phase1_succ (sz : Sizer) (n : Nat) (cs : List DTree) :
    phase1 sz (n + 1) (.mk cs) =
      if cs.isEmpty then
        .mk (-sz.puzzle_center_offset) sz.puzzle_center_offset []
      else
        .mk (Int.tdiv (-(((cs.length : Int) - 1) * sz.puzzle_cell +
            ((cs.map (phase1 sz n)).map
              (fun l => l.max_x - l.min_x + 1)).sum - 1)) 2)
          (Int.tdiv (((cs.length : Int) - 1) * sz.puzzle_cell +
            ((cs.map (phase1 sz n)).map
              (fun l => l.max_x - l.min_x + 1)).sum - 1) 2)
          (cs.map (phase1 sz n)) := rfl

/-- Phase 1 produces shaped trees when the fuel covers the tree depth. -/
lemma phase1_shape (sz : Sizer) (hsc : 1 ≤ sz.scale) :
    ∀ (n : Nat) (t : DTree), okFuel n t = true →
      LShape sz n (phase1 sz n t) := by
  have hcell : 1 ≤ sz.puzzle_cell := by
    unfold Sizer.puzzle_cell
    omega
  intro n
  induction n with
  | zero =>
    intro t h
    exact absurd h (by simp [okFuel])
  | succ n ih =>
    intro t h
    obtain ⟨cs⟩ := t
    have hall : ∀ c ∈ cs, okFuel n c = true := by
      have h2 : cs.all (okFuel n) = true := h
      exact fun c hc => List.all_eq_true.1 h2 c hc
    by_cases hcs : cs.isEmpty
    · rw [phase1_succ, if_pos hcs]
      refine ⟨rfl, ?_, ?_, ?_⟩
      · show 0 ≤ sz.puzzle_center_offset
        unfold Sizer.puzzle_center_offset
        exact Int.tdiv_nonneg (by omega) (by omega)
      · intro hne
        exact absurd rfl hne
      · intro c hc
        exact absurd hc (List.not_mem_nil c)
    · rw [phase1_succ, if_neg hcs]
      have hshapes : ∀ l ∈ cs.map (phase1 sz n),
          l.min_x = -l.max_x ∧ 0 ≤ l.max_x := by
        intro l hl
        obtain ⟨c, hc, hrfl⟩ := List.mem_map.1 hl
        have hs := ih c (hall c hc)
        rw [← hrfl]
        exact ⟨hs.minx, hs.maxNonneg⟩
      set W := ((cs.length : Int) - 1) * sz.puzzle_cell +
        ((cs.map (phase1 sz n)).map
          (fun l => l.max_x - l.min_x + 1)).sum with hW
      have hmaplen : ((cs.map (phase1 sz n)).length : Int) =
          (cs.length : Int) := by
        rw [List.length_map]
      have hWpos : 1 ≤ W := by
        have hge := sum_ext_ge (cs.map (phase1 sz n)) hshapes
        rw [hmaplen] at hge
        have hlen : cs ≠ [] := by
          intro hc
          rw [hc] at hcs
          exact hcs rfl
        have hlen1 : 1 ≤ (cs.length : Int) := by
          have := List.length_pos.2 hlen
          omega
        have hprod : 0 ≤ ((cs.length : Int) - 1) * sz.puzzle_cell :=
          mul_nonneg (by omega) (by omega)
        rw [hW]
        omega
      have hW1 : W - 1 = spanSum sz.puzzle_cell (cs.map (phase1 sz n)) -
          (sz.puzzle_cell + 1) := by
        have hsum := sum_ext_eq sz.puzzle_cell (cs.map (phase1 sz n))
          (fun l hl => (hshapes l hl).1)
        rw [hmaplen] at hsum
        rw [hW, hsum, sub_mul, one_mul]
        ring
      obtain ⟨k2, hk2⟩ := spanSum_even sz (cs.map (phase1 sz n))
      have heven : W - 1 = 2 * (k2 - sz.scale) := by
        rw [hW1, hk2]
        unfold Sizer.puzzle_cell
        ring
      have hmax2 : 2 * Int.tdiv (W - 1) 2 = W - 1 := by
        rw [heven, tdiv_two_mul]
      refine ⟨?_, ?_, ?_, ?_⟩
      · show Int.tdiv (-(W - 1)) 2 = -Int.tdiv (W - 1) 2
        exact Int.neg_tdiv _ _
      · show 0 ≤ Int.tdiv (W - 1) 2
        omega
      · intro _
        show 2 * Int.tdiv (W - 1) 2 =
          spanSum sz.puzzle_cell (cs.map (phase1 sz n)) -
            (sz.puzzle_cell + 1)
        omega
      · intro c hc
        obtain ⟨c0, hc0, hrfl⟩ := List.mem_map.1 hc
        rw [← hrfl]
        exact ih c0 (hall c0 hc0)

lemma phase2_center (sz : Sizer) (n : Nat) (l : LTree) (c mn mx : Int) :
    (phase2 sz n l c mn mx).center_x = c := by
  cases n <;> rfl

lemma phase2_min (sz : Sizer) (n : Nat) (l : LTree) (c mn mx : Int) :
    (phase2 sz n l c mn mx).min_x = mn := by
  cases n <;> rfl

lemma phase2_max (sz : Sizer) (n : Nat) (l : LTree) (c mn mx : Int) :
    (phase2 sz n l c mn mx).max_x = mx := by
  cases n <;> rfl

lemma placeAux_nil (sz : Sizer) (f : LTree → Int → Int → Int → PTree)
    (left : Int) : placeAux sz f [] left = [] := rfl

lemma placeAux_cons (sz : Sizer) (f : LTree → Int → Int → Int → PTree)
    (l : LTree) (rest : List LTree) (left : Int) :
    placeAux sz f (l :: rest) left =
      f l (left + Int.tdiv (l.max_x - l.min_x) 2)
        (left + Int.tdiv (l.max_x - l.min_x) 2 -
          Int.tdiv (l.max_x - l.min_x) 2)
        (left + Int.tdiv (l.max_x - l.min_x) 2 +
          Int.tdiv (l.max_x - l.min_x) 2) ::
      placeAux sz f rest
        (left + Int.tdiv (l.max_x - l.min_x) 2 +
          Int.tdiv (l.max_x - l.min_x) 2 + sz.puzzle_cell + 1) := rfl

/-- Adjacent siblings in the final layout: each extent starts exactly
`puzzle_cell + 1` past the previous one, hence the extents are disjoint. -/
def adjOk (cell : Int) : List PTree → Prop
  | [] => True
  | [_] => True
  | a :: b :: rest =>
    (b.min_x = a.max_x + cell + 1 ∧ a.max_x < b.min_x) ∧
      adjOk cell (b :: rest)

lemma adjOk_cons {cell : Int} {p0 : PTree} {ps : List PTree}
    (hadj : adjOk cell ps)
    (hhd : ∀ p1, ps.head? = some p1 →
      p1.min_x = p0.max_x + cell + 1 ∧ p0.max_x < p1.min_x) :
    adjOk cell (p0 :: ps) := by
  cases ps with
  | nil => trivial
  | cons p1 ps2 => exact ⟨hhd p1 rfl, hadj⟩

/-- The amended layout properties, by depth: children exactly fill their
parent's extent (so the parent's centre is the midpoint of the first child's
final `min_x` and the last child's final `max_x`), and adjacent siblings are
separated by exactly `puzzle_cell + 1`. -/
def GoodP (cell : Int) : Nat → PTree → Prop
  | 0, _ => True
  | n + 1, p =>
    (∀ cf cl, p.children.head? = some cf → p.children.getLast? = some cl →
      cf.min_x = p.min_x ∧ cl.max_x = p.max_x ∧
      p.center_x = Int.tdiv (cf.min_x + cl.max_x) 2) ∧
    adjOk cell p.children ∧
    ∀ q ∈ p.children, GoodP cell n q

lemma placeAux_spec (sz : Sizer) (hsc : 1 ≤ sz.scale) (n : Nat)
    (hrec : ∀ l : LTree, LShape sz n l → ∀ c : Int,
      GoodP sz.puzzle_cell n (phase2 sz n l c (c - l.max_x) (c + l.max_x))) :
    ∀ (ls : List LTree) (left : Int), (∀ l ∈ ls, LShape sz n l) →
      (∀ q ∈ placeAux sz (phase2 sz n) ls left, GoodP sz.puzzle_cell n q) ∧
      adjOk sz.puzzle_cell (placeAux sz (phase2 sz n) ls left) ∧
      (∀ pf, (placeAux sz (phase2 sz n) ls left).head? = some pf →
        pf.min_x = left) ∧
      (∀ pl, (placeAux sz (phase2 sz n) ls left).getLast? = some pl →
        pl.max_x = left + spanSum sz.puzzle_cell ls -
          (sz.puzzle_cell + 1)) := by
  have hcell : 1 ≤ sz.puzzle_cell := by
    unfold Sizer.puzzle_cell
    omega
  intro ls
  induction ls with
  | nil =>
    intro left _
    refine ⟨?_, trivial, ?_, ?_⟩
    · intro q hq
      exact absurd hq (List.not_mem_nil q)
    · intro pf h
      exact Option.noConfusion h
    · intro pl h
      exact Option.noConfusion h
  | cons l0 rest ih =>
    intro left hmem
    have hl0 := hmem l0 (List.mem_cons_self _ _)
    have hrest := fun x hx => hmem x (List.mem_cons_of_mem _ hx)
    have hhalf : Int.tdiv (l0.max_x - l0.min_x) 2 = l0.max_x := by
      have h1 := hl0.minx
      rw [show l0.max_x - l0.min_x = 2 * l0.max_x from by omega, tdiv_two_mul]
    rw [placeAux_cons, hhalf]
    obtain ⟨ihgood, ihadj, ihhead, ihlast⟩ :=
      ih (left + l0.max_x + l0.max_x + sz.puzzle_cell + 1) hrest
    have hp0min : (phase2 sz n l0 (left + l0.max_x)
        (left + l0.max_x - l0.max_x) (left + l0.max_x + l0.max_x)).min_x =
        left + l0.max_x - l0.max_x := phase2_min sz n l0 _ _ _
    have hp0max : (phase2 sz n l0 (left + l0.max_x)
        (left + l0.max_x - l0.max_x) (left + l0.max_x + l0.max_x)).max_x =
        left + l0.max_x + l0.max_x := phase2_max sz n l0 _ _ _
    refine ⟨?_, ?_, ?_, ?_⟩
    · intro q hq
      rcases List.mem_cons.1 hq with hq | hq
      · rw [hq]
        exact hrec l0 hl0 (left + l0.max_x)
      · exact ihgood q hq
    · refine adjOk_cons ihadj ?_
      intro p1 hp1
      have h1 := ihhead p1 hp1
      constructor
      · rw [h1, hp0max]
      · rw [h1, hp0max]
        omega
    · intro pf h
      have hpf : phase2 sz n l0 (left + l0.max_x)
          (left + l0.max_x - l0.max_x) (left + l0.max_x + l0.max_x) = pf :=
        Option.some.inj h
      rw [← hpf, hp0min]
      ring
    · intro pl h
      cases hrest0 : rest with
      | nil =>
        rw [hrest0, placeAux_nil] at h
        have hpl : phase2 sz n l0 (left + l0.max_x)
            (left + l0.max_x - l0.max_x) (left + l0.max_x + l0.max_x) = pl :=
          Option.some.inj h
        rw [← hpl, hp0max, spanSum_cons, spanSum_nil]
        ring
      | cons l1 rest2 =>
        rw [hrest0] at h
        rw [placeAux_cons, List.getLast?_cons_cons] at h
        have h2 : (placeAux sz (phase2 sz n) (l1 :: rest2)
            (left + l0.max_x + l0.max_x + sz.puzzle_cell + 1)).getLast? =
            some pl := by
          rw [placeAux_cons]
          exact h
        rw [hrest0] at ihlast
        have h3 := ihlast pl h2
        rw [h3]
        simp only [spanSum_cons]
        ring

/-- Phase 2 establishes the amended layout properties on shaped trees. -/
lemma phase2_good (sz : Sizer) (hsc : 1 ≤ sz.scale) :
    ∀ (n : Nat) (l : LTree), LShape sz n l → ∀ c : Int,
      GoodP sz.puzzle_cell n
        (phase2 sz n l c (c - l.max_x) (c + l.max_x)) := by
  intro n
  induction n with
  | zero =>
    intro l hl c
    exact trivial
  | succ n ih =>
    intro l hl c
    obtain ⟨hsy, hnn, hwidth, hch⟩ := hl
    show GoodP sz.puzzle_cell (n + 1) (.mk c (c - l.max_x) (c + l.max_x)
      (placeAux sz (phase2 sz n) l.children (c - l.max_x)))
    obtain ⟨hgood, hadj, hhead, hlast⟩ :=
      placeAux_spec sz hsc n (fun l2 h2 c2 => ih l2 h2 c2) l.children
        (c - l.max_x) hch
    refine ⟨?_, hadj, hgood⟩
    intro cf cl hcf hcl
    have hne : l.children ≠ [] := by
      intro hc
      rw [hc, placeAux_nil] at hcf
      exact Option.noConfusion hcf
    have h1 := hhead cf hcf
    have h2 := hlast cl hcl
    have hw := hwidth hne
    refine ⟨h1, ?_, ?_⟩
    · show cl.max_x = c + l.max_x
      omega
    · show c = Int.tdiv (cf.min_x + cl.max_x) 2
      have hsum : cf.min_x + cl.max_x = 2 * c := by omega
      rw [hsum, tdiv_two_mul]

/-- C9 (amended): for every tree and every scale at least 1, after both
layout phases every parent's extent is exactly filled by its children — the
first child's final `min_x` is the parent's `min_x`, the last child's final
`max_x` is the parent's `max_x`, and the parent's `center_x` is the exact
midpoint of those two — and adjacent siblings' extents are disjoint,
separated by exactly `puzzle_cell + 1`. -/
theorem claim_C9 (sz : Sizer) (t : DTree) (fuel : Nat)
    (hsc : 1 ≤ sz.scale) (hfuel : okFuel fuel t = true) :
    GoodP sz.puzzle_cell fuel (build_coord sz fuel t) := by
  have hshape := phase1_shape sz hsc fuel t hfuel
  have hg := phase2_good sz hsc fuel (phase1 sz fuel t) hshape 0
  have hmin : (0 : Int) - (phase1 sz fuel t).max_x =
      (phase1 sz fuel t).min_x := by
    have := hshape.minx
    omega
  have hmax : (0 : Int) + (phase1 sz fuel t).max_x =
      (phase1 sz fuel t).max_x := by
    ring
  rw [hmin, hmax] at hg
  exact hg

/-- Concrete instantiation of `claim_C9` at the counterexample tree and
scale 2. -/
theorem claim_C9_witness :
    1 ≤ cexSizer.scale ∧ okFuel 3 cexTree = true ∧
    GoodP cexSizer.puzzle_cell 3 (build_coord cexSizer 3 cexTree) :=
  ⟨by decide, by decide, claim_C9 cexSizer cexTree 3 (by decide) (by decide)⟩

/-! ### Claim C8: on-path marking (`build_depth` and
`new_from_map_search_tree` in `src/draw_tree.rs`)

The draw tree is unfolded from the closed map: the children of a state `p`
are the map entries whose parent is `p` and whose key differs from its
parent (the self-parent entry of the initial state is skipped), in map
order.  The recursion depth is bounded by fuel, as the Rust recursion is
bounded by the finite tree.  `build_depth` sets a node's `on_path` flag to
true exactly when its subtree contains the path-end state (it propagates
the or of its children's results and overrides with true on the path-end
itself). -/

/-- The children keys of `p` in the closed map (`new_from_map_search_tree`:
every entry `(puzzle, (parent, _))` with `puzzle != parent` is pushed onto
`parent`'s child list). -/
def childKeys (C : List (Puzzle × (Puzzle × Int))) (p : Puzzle) :
    List Puzzle :=
  (C.filter (fun e => decide (e.2.1 = p ∧ e.1 ≠ e.2.1))).map Prod.fst

/-- A node of the unfolded draw tree. -/
inductive PuzTree where
  | mk (puzzle : Puzzle) (children : List PuzTree)

def PuzTree.puzzle : PuzTree → Puzzle
  | .mk p _ => p

def PuzTree.children : PuzTree → List PuzTree
  | .mk _ cs => cs

/-- Unfolds the draw tree from the closed map, to the given depth. -/
def buildTree (C : List (Puzzle × (Puzzle × Int))) : Nat → Puzzle → PuzTree
  | 0, p => .mk p []
  | n + 1, p => .mk p ((childKeys C p).map (buildTree C n))

/-- The boolean `build_depth` propagates: whether the subtree contains the
path-end state. -/
def hasGoal (g : Puzzle) : Nat → PuzTree → Bool
  | 0, t => t.puzzle == g
  | n + 1, t => t.puzzle == g || (t.children.map (hasGoal g n)).any id

/-- All states of the tree, in preorder. -/
def allPuzzles : Nat → PuzTree → List Puzzle
  | 0, t => [t.puzzle]
  | n + 1, t => t.puzzle :: (t.children.map (allPuzzles n)).flatten

/-- The `on_path` flag assignment `build_depth` produces, as a preorder
list of (state, flag) pairs. -/
def markList (g : Puzzle) : Nat → PuzTree → List (Puzzle × Bool)
  | 0, t => [(t.puzzle, t.puzzle == g)]
  | n + 1, t => (t.puzzle, hasGoal g (n + 1) t) ::
      (t.children.map (markList g n)).flatten

/-- The states whose `on_path` flag is set, in preorder. -/
def markedPuzzles (g : Puzzle) (n : Nat) (t : PuzTree) : List Puzzle :=
  ((markList g n t).filter (fun e => e.2)).map Prod.fst

/-- The first `Some` of a list of options (the unique one, under the
claim's tree premise). -/
def firstSome {α : Type} : List (Option α) → Option α
  | [] => none
  | some a :: _ => some a
  | none :: rest => firstSome rest

/-- The root-to-goal route in the tree, if the goal is present. -/
def pathTo (g : Puzzle) : Nat → PuzTree → Option (List Puzzle)
  | 0, t => if t.puzzle = g then some [t.puzzle] else none
  | n + 1, t =>
    if t.puzzle = g then some [t.puzzle]
    else
      match firstSome (t.children.map (pathTo g n)) with
      | some path => some (t.puzzle :: path)
      | none => none

lemma filter_flatten {α : Type} (p : α → Bool) :
    ∀ L : List (List α), (L.flatten).filter p = (L.map (List.filter p)).flatten := by
  intro L
  induction L with
  | nil => rfl
  | cons l ls ih =>
    simp only [List.flatten_cons, List.filter_append, List.map_cons, ih]

lemma hasGoal_iff (g : Puzzle) : ∀ (n : Nat) (t : PuzTree),
    hasGoal g n t = true ↔ g ∈ allPuzzles n t := by
  intro n
  induction n with
  | zero =>
    intro t
    show (t.puzzle == g) = true ↔ g ∈ [t.puzzle]
    rw [beq_iff_eq, List.mem_singleton]
    exact eq_comm
  | succ n ih =>
    intro t
    show (t.puzzle == g || (t.children.map (hasGoal g n)).any id) = true ↔
      g ∈ t.puzzle :: (t.children.map (allPuzzles n)).flatten
    rw [Bool.or_eq_true, List.any_eq_true]
    simp only [List.mem_cons, beq_iff_eq, List.mem_flatten, List.mem_map, id]
    constructor
    · rintro (h | ⟨b, ⟨c, hc, hb⟩, hid⟩)
      · exact Or.inl h.symm
      · subst hb
        exact Or.inr ⟨allPuzzles n c, ⟨c, hc, rfl⟩, (ih c).1 hid⟩
    · rintro (h | ⟨L, ⟨c, hc, hL⟩, hg⟩)
      · exact Or.inl h.symm
      · subst hL
        exact Or.inr ⟨hasGoal g n c, ⟨c, hc, rfl⟩, (ih c).2 hg⟩

lemma markedPuzzles_succ (g : Puzzle) (n : Nat) (t : PuzTree) :
    markedPuzzles g (n + 1) t =
      (if hasGoal g (n + 1) t = true then [t.puzzle] else []) ++
        (t.children.map (fun c => markedPuzzles g n c)).flatten := by
  show ((((t.puzzle, hasGoal g (n + 1) t) ::
      (t.children.map (markList g n)).flatten).filter (fun e => e.2)).map
        Prod.fst) = _
  rw [List.filter_cons, filter_flatten, List.map_map]
  cases hfl : hasGoal g (n + 1) t with
  | true =>
    rw [if_pos (show ((t.puzzle, (true : Bool)).2 = true) from rfl)]
    rw [if_pos rfl]
    rw [List.map_cons, List.map_flatten, List.map_map, List.singleton_append]
    rfl
  | false =>
    rw [if_neg (show ¬ ((t.puzzle, (false : Bool)).2 = true) from by simp)]
    rw [if_neg (by simp)]
    rw [List.map_flatten, List.map_map, List.nil_append]
    rfl

lemma markList_flags (g : Puzzle) : ∀ (n : Nat) (t : PuzTree),
    g ∉ allPuzzles n t → ∀ e ∈ markList g n t, e.2 = false := by
  intro n
  induction n with
  | zero =>
    intro t h e he
    have he2 : e ∈ [(t.puzzle, t.puzzle == g)] := he
    rw [List.mem_singleton.1 he2]
    show (t.puzzle == g) = false
    rw [beq_eq_false_iff_ne]
    intro hc
    exact h (by rw [← hc]; exact List.mem_singleton.2 rfl)
  | succ n ih =>
    intro t h e he
    have he2 : e ∈ (t.puzzle, hasGoal g (n + 1) t) ::
        (t.children.map (markList g n)).flatten := he
    rcases List.mem_cons.1 he2 with hr | hr
    · rw [hr]
      show hasGoal g (n + 1) t = false
      cases hhg : hasGoal g (n + 1) t with
      | true => exact absurd ((hasGoal_iff g (n + 1) t).1 hhg) h
      | false => rfl
    · obtain ⟨L, hL, heL⟩ := List.mem_flatten.1 hr
      obtain ⟨c, hc, hLc⟩ := List.mem_map.1 hL
      subst hLc
      refine ih c ?_ e heL
      intro hg2
      apply h
      show g ∈ t.puzzle :: (t.children.map (allPuzzles n)).flatten
      exact List.mem_cons_of_mem _
        (List.mem_flatten.2 ⟨allPuzzles n c, List.mem_map.2 ⟨c, hc, rfl⟩, hg2⟩)

/-- If the path-end state is nowhere in the tree, no node is marked. -/
lemma marked_nil (g : Puzzle) (n : Nat) (t : PuzTree)
    (h : g ∉ allPuzzles n t) : markedPuzzles g n t = [] := by
  unfold markedPuzzles
  have hfl : (markList g n t).filter (fun e => e.2) = [] :=
    List.filter_eq_nil_iff.2 (fun e he => by
      rw [markList_flags g n t h e he]
      exact Bool.false_ne_true)
  rw [hfl]
  rfl

lemma pathTo_zero (g : Puzzle) (t : PuzTree) :
    pathTo g 0 t = if t.puzzle = g then some [t.puzzle] else none := rfl

lemma pathTo_succ (g : Puzzle) (n : Nat) (t : PuzTree) :
    pathTo g (n + 1) t =
      if t.puzzle = g then some [t.puzzle]
      else
        match firstSome (t.children.map (pathTo g n)) with
        | some path => some (t.puzzle :: path)
        | none => none := rfl

lemma firstSome_all_none {α : Type} :
    ∀ L : List (Option α), (∀ o ∈ L, o = none) → firstSome L = none := by
  intro L
  induction L with
  | nil =>
    intro _
    rfl
  | cons o rest ih =>
    intro h
    have ho := h o (List.mem_cons_self _ _)
    subst ho
    show firstSome rest = none
    exact ih (fun x hx => h x (List.mem_cons_of_mem _ hx))

lemma firstSome_append_some {α : Type} :
    ∀ (L1 : List (Option α)) {L2 : List (Option α)} {a : α},
    (∀ o ∈ L1, o = none) → firstSome L2 = some a →
    firstSome (L1 ++ L2) = some a := by
  intro L1
  induction L1 with
  | nil =>
    intro L2 a _ h2
    exact h2
  | cons o rest ih =>
    intro L2 a h h2
    have ho := h o (List.mem_cons_self _ _)
    subst ho
    show firstSome (rest ++ L2) = some a
    exact ih (fun x hx => h x (List.mem_cons_of_mem _ hx)) h2

lemma firstSome_mem {α : Type} :
    ∀ (L : List (Option α)) (a : α), firstSome L = some a → some a ∈ L := by
  intro L
  induction L with
  | nil =>
    intro a h
    exact Option.noConfusion h
  | cons o rest ih =>
    intro a h
    cases o with
    | some b =>
      have hb : some b = some a := h
      rw [← hb]
      exact List.mem_cons_self _ _
    | none =>
      have h2 : firstSome rest = some a := h
      exact List.mem_cons_of_mem _ (ih a h2)

lemma pathTo_none (g : Puzzle) : ∀ (n : Nat) (t : PuzTree),
    g ∉ allPuzzles n t → pathTo g n t = none := by
  intro n
  induction n with
  | zero =>
    intro t h
    rw [pathTo_zero, if_neg (fun hc => h (by rw [← hc]; exact List.mem_singleton.2 rfl))]
  | succ n ih =>
    intro t h
    have hpg : t.puzzle ≠ g := by
      intro hc
      exact h (by rw [← hc]; exact List.mem_cons_self _ _)
    rw [pathTo_succ, if_neg hpg]
    have hfs : firstSome (t.children.map (pathTo g n)) = none := by
      refine firstSome_all_none _ ?_
      intro o ho
      obtain ⟨c, hc, hco⟩ := List.mem_map.1 ho
      rw [← hco]
      refine ih c ?_
      intro hg2
      apply h
      show g ∈ t.puzzle :: (t.children.map (allPuzzles n)).flatten
      exact List.mem_cons_of_mem _
        (List.mem_flatten.2 ⟨allPuzzles n c, List.mem_map.2 ⟨c, hc, rfl⟩, hg2⟩)
    rw [hfs]

/-- Under distinctness of the tree's states, the marked nodes are exactly
the root-to-goal route computed by `pathTo`, in order. -/
lemma marked_path (g : Puzzle) : ∀ (n : Nat) (t : PuzTree),
    (allPuzzles n t).Nodup → g ∈ allPuzzles n t →
    ∃ path, pathTo g n t = some path ∧ markedPuzzles g n t = path := by
  intro n
  induction n with
  | zero =>
    intro t hnd hg
    have hpg : t.puzzle = g := (List.mem_singleton.1 hg).symm
    refine ⟨[t.puzzle], ?_, ?_⟩
    · rw [pathTo_zero, if_pos hpg]
    · show (([(t.puzzle, t.puzzle == g)].filter (fun e => e.2)).map
        Prod.fst) = [t.puzzle]
      rw [show (t.puzzle == g) = true from beq_iff_eq.2 hpg]
      rfl
  | succ n ih =>
    intro t hnd hg
    have hnd2 := hnd
    rw [show allPuzzles (n + 1) t =
      t.puzzle :: (t.children.map (allPuzzles n)).flatten from rfl] at hnd2
    by_cases hpg : t.puzzle = g
    · refine ⟨[t.puzzle], ?_, ?_⟩
      · rw [pathTo_succ, if_pos hpg]
      · have hflag : hasGoal g (n + 1) t = true := (hasGoal_iff g (n + 1) t).2 hg
        rw [markedPuzzles_succ, if_pos hflag]
        have hjoin : (t.children.map (fun c => markedPuzzles g n c)).flatten
            = [] := by
          rw [List.flatten_eq_nil_iff]
          intro l hl
          obtain ⟨c, hc, hlc⟩ := List.mem_map.1 hl
          rw [← hlc]
          refine marked_nil g n c ?_
          intro hg2
          refine (List.nodup_cons.1 hnd2).1 ?_
          rw [hpg]
          exact List.mem_flatten.2 ⟨allPuzzles n c, List.mem_map.2 ⟨c, hc, rfl⟩, hg2⟩
        rw [hjoin, List.append_nil]
    · have hg2 : g ∈ (t.children.map (allPuzzles n)).flatten := by
        rcases List.mem_cons.1 hg with h | h
        · exact absurd h.symm hpg
        · exact h
      obtain ⟨L, hL, hgL⟩ := List.mem_flatten.1 hg2
      obtain ⟨c, hcmem, hLc⟩ := List.mem_map.1 hL
      subst hLc
      obtain ⟨hall, hpair⟩ := List.nodup_flatten.1 (List.nodup_cons.1 hnd2).2
      have hndc : (allPuzzles n c).Nodup :=
        hall _ (List.mem_map.2 ⟨c, hcmem, rfl⟩)
      obtain ⟨path, hpath, hmarked⟩ := ih c hndc hgL
      obtain ⟨cs1, cs2, hsplit⟩ := List.append_of_mem hcmem
      have hpair2 := hpair
      rw [hsplit, List.map_append, List.map_cons] at hpair2
      obtain ⟨hpairA, hpairB, hcross⟩ := List.pairwise_append.1 hpair2
      have hnotin1 : ∀ x ∈ cs1, g ∉ allPuzzles n x := by
        intro x hx hg3
        exact hcross (allPuzzles n x) (List.mem_map.2 ⟨x, hx, rfl⟩)
          (allPuzzles n c) (List.mem_cons_self _ _) hg3 hgL
      have hnotin2 : ∀ x ∈ cs2, g ∉ allPuzzles n x := by
        intro x hx hg3
        exact (List.pairwise_cons.1 hpairB).1 (allPuzzles n x)
          (List.mem_map.2 ⟨x, hx, rfl⟩) hgL hg3
      refine ⟨t.puzzle :: path, ?_, ?_⟩
      · rw [pathTo_succ, if_neg hpg]
        have hfs : firstSome (t.children.map (pathTo g n)) = some path := by
          rw [hsplit, List.map_append, List.map_cons]
          refine firstSome_append_some _ ?_ ?_
          · intro o ho
            obtain ⟨x, hx, hxo⟩ := List.mem_map.1 ho
            rw [← hxo]
            exact pathTo_none g n x (hnotin1 x hx)
          · rw [hpath]
            rfl
        rw [hfs]
      · rw [markedPuzzles_succ,
          if_pos ((hasGoal_iff g (n + 1) t).2 hg)]
        have hflat : (t.children.map (fun x => markedPuzzles g n x)).flatten
            = path := by
          rw [hsplit, List.map_append, List.map_cons, List.flatten_append,
            List.flatten_cons]
          have h1 : (cs1.map (fun x => markedPuzzles g n x)).flatten = [] := by
            rw [List.flatten_eq_nil_iff]
            intro l hl
            obtain ⟨x, hx, hxl⟩ := List.mem_map.1 hl
            rw [← hxl]
            exact marked_nil g n x (hnotin1 x hx)
          have h2 : (cs2.map (fun x => markedPuzzles g n x)).flatten = [] := by
            rw [List.flatten_eq_nil_iff]
            intro l hl
            obtain ⟨x, hx, hxl⟩ := List.mem_map.1 hl
            rw [← hxl]
            exact marked_nil g n x (hnotin2 x hx)
          rw [h1, h2, hmarked, List.nil_append, List.append_nil]
        rw [hflat]
        rfl

lemma getLast?_cons_of_ne_nil {α : Type} {a : α} {l : List α} (h : l ≠ []) :
    (a :: l).getLast? = l.getLast? := by
  cases l with
  | nil => exact absurd rfl h
  | cons b l2 => exact List.getLast?_cons_cons

/-- The route computed on the unfolded tree starts at the root, ends at
the goal, and each step goes to a child key of the previous state. -/
lemma pathTo_props (C : List (Puzzle × (Puzzle × Int))) (g : Puzzle) :
    ∀ (n : Nat) (p : Puzzle) (path : List Puzzle),
    pathTo g n (buildTree C n p) = some path →
    path.head? = some p ∧ path.getLast? = some g ∧
    List.Chain' (fun a b => b ∈ childKeys C a) path := by
  intro n
  induction n with
  | zero =>
    intro p path h
    rw [pathTo_zero] at h
    by_cases hpg : (buildTree C 0 p).puzzle = g
    · rw [if_pos hpg] at h
      have hp : [(buildTree C 0 p).puzzle] = path := Option.some.inj h
      rw [← hp]
      have hroot : (buildTree C 0 p).puzzle = p := rfl
      refine ⟨?_, ?_, List.chain'_singleton _⟩
      · rw [hroot]
        rfl
      · rw [hpg]
        rfl
    · rw [if_neg hpg] at h
      exact Option.noConfusion h
  | succ n ih =>
    intro p path h
    rw [pathTo_succ] at h
    by_cases hpg : (buildTree C (n + 1) p).puzzle = g
    · rw [if_pos hpg] at h
      have hp : [(buildTree C (n + 1) p).puzzle] = path := Option.some.inj h
      rw [← hp]
      have hroot : (buildTree C (n + 1) p).puzzle = p := rfl
      refine ⟨?_, ?_, List.chain'_singleton _⟩
      · rw [hroot]
        rfl
      · rw [hpg]
        rfl
    · rw [if_neg hpg] at h
      cases hfs : firstSome ((buildTree C (n + 1) p).children.map
          (pathTo g n)) with
      | none =>
        rw [hfs] at h
        exact Option.noConfusion h
      | some path2 =>
        rw [hfs] at h
        have hp : (buildTree C (n + 1) p).puzzle :: path2 = path :=
          Option.some.inj h
        obtain ⟨c, hcmem, hcp⟩ := List.mem_map.1 (firstSome_mem _ _ hfs)
        have hcmem2 : c ∈ (childKeys C p).map (buildTree C n) := hcmem
        obtain ⟨q, hq, hqc⟩ := List.mem_map.1 hcmem2
        subst hqc
        obtain ⟨h1, h2, h3⟩ := ih q path2 hcp
        have hne : path2 ≠ [] := by
          intro hc
          rw [hc] at h1
          exact Option.noConfusion h1
        rw [← hp]
        refine ⟨rfl, ?_, ?_⟩
        · rw [getLast?_cons_of_ne_nil hne]
          exact h2
        · rw [List.chain'_cons']
          refine ⟨?_, h3⟩
          intro y hy
          rw [h1] at hy
          have hyq : q = y := Option.some.inj hy
          rw [← hyq]
          show q ∈ childKeys C (buildTree C (n + 1) p).puzzle
          exact hq

lemma markList_fst (g : Puzzle) : ∀ (n : Nat) (t : PuzTree),
    (markList g n t).map Prod.fst = allPuzzles n t := by
  intro n
  induction n with
  | zero =>
    intro t
    rfl
  | succ n ih =>
    intro t
    show ((t.puzzle, hasGoal g (n + 1) t) ::
      (t.children.map (markList g n)).flatten).map Prod.fst =
      t.puzzle :: (t.children.map (allPuzzles n)).flatten
    rw [List.map_cons, List.map_flatten, List.map_map]
    refine congrArg _ (congrArg _ ?_)
    exact List.map_congr_left (fun c _ => ih c)

lemma markedPuzzles_sublist (g : Puzzle) (n : Nat) (t : PuzTree) :
    List.Sublist (markedPuzzles g n t) (allPuzzles n t) := by
  unfold markedPuzzles
  rw [← markList_fst g n t]
  exact List.Sublist.map Prod.fst (List.filter_sublist _)

/-- C8: over the tree unfolded from the closed map (children of `p` are the
non-self entries with parent `p`), with all unfolded states distinct (the
parent edges form a tree): if the path-end state is absent, no node's
on-path flag is set; if present, the flagged nodes are exactly the nodes of
the route from the root to the path-end — a simple path starting at the
root, ending at the path-end, each step descending to a child key. -/
theorem claim_C8 (C : List (Puzzle × (Puzzle × Int))) (initial g : Puzzle)
    (fuel : Nat)
    (hnd : (allPuzzles fuel (buildTree C fuel initial)).Nodup) :
    (g ∉ allPuzzles fuel (buildTree C fuel initial) →
      markedPuzzles g fuel (buildTree C fuel initial) = []) ∧
    (g ∈ allPuzzles fuel (buildTree C fuel initial) →
      ∃ path, pathTo g fuel (buildTree C fuel initial) = some path ∧
        markedPuzzles g fuel (buildTree C fuel initial) = path ∧
        path.head? = some initial ∧ path.getLast? = some g ∧
        path.Nodup ∧
        List.Chain' (fun a b => b ∈ childKeys C a) path) := by
  constructor
  · exact marked_nil g fuel _
  · intro hg
    obtain ⟨path, hp, hm⟩ := marked_path g fuel _ hnd hg
    obtain ⟨h1, h2, h3⟩ := pathTo_props C g fuel initial path hp
    refine ⟨path, hp, hm, h1, h2, ?_, h3⟩
    rw [← hm]
    exact (markedPuzzles_sublist g fuel _).nodup hnd

/-- A two-node closed map: the initial state with the self-parent entry and
one successor. -/
def c8map : List (Puzzle × (Puzzle × Int)) :=
  [(movedBoard, (solvedBoard, 1)), (solvedBoard, (solvedBoard, 0))]

/-- Concrete instantiation of `claim_C8`: a two-node tree whose unfolded
states are distinct; the path-end `movedBoard` is present. -/
theorem claim_C8_witness :
    (allPuzzles 2 (buildTree c8map 2 solvedBoard)).Nodup ∧
    ((movedBoard ∉ allPuzzles 2 (buildTree c8map 2 solvedBoard) →
      markedPuzzles movedBoard 2 (buildTree c8map 2 solvedBoard) = []) ∧
    (movedBoard ∈ allPuzzles 2 (buildTree c8map 2 solvedBoard) →
      ∃ path, pathTo movedBoard 2 (buildTree c8map 2 solvedBoard) =
          some path ∧
        markedPuzzles movedBoard 2 (buildTree c8map 2 solvedBoard) = path ∧
        path.head? = some solvedBoard ∧ path.getLast? = some movedBoard ∧
        path.Nodup ∧
        List.Chain' (fun a b => b ∈ childKeys c8map a) path)) :=
  ⟨by decide, claim_C8 c8map solvedBoard movedBoard 2 (by decide)⟩

end SlidingPuzzle
